import Mathlib

/-!
# A verification of the difflib-ts sequence matcher and differ

Shallow embedding of `src/index.ts` (a TypeScript port of Python's difflib).
Conventions of the embedding, used throughout:

* A sequence (`string | string[]` in the source) is a `List α` for an
  element type `α` with decidable equality; in the source the elements are
  strings (single characters of a string, or the strings of an array), so
  distinct elements always have distinct object keys.  Textual lines are
  `List Char`.
* The source's `===` identity guards (`setSeq1`, `setSeq2`) are modelled as
  value equality; for fresh array inputs the identity test never fires, so
  the constructor always runs `_chainB` here.
* JavaScript numbers are modelled as `ℕ` (indices, lengths) / `ℤ`
  (counters that can go negative) / `ℚ` (the similarity ratios; float
  division by a common positive denominator is monotone in the numerator,
  so the orderings proved here are the float orderings).
* Dictionaries keyed by elements or indices (`b2j`, `j2len`, `avail`,
  `fullbcount`) are total functions with the source's "absent key" default.
* CoffeeScript-style `for` loops that would iterate downward when the lower
  bound exceeds the upper bound are modelled for the ascending case only;
  every call site in the claims satisfies the ascending precondition.
-/

namespace Difflib

variable {α : Type} [DecidableEq α]

/-- `_calculateRatio(matches, length)`: `2.0 * matches / length`, or `1.0`
for a zero length (source lines 7–11). -/
def _calculateRatio (nmatch len : ℕ) : ℚ :=
  if len ≠ 0 then (2 * (nmatch : ℚ)) / (len : ℚ) else 1

/-- `_arrayCmp(a, b)` (source lines 13–21): lexicographic comparison of two
arrays, entries first, then length.  The source's index loop over the
common prefix is written as structural recursion. -/
def _arrayCmp : List ℤ → List ℤ → ℤ
  | x :: xs, y :: ys =>
    if x < y then -1 else if y < x then 1 else _arrayCmp xs ys
  | a, b => (a.length : ℤ) - (b.length : ℤ)

/-- The ascending list of indices at which `x` occurs in `b`, starting the
numbering at `i`: the occurrence lists `_chainB` accumulates into `b2j`
(source lines 307–311). -/
def occAux (x : α) : List α → ℕ → List ℕ
  | [], _ => []
  | y :: ys, i => if y = x then i :: occAux x ys (i + 1) else occAux x ys (i + 1)

/-- `b2j[x]` before the junk/popular purges: all positions of `x` in `b`. -/
def occ (b : List α) (x : α) : List ℕ := occAux x b 0

/-- The `isbjunk` membership test `_chainB` builds (source lines 314–323,
343): `x` is a key of `b2j` (an element of `b`) that the user predicate
calls junk. -/
def mkIsbjunk (b : List α) (isjunk : Option (α → Bool)) : α → Bool :=
  fun x =>
    match isjunk with
    | none => false
    | some f => decide (x ∈ b) && f x

/-- The `isbpopular` membership test (source lines 326–337, 344): with
`autojunk` on and `b` at least 200 long, a non-junk element of `b` whose
occurrence count exceeds `⌊len(b)/100⌋ + 1`. -/
def mkIsbpopular (b : List α) (isjunk : Option (α → Bool)) (autojunk : Bool) :
    α → Bool :=
  fun x =>
    autojunk && decide (200 ≤ b.length) && decide (x ∈ b) &&
      !mkIsbjunk b isjunk x && decide (b.length / 100 + 1 < (occ b x).length)

/-- The purged occurrence map `b2j` (source `_chainB`, lines 292–345): junk
and popular keys are deleted; an absent key reads as `[]` (the
`_has(b2j, elt) ? b2j[elt] : []` lookups). -/
def mkB2j (b : List α) (isjunk : Option (α → Bool)) (autojunk : Bool) :
    α → List ℕ :=
  fun x =>
    if mkIsbjunk b isjunk x || mkIsbpopular b isjunk autojunk x then []
    else occ b x

/-- The opcode tags (`OpcodeName` of `types.ts`; the transient `''` tag of
`getOpcodes` never reaches a result list and is not represented). -/
inductive Tag
  | equal
  | insert
  | delete
  | replace
deriving DecidableEq

/-- An opcode `[tag, i1, i2, j1, j2]` (`OpcodeOperation` of `types.ts`). -/
abbrev Opcode := Tag × ℕ × ℕ × ℕ × ℕ

/-- The matcher state (class `SequenceMatcher`, source lines 98–735): the
two sequences, the user junk predicate and autojunk flag, the B-derived
structures `_chainB` computes, and the three memoization slots. -/
structure Matcher (α : Type) where
  a : List α
  b : List α
  isjunk : Option (α → Bool)
  autojunk : Bool
  b2j : α → List ℕ
  junkSet : α → Bool
  popularSet : α → Bool
  fullbcount : Option (α → ℕ)
  matchingBlocks : Option (List (ℕ × ℕ × ℕ))
  opcodes : Option (List Opcode)

/-- `_chainB` (source lines 292–345) as a state transformer: rebuild the
B-derived structures from the stored `b`. -/
def Matcher.chainB (m : Matcher α) : Matcher α :=
  { m with
    b2j := mkB2j m.b m.isjunk m.autojunk
    junkSet := mkIsbjunk m.b m.isjunk
    popularSet := mkIsbpopular m.b m.isjunk m.autojunk }

/-- `setSeq1` (source lines 242–246): replace `a` and null the
matching-block and opcode caches; an input equal to the stored `a` is a
no-op (the source compares identities; value equality is the embedding's
reading, and the claims assume the input differs). -/
def Matcher.setSeq1 (m : Matcher α) (a : List α) : Matcher α :=
  if a = m.a then m
  else { m with a := a, matchingBlocks := none, opcodes := none }

/-- `setSeq2` (source lines 267–273): replace `b`, null all three caches
and rerun `_chainB`. -/
def Matcher.setSeq2 (m : Matcher α) (b : List α) : Matcher α :=
  if b = m.b then m
  else
    Matcher.chainB
      { m with b := b, matchingBlocks := none, opcodes := none,
               fullbcount := none }

/-- The constructor (source lines 197–209): store the inputs and run
`setSeqs`, which chains `b`.  Fresh array arguments never hit the identity
early-returns, so the B-structures are always built. -/
def mkMatcher (isjunk : Option (α → Bool)) (a b : List α) (autojunk : Bool) :
    Matcher α :=
  { a := a, b := b, isjunk := isjunk, autojunk := autojunk
    b2j := mkB2j b isjunk autojunk
    junkSet := mkIsbjunk b isjunk
    popularSet := mkIsbpopular b isjunk autojunk
    fullbcount := none, matchingBlocks := none, opcodes := none }

/-- `a[i] === b[j]` for the extension loops of `findLongestMatch`; both
indices are in range at every call site the claims reach. -/
def aeqb (a b : List α) (i j : ℕ) : Bool :=
  match a[i]?, b[j]? with
  | some x, some y => decide (x = y)
  | _, _ => false

/-- `isbjunk(b[j])` as a test on the index `j`. -/
def bjunkAt (junk : α → Bool) (b : List α) (j : ℕ) : Bool :=
  match b[j]? with
  | some y => junk y
  | none => false

/-- The inner loop of `findLongestMatch` (source lines 406–417): walk the
ascending occurrence list of `a[i]`, skipping `j < blo` (`continue`) and
stopping at `j ≥ bhi` (`break`); build `newj2len` and update the running
best on strict improvement.  `j2len[j-1] || 0` reads the previous row, with
`0` for the absent key `-1` when `j = 0`. -/
def flmRow (blo bhi i : ℕ) (j2len : ℕ → ℕ) :
    List ℕ → (ℕ → ℕ) → ℕ × ℕ × ℕ → (ℕ → ℕ) × (ℕ × ℕ × ℕ)
  | [], acc, best => (acc, best)
  | j :: js, acc, best =>
    if j < blo then flmRow blo bhi i j2len js acc best
    else if bhi ≤ j then (acc, best)
    else
      let k := (if j = 0 then 0 else j2len (j - 1)) + 1
      let acc' := fun j' => if j' = j then k else acc j'
      let best' := if best.2.2 < k then (i + 1 - k, j + 1 - k, k) else best
      flmRow blo bhi i j2len js acc' best'

/-- The outer loop of `findLongestMatch` over `i ∈ [alo, ahi)` (source
lines 403–418), rolling the `j2len` dictionary row by row. -/
def flmRows (b2j : α → List ℕ) (a : List α) (blo bhi : ℕ) :
    List ℕ → (ℕ → ℕ) → ℕ × ℕ × ℕ → ℕ × ℕ × ℕ
  | [], _, best => best
  | i :: is, j2len, best =>
    let js := match a[i]? with | some x => b2j x | none => []
    let p := flmRow blo bhi i j2len js (fun _ => 0) best
    flmRows b2j a blo bhi is p.1 p.2

/-- A backward extension loop of `findLongestMatch` (source lines 424–428
with `cond = not junk`, lines 442–446 with `cond = junk`): while the pair
just before the block is equal and its B side passes `cond`, grow the block
leftwards. -/
def extendLo (cond : ℕ → Bool) (eq2 : ℕ → ℕ → Bool) (alo blo : ℕ) :
    ℕ → ℕ → ℕ → ℕ × ℕ × ℕ
  | 0, bestj, bestsize => (0, bestj, bestsize)
  | besti + 1, bestj, bestsize =>
    if alo < besti + 1 ∧ blo < bestj ∧ cond (bestj - 1) = true ∧
        eq2 besti (bestj - 1) = true then
      extendLo cond eq2 alo blo besti (bestj - 1) (bestsize + 1)
    else (besti + 1, bestj, bestsize)

/-- A forward extension loop of `findLongestMatch` (source lines 429–433
and 447–451): while the pair just after the block is equal and its B side
passes `cond`, grow the block rightwards.  Each iteration needs
`besti + bestsize < ahi`, so `ahi` iterations of fuel always cover the
whole loop; `findLongestMatch` passes exactly that. -/
def extendHi (cond : ℕ → Bool) (eq2 : ℕ → ℕ → Bool) (ahi bhi besti bestj : ℕ) :
    ℕ → ℕ → ℕ
  | 0, bestsize => bestsize
  | fuel + 1, bestsize =>
    if besti + bestsize < ahi ∧ bestj + bestsize < bhi ∧
        cond (bestj + bestsize) = true ∧
        eq2 (besti + bestsize) (bestj + bestsize) = true then
      extendHi cond eq2 ahi bhi besti bestj fuel (bestsize + 1)
    else bestsize

/-- The dynamic-programming part of `findLongestMatch` (source lines
396–418): the best junk-free block before the extension passes. -/
def flmCore (m : Matcher α) (alo ahi blo bhi : ℕ) : ℕ × ℕ × ℕ :=
  flmRows m.b2j m.a blo bhi (List.range' alo (ahi - alo))
    (fun _ => 0) (alo, blo, 0)

/-- The four extension passes of `findLongestMatch` (source lines
424–451) applied to a block: extend backward then forward through
non-junk equal pairs, then backward and forward through junk equal
pairs. -/
def flmExtend (m : Matcher α) (alo ahi blo bhi : ℕ) (core : ℕ × ℕ × ℕ) :
    ℕ × ℕ × ℕ :=
  let nonjunk := fun j => !bjunkAt m.junkSet m.b j
  let junk := fun j => bjunkAt m.junkSet m.b j
  let e := aeqb m.a m.b
  let s1 := extendLo nonjunk e alo blo core.1 core.2.1 core.2.2
  let s2 : ℕ × ℕ × ℕ :=
    (s1.1, s1.2.1, extendHi nonjunk e ahi bhi s1.1 s1.2.1 ahi s1.2.2)
  let s3 := extendLo junk e alo blo s2.1 s2.2.1 s2.2.2
  (s3.1, s3.2.1, extendHi junk e ahi bhi s3.1 s3.2.1 ahi s3.2.2)

/-- `findLongestMatch(alo, ahi, blo, bhi)` (source lines 378–454): the
dynamic program over `b2j`, then the extension passes. -/
def findLongestMatch (m : Matcher α) (alo ahi blo bhi : ℕ) : ℕ × ℕ × ℕ :=
  flmExtend m alo ahi blo bhi (flmCore m alo ahi blo bhi)

/-- The `[i, j, k]` triple of a block as the array `_arrayCmp` receives
from `matchingBlocks.sort(_arrayCmp)`. -/
def blkKey (t : ℕ × ℕ × ℕ) : List ℤ := [(t.1 : ℤ), (t.2.1 : ℤ), (t.2.2 : ℤ)]

/-- The order `matchingBlocks.sort(_arrayCmp)` sorts by (source line 506). -/
def blkLe (t u : ℕ × ℕ × ℕ) : Prop := _arrayCmp (blkKey t) (blkKey u) ≤ 0

instance : DecidableRel blkLe := fun t u => by unfold blkLe; infer_instance

/-- The work-queue loop of `getMatchingBlocks` (source lines 487–505).  The
queue's head is the stack top (`queue.pop()` takes the latest push); the
left sub-window is pushed before the right one, so the right is popped
first.  The source loop terminates because every pushed window is strictly
smaller (proved below from the bounds of `findLongestMatch`); here an
explicit fuel bounds the pop count, and `computeMatchingBlocks` passes fuel
`2 * len(a) + 1`, an upper bound on the number of pops. -/
def gmbLoop (m : Matcher α) :
    ℕ → List (ℕ × ℕ × ℕ × ℕ) → List (ℕ × ℕ × ℕ) → List (ℕ × ℕ × ℕ)
  | 0, _, acc => acc
  | _ + 1, [], acc => acc
  | fuel + 1, (alo, ahi, blo, bhi) :: queue, acc =>
    let x := findLongestMatch m alo ahi blo bhi
    if x.2.2 ≠ 0 then
      let queue1 :=
        if alo < x.1 ∧ blo < x.2.1 then (alo, x.1, blo, x.2.1) :: queue
        else queue
      let queue2 :=
        if x.1 + x.2.2 < ahi ∧ x.2.1 + x.2.2 < bhi then
          (x.1 + x.2.2, ahi, x.2.1 + x.2.2, bhi) :: queue1
        else queue1
      gmbLoop m fuel queue2 (acc ++ [x])
    else gmbLoop m fuel queue acc

/-- The collapsing pass of `getMatchingBlocks` (source lines 510–531):
fold the sorted blocks, merging a block into the running one when they
touch, and emitting the running one (if non-dummy) otherwise. -/
def collapseBlocks : List (ℕ × ℕ × ℕ) → ℕ × ℕ × ℕ → List (ℕ × ℕ × ℕ)
  | [], cur => if cur.2.2 ≠ 0 then [cur] else []
  | (i2, j2, k2) :: rest, (i1, j1, k1) =>
    if i1 + k1 = i2 ∧ j1 + k1 = j2 then collapseBlocks rest (i1, j1, k1 + k2)
    else
      (if k1 ≠ 0 then [(i1, j1, k1)] else []) ++ collapseBlocks rest (i2, j2, k2)

/-- `getMatchingBlocks` without the cache check (source lines 476–535):
queue decomposition, sort by `_arrayCmp` (insertion sort computes the same
list: the keys are distinct, as proved below), collapse, sentinel.  The
source's JS sort is replaced by `List.insertionSort` over the same
comparator. -/
def computeMatchingBlocks (m : Matcher α) : List (ℕ × ℕ × ℕ) :=
  let la := m.a.length
  let lb := m.b.length
  let blocks := gmbLoop m (2 * la + 1) [(0, la, 0, lb)] []
  collapseBlocks (List.insertionSort blkLe blocks) (0, 0, 0) ++ [(la, lb, 0)]

/-- `getMatchingBlocks()` (source lines 476–535): the cached list if
present, else the computed one. -/
def getMatchingBlocks (m : Matcher α) : List (ℕ × ℕ × ℕ) :=
  match m.matchingBlocks with
  | some v => v
  | none => computeMatchingBlocks m

/-- The loop of `getOpcodes` (source lines 569–593) with the two cursors:
before each block emit the gap opcode (if any), then the `equal` opcode for
a non-sentinel block, then advance the cursors past the block. -/
def opcodesFromBlocks : List (ℕ × ℕ × ℕ) → ℕ → ℕ → List Opcode
  | [], _, _ => []
  | (ai, bj, size) :: rest, i, j =>
    (if i < ai ∧ j < bj then [(Tag.replace, i, ai, j, bj)]
     else if i < ai then [(Tag.delete, i, ai, j, bj)]
     else if j < bj then [(Tag.insert, i, ai, j, bj)]
     else [])
    ++ (if size ≠ 0 then [(Tag.equal, ai, ai + size, bj, bj + size)] else [])
    ++ opcodesFromBlocks rest (ai + size) (bj + size)

/-- `getOpcodes()` (source lines 564–595). -/
def getOpcodes (m : Matcher α) : List Opcode :=
  match m.opcodes with
  | some v => v
  | none => opcodesFromBlocks (getMatchingBlocks m) 0 0

/-- The grouping loop of `getGroupedOpcodes` (source lines 643–653),
returning the finished groups and the pending group.  On a long `equal`
opcode the current group is closed with the right-clipped opcode and a new
group opens with the left-clipped one. -/
def groupLoop (n : ℕ) :
    List Opcode → List Opcode → List (List Opcode) →
      List (List Opcode) × List Opcode
  | [], group, groups => (groups, group)
  | (tag, i1, i2, j1, j2) :: rest, group, groups =>
    if tag = Tag.equal ∧ n + n < i2 - i1 then
      groupLoop n rest [(tag, max i1 (i2 - n), i2, max j1 (j2 - n), j2)]
        (groups ++ [group ++ [(tag, i1, min i2 (i1 + n), j1, min j2 (j1 + n))]])
    else groupLoop n rest (group ++ [(tag, i1, i2, j1, j2)]) groups

/-- `group.length === 1 && group[0][0] === 'equal'` (source line 654). -/
def singleEqual : List Opcode → Bool
  | [g] => g.1 = Tag.equal
  | _ => false

/-- `getGroupedOpcodes(n)` (source lines 623–658): substitute a synthetic
`equal` for an empty opcode list, clip the leading and trailing `equal`
context, then group. -/
def getGroupedOpcodes (m : Matcher α) (n : ℕ) : List (List Opcode) :=
  let codes0 := getOpcodes m
  let codes1 := if codes0 = [] then [(Tag.equal, 0, 1, 0, 1)] else codes0
  let codes2 :=
    match codes1 with
    | (t, i1, i2, j1, j2) :: rest =>
      if t = Tag.equal then (t, max i1 (i2 - n), i2, max j1 (j2 - n), j2) :: rest
      else codes1
    | [] => codes1
  let codes3 :=
    match codes2.getLast? with
    | some (t, i1, i2, j1, j2) =>
      if t = Tag.equal then
        codes2.dropLast ++ [(t, i1, min i2 (i1 + n), j1, min j2 (j1 + n))]
      else codes2
    | none => codes2
  match groupLoop n codes3 [] [] with
  | (groups, group) =>
    if group ≠ [] ∧ singleEqual group = false then groups ++ [group]
    else groups

/-- `ratio()` (source lines 679–685): twice the summed block sizes over the
total length. -/
def ratio (m : Matcher α) : ℚ :=
  _calculateRatio ((getMatchingBlocks m).map (fun t => t.2.2)).sum
    (m.a.length + m.b.length)

/-- `fullbcount` as `quickRatio` materializes it (source lines 697–702):
the multiplicity of each element in `b`. -/
def mkFullbcount (b : List α) : α → ℕ := fun x => b.count x

/-- The scanning loop of `quickRatio` (source lines 707–720): `avail[x]`
is `fullbcount[x]` minus the occurrences of `x` seen so far (it can go
negative, hence `ℤ`); `seen` tracks which keys `avail` holds. -/
def qrLoop (fullbcount : α → ℕ) : List α → (α → ℤ) → (α → Bool) → ℕ → ℕ
  | [], _, _, nmatch => nmatch
  | x :: xs, avail, seen, nmatch =>
    let numb : ℤ := if seen x then avail x else (fullbcount x : ℤ)
    qrLoop fullbcount xs (fun y => if y = x then numb - 1 else avail y)
      (fun y => decide (y = x) || seen y)
      (if 0 < numb then nmatch + 1 else nmatch)

/-- `quickRatio()` (source lines 692–722). -/
def quickRatio (m : Matcher α) : ℚ :=
  let fullbcount :=
    match m.fullbcount with
    | some f => f
    | none => mkFullbcount m.b
  _calculateRatio (qrLoop fullbcount m.a (fun _ => 0) (fun _ => false) 0)
    (m.a.length + m.b.length)

/-- `realQuickRatio()` (source lines 729–734). -/
def realQuickRatio (m : Matcher α) : ℚ :=
  _calculateRatio (min m.a.length m.b.length) (m.a.length + m.b.length)

/-- JS `<` on strings as `_arrayCmp` meets it at index 1 of a
`[score, candidate]` pair: lexicographic on the characters. -/
def strLt : List Char → List Char → Bool
  | [], [] => false
  | [], _ :: _ => true
  | _ :: _, [] => false
  | c :: cs, d :: ds => if c < d then true else if d < c then false else strLt cs ds

/-- Descending `(score, candidate)` order on the `[ratio, candidate]` pairs
of `getCloseMatches` (`_arrayCmp` with both slots compared). -/
def pairGe (p q : ℚ × List Char) : Prop :=
  q.1 < p.1 ∨ (p.1 = q.1 ∧ strLt p.2 q.2 = false)

instance : DecidableRel pairGe := fun p q => by unfold pairGe; infer_instance

/-- Modelled from the spec: `Heap.nlargest(result, n, _arrayCmp)` of the
external `heap` npm dependency (its code is not in this repository) — per
spec §4.6, "the top `n` sorted by `(score desc, candidate desc)` via a
heap-based N-largest selector". -/
def nlargest (n : ℕ) (result : List (ℚ × List Char)) : List (ℚ × List Char) :=
  (List.insertionSort pairGe result).take n

def gcmErrN : String := "n must be > 0"

def gcmErrCutoff : String := "cutoff must be in [0.0, 1.0]"

/-- `getCloseMatches(word, possibilities, n, cutoff)` (source lines
760–796), with a thrown `Error` modelled as `Except.error` (the source
message interpolates the offending value; the embedding keeps the static
text). -/
def getCloseMatches (word : List Char) (poss : List (List Char)) (n : ℤ)
    (cutoff : ℚ) : Except String (List (List Char)) :=
  if ¬0 < n then Except.error gcmErrN
  else if ¬(0 ≤ cutoff ∧ cutoff ≤ 1) then Except.error gcmErrCutoff
  else
    let result := poss.filterMap (fun x =>
      let s := mkMatcher none x word true
      if cutoff ≤ realQuickRatio s ∧ cutoff ≤ quickRatio s ∧ cutoff ≤ ratio s
      then some (ratio s, x) else none)
    Except.ok ((nlargest n.toNat result).map Prod.snd)

/-- A line of text: the sequences `Differ` compares are arrays of strings,
and the emitted delta is a list of strings; strings are lists of
characters here. -/
abbrev Line := List Char

/-- `IS_CHARACTER_JUNK(ch)` (source lines 1203–1206): a blank or a tab. -/
def IS_CHARACTER_JUNK (ch : Char) : Bool := ch = ' ' || ch = '\t'

/-- `_countLeading(line, ch)` (source lines 803–810). -/
def _countLeading (line : Line) (ch : Char) : ℕ :=
  (line.takeWhile (fun c => c = ch)).length

/-- `Differ._dump(tag, x, lo, hi)` (source lines 954–955): the lines
`x[lo..hi]`, each prefixed by the tag character and a blank. -/
def dumpLines (tag : Char) (x : List Line) (lo hi : ℕ) : List Line :=
  (List.range' lo (hi - lo)).map (fun i => tag :: ' ' :: x.getD i [])

/-- `Differ._plainReplace` (source lines 958–973): dump the shorter block
first.  (The source's `assert(alo < ahi && blo < bhi)` holds at every call
site and is not modelled.) -/
def plainReplace (a : List Line) (alo ahi : ℕ) (b : List Line) (blo bhi : ℕ) :
    List Line :=
  if bhi - blo < ahi - alo then dumpLines '+' b blo bhi ++ dumpLines '-' a alo ahi
  else dumpLines '-' a alo ahi ++ dumpLines '+' b blo bhi

/-- The `Differ` state (source lines 868–898).  The junk predicates take
strings in the source; the character-level one receives single-character
strings, modelled as a predicate on `Char`. -/
structure DifferT where
  linejunk : Option (Line → Bool)
  charjunk : Option (Char → Bool)

/-- One step of the `_fancyReplace` candidate scan (source lines
1014–1035): record the first identical pair, otherwise score the pair
through the three short-circuit bounds and keep a strict improvement. -/
def scanStep (charjunk : Option (Char → Bool)) (a b : List Line) (j : ℕ)
    (st : ℚ × Option (ℕ × ℕ) × Option (ℕ × ℕ)) (i : ℕ) :
    ℚ × Option (ℕ × ℕ) × Option (ℕ × ℕ) :=
  let ai := a.getD i []
  let bj := b.getD j []
  if ai = bj then
    match st.2.2 with
    | none => (st.1, st.2.1, some (i, j))
    | some _ => st
  else
    let cr := mkMatcher charjunk ai bj true
    if st.1 < realQuickRatio cr ∧ st.1 < quickRatio cr ∧ st.1 < ratio cr then
      (ratio cr, some (i, j), st.2.2)
    else st

/-- The full `_fancyReplace` scan (source lines 1011–1036): `j` outer over
`[blo, bhi)`, `i` inner over `[alo, ahi)`; the state is
`(bestRatio, best pair, first identical pair)`, starting from `0.74`. -/
def scanPairs (charjunk : Option (Char → Bool)) (a : List Line) (alo ahi : ℕ)
    (b : List Line) (blo bhi : ℕ) : ℚ × Option (ℕ × ℕ) × Option (ℕ × ℕ) :=
  (List.range' blo (bhi - blo)).foldl
    (fun st j => (List.range' alo (ahi - alo)).foldl (scanStep charjunk a b j) st)
    (37 / 50, none, none)

/-- The intraline tag strings of `_fancyReplace` (source lines 1071–1093):
`^` for replace, `-` for delete (A side), `+` for insert (B side), blanks
for equal. -/
def intralineTags : List Opcode → Line × Line → Line × Line
  | [], t => t
  | (tag, ai1, ai2, bj1, bj2) :: rest, (atags, btags) =>
    let la := ai2 - ai1
    let lb := bj2 - bj1
    intralineTags rest
      (match tag with
       | Tag.replace =>
         (atags ++ List.replicate la '^', btags ++ List.replicate lb '^')
       | Tag.delete => (atags ++ List.replicate la '-', btags)
       | Tag.insert => (atags, btags ++ List.replicate lb '+')
       | Tag.equal =>
         (atags ++ List.replicate la ' ', btags ++ List.replicate lb ' '))

/-- `.replace(/\s+$/, '')`: strip trailing whitespace. -/
def rstripWS (l : Line) : Line := (l.reverse.dropWhile Char.isWhitespace).reverse

/-- `Differ._qformat` (source lines 1137–1158): the `- `/`+ ` pair with the
optional `? ` guide lines, leading tabs factored out. -/
def _qformat (aline bline atags0 btags0 : Line) : List Line :=
  let c1 := min (_countLeading aline '\t') (_countLeading bline '\t')
  let c2 := min c1 (_countLeading (atags0.take c1) ' ')
  let common := min c2 (_countLeading (btags0.take c2) ' ')
  let atags := rstripWS (atags0.drop common)
  let btags := rstripWS (btags0.drop common)
  ['-' :: ' ' :: aline]
    ++ (if atags ≠ [] then
          ['?' :: ' ' :: (List.replicate common '\t' ++ atags ++ ['\n'])]
        else [])
    ++ ['+' :: ' ' :: bline]
    ++ (if btags ≠ [] then
          ['?' :: ' ' :: (List.replicate common '\t' ++ btags ++ ['\n'])]
        else [])

/-- `Differ._fancyHelper` (source lines 1112–1124), parameterized by the
`_fancyReplace` it dispatches to. -/
def fancyHelper (fr : List Line → ℕ → ℕ → List Line → ℕ → ℕ → List Line)
    (a : List Line) (alo ahi : ℕ) (b : List Line) (blo bhi : ℕ) : List Line :=
  if alo < ahi then
    if blo < bhi then fr a alo ahi b blo bhi
    else dumpLines '-' a alo ahi
  else if blo < bhi then dumpLines '+' b blo bhi
  else []

/-- `Differ._fancyReplace` (source lines 990–1110).  The recursion (through
`_fancyHelper`) is on strictly smaller windows on both sides of the sync
pair; the explicit fuel bounds the depth, and every caller passes
`(ahi - alo) + (bhi - blo) + 1`, which is sufficient (the fuel-exhausted
`[]` is never reached, as proved below).  In the `bestRatio ≥ cutoff`
branch a best pair always exists (`bestRatio > 0.74` forces an update);
the `none` arm there is dead code. -/
def fancyReplace (d : DifferT) :
    ℕ → List Line → ℕ → ℕ → List Line → ℕ → ℕ → List Line
  | 0, _, _, _, _, _, _ => []
  | fuel + 1, a, alo, ahi, b, blo, bhi =>
    let st := scanPairs d.charjunk a alo ahi b blo bhi
    let emit := fun (besti bestj : ℕ) (identical : Bool) =>
      let aelt := a.getD besti []
      let belt := b.getD bestj []
      let mid : List Line :=
        if identical then [' ' :: ' ' :: aelt]
        else
          let tags :=
            intralineTags (getOpcodes (mkMatcher d.charjunk aelt belt true))
              ([], [])
          _qformat aelt belt tags.1 tags.2
      fancyHelper (fancyReplace d fuel) a alo besti b blo bestj ++ mid ++
        fancyHelper (fancyReplace d fuel) a (besti + 1) ahi b (bestj + 1) bhi
    if st.1 < 3 / 4 then
      match st.2.2 with
      | none => plainReplace a alo ahi b blo bhi
      | some (eqi, eqj) => emit eqi eqj true
    else
      match st.2.1 with
      | some (besti, bestj) => emit besti bestj false
      | none => []

/-- `Differ.compare(a, b)` (source lines 923–949): concatenate the
per-opcode renderings. -/
def compare (d : DifferT) (a b : List Line) : List Line :=
  (getOpcodes (mkMatcher d.linejunk a b true)).flatMap (fun op =>
    match op with
    | (Tag.replace, alo, ahi, blo, bhi) =>
      fancyReplace d ((ahi - alo) + (bhi - blo) + 1) a alo ahi b blo bhi
    | (Tag.delete, alo, ahi, _, _) => dumpLines '-' a alo ahi
    | (Tag.insert, _, _, blo, bhi) => dumpLines '+' b blo bhi
    | (Tag.equal, alo, ahi, _, _) => dumpLines ' ' a alo ahi)

/-- `ndiff(a, b, linejunk?, charjunk?)` (source lines 1481–1489): the
fancy differ with `charjunk` defaulting to `IS_CHARACTER_JUNK`. -/
def ndiff (linejunk : Option (Line → Bool)) (charjunk : Option (Char → Bool))
    (a b : List Line) : List Line :=
  compare ⟨linejunk, some (charjunk.getD IS_CHARACTER_JUNK)⟩ a b

def restoreErr : String := "unknown delta choice (must be 1 or 2)"

/-- The line filter of `restore` (source lines 1513–1521): keep lines whose
two-character prefix is `"  "` or the chosen tag, stripped. -/
def restoreKeep (tag : Line) (delta : List Line) : List Line :=
  delta.filterMap (fun line =>
    if line.take 2 = [' ', ' '] ∨ line.take 2 = tag then some (line.drop 2)
    else none)

/-- `restore(delta, which)` (source lines 1510–1522), the thrown `Error`
as `Except.error`. -/
def restore (delta : List Line) (which : ℤ) : Except String (List Line) :=
  if which = 1 then Except.ok (restoreKeep ['-', ' '] delta)
  else if which = 2 then Except.ok (restoreKeep ['+', ' '] delta)
  else Except.error restoreErr

/-- `_formatRangeUnified(start, stop)` (source lines 1209–1219). -/
def _formatRangeUnified (start stop : ℕ) : String :=
  let beginning := start + 1
  let len := stop - start
  if len = 1 then Nat.repr beginning
  else
    let beginning := if len = 0 then beginning - 1 else beginning
    Nat.repr beginning ++ "," ++ Nat.repr len

/-- `_formatRangeContext(start, stop)` (source lines 1314–1321). -/
def _formatRangeContext (start stop : ℕ) : String :=
  let beginning := start + 1
  let len := stop - start
  let beginning := if len = 0 then beginning - 1 else beginning
  if len ≤ 1 then Nat.repr beginning
  else Nat.repr beginning ++ "," ++ Nat.repr (beginning + len - 1)

/-- The context-diff line prefix table (source lines 1386–1391). -/
def ctxPrefix : Tag → Line
  | Tag.insert => '+' :: [' ']
  | Tag.delete => '-' :: [' ']
  | Tag.replace => '!' :: [' ']
  | Tag.equal => ' ' :: [' ']

/-- `contextDiff(a, b, ...)` (source lines 1364–1451).  Two quirks of the
source are reproduced: the `n` option is parsed and defaulted at line 1383
but never used — line 1394 calls `getGroupedOpcodes()` with no argument,
so grouping always runs with the default context width 3; and the whole
per-group body — the `***************` separator, both range sections and
their lines — stands inside `if (!started) { ... }` (the brace closing
that `if` is at line 1447, just before the `for`'s own), so only the first
group of `getGroupedOpcodes` is ever rendered and later groups emit
nothing. -/
def contextDiff (a b : List Line)
    (fromfile tofile fromfiledate tofiledate : Line) (n : ℕ)
    (lineterm : Line) : List Line :=
  match getGroupedOpcodes (mkMatcher none a b true) 3 with
  | [] => []
  | group :: _ =>
    let fromdate := if fromfiledate ≠ [] then '\t' :: fromfiledate else []
    let todate := if tofiledate ≠ [] then '\t' :: tofiledate else []
    let first := group.head?.getD (Tag.equal, 0, 0, 0, 0)
    let last := group.getLast?.getD (Tag.equal, 0, 0, 0, 0)
    let aLines :=
      if group.any (fun op => op.1 = Tag.replace ∨ op.1 = Tag.delete) then
        group.flatMap (fun op =>
          if op.1 ≠ Tag.insert then
            ((a.drop op.2.1).take (op.2.2.1 - op.2.1)).map
              (fun line => ctxPrefix op.1 ++ line)
          else [])
      else []
    let bLines :=
      if group.any (fun op => op.1 = Tag.replace ∨ op.1 = Tag.insert) then
        group.flatMap (fun op =>
          if op.1 ≠ Tag.delete then
            ((b.drop op.2.2.2.1).take (op.2.2.2.2 - op.2.2.2.1)).map
              (fun line => ctxPrefix op.1 ++ line)
          else [])
      else []
    ["*** ".data ++ fromfile ++ fromdate ++ lineterm,
     "--- ".data ++ tofile ++ todate ++ lineterm,
     "***************".data ++ lineterm,
     "*** ".data ++ (_formatRangeContext first.2.1 last.2.2.1).data
       ++ " ****".data ++ lineterm]
    ++ aLines
    ++ ["--- ".data ++ (_formatRangeContext first.2.2.2.1 last.2.2.2.2).data
       ++ " ----".data ++ lineterm]
    ++ bLines

/-! ## Specification-side definitions

The predicates the claims are stated with, and the analysis functions the
proofs compare the loops against. -/

/-- `A[i..i+n] == B[j..j+n]` element-wise, with the ranges inside both
sequences: the meaning of a matching triple `(i, j, n)`. -/
def matchAt (a b : List α) (i j n : ℕ) : Prop :=
  ∀ t, t < n → i + t < a.length ∧ a[i + t]? = b[j + t]?

instance (a b : List α) (i j n : ℕ) : Decidable (matchAt a b i j n) := by
  unfold matchAt; infer_instance

/-- Position `j` is an occurrence of `a[i]` that survived the junk and
popular purges of `b2j`: the pairs the inner dynamic program may chain. -/
def okPair (b2j : α → List ℕ) (a : List α) (i j : ℕ) : Bool :=
  match a[i]? with
  | some x => decide (j ∈ b2j x)
  | none => false

/-- `rhoP ok alo blo bhi (i+1) j` is the value `j2len[j]` holds after the
row `i` iteration of the dynamic program: the length of the longest chain
of `ok` pairs ending at `(i, j)` that starts at column ≥ `alo` and stays
inside `[blo, bhi)` on the B side (`rhoP ok alo blo bhi 0` is the initial
empty dictionary). -/
def rhoP (ok : ℕ → ℕ → Bool) (alo blo bhi : ℕ) : ℕ → ℕ → ℕ
  | 0, _ => 0
  | i + 1, j =>
    if alo ≤ i ∧ blo ≤ j ∧ j < bhi ∧ ok i j = true then
      (if j = 0 then 0 else rhoP ok alo blo bhi i (j - 1)) + 1
    else 0

/-- The value the row loop stores at a visited `j`:
`(j2len[j-1] || 0) + 1` over the previous row `prev`. -/
def rowVal (prev : ℕ → ℕ) (j : ℕ) : ℕ :=
  (if j = 0 then 0 else prev (j - 1)) + 1

/-- The pairs of row `i` the dynamic program visits, in scan order: the
window positions carrying an `ok` pair. -/
def dpRowPairs (ok : ℕ → ℕ → Bool) (blo bhi i : ℕ) : List (ℕ × ℕ) :=
  ((List.range' blo (bhi - blo)).filter (fun j => ok i j)).map (fun j => (i, j))

/-- All pairs the dynamic program visits, row-major. -/
def dpPairs (ok : ℕ → ℕ → Bool) (alo ahi blo bhi : ℕ) : List (ℕ × ℕ) :=
  (List.range' alo (ahi - alo)).flatMap (dpRowPairs ok blo bhi)

/-- The best-update fold the dynamic program performs over the visited
`(i, j)` pairs in scan order: replace the running best exactly on strict
improvement, recording the start of the chain ending at `(i, j)`. -/
def bestFold (g : ℕ → ℕ → ℕ) (ps : List (ℕ × ℕ)) (best : ℕ × ℕ × ℕ) :
    ℕ × ℕ × ℕ :=
  ps.foldl
    (fun best p =>
      if best.2.2 < g p.1 p.2 then
        (p.1 + 1 - g p.1 p.2, p.2 + 1 - g p.1 p.2, g p.1 p.2)
      else best)
    best

/-- The candidate triples of the `findLongestMatch` selection rule, with
`bad` the positions of B the rule excludes from the core: `(i, j, k)` lies
in the window, matches element-wise, and no matched B position is bad. -/
def flmCand (m : Matcher α) (alo ahi blo bhi : ℕ) (bad : ℕ → Bool)
    (i j k : ℕ) : Prop :=
  alo ≤ i ∧ i + k ≤ ahi ∧ blo ≤ j ∧ j + k ≤ bhi ∧ matchAt m.a m.b i j k ∧
    ∀ t, t < k → bad (j + t) = false

instance (m : Matcher α) (alo ahi blo bhi : ℕ) (bad : ℕ → Bool)
    (i j k : ℕ) : Decidable (flmCand m alo ahi blo bhi bad i j k) := by
  unfold flmCand
  infer_instance

/-- `c` is the selection-rule optimum among the candidates: a candidate
maximizing `k`, then minimizing `i`, then minimizing `j`. -/
def flmOpt (m : Matcher α) (alo ahi blo bhi : ℕ) (bad : ℕ → Bool)
    (c : ℕ × ℕ × ℕ) : Prop :=
  flmCand m alo ahi blo bhi bad c.1 c.2.1 c.2.2 ∧
    ∀ i j k, flmCand m alo ahi blo bhi bad i j k →
      k ≤ c.2.2 ∧ (k = c.2.2 → c.1 ≤ i ∧ (i = c.1 → c.2.1 ≤ j))

/-- `isbjunk(b[j])`: the junk positions of B (the claims' junk test). -/
def badJunk (m : Matcher α) : ℕ → Bool := fun j => bjunkAt m.junkSet m.b j

/-- `isbjunk(b[j]) || isbpopular(b[j])`: the positions `b2j` actually
purges. -/
def badJunkOrPopular (m : Matcher α) : ℕ → Bool := fun j =>
  bjunkAt m.junkSet m.b j || bjunkAt m.popularSet m.b j

/-- The window `x[lo..hi]` as the dump loops read it (absent indices as
`[]`, as `x[i]` reads `undefined` in the source). -/
def winSlice (x : List Line) (lo hi : ℕ) : List Line :=
  (List.range' lo (hi - lo)).map (fun i => x.getD i [])

/-- The number of matches `quickRatio` counts, in closed form: for every
distinct element of `a`, the smaller of its multiplicities in `a` and in
`b`. -/
def specCount (a b : List α) : ℕ :=
  ∑ x ∈ a.toFinset, min (a.count x) (b.count x)

/-- The matched index pairs of a list of matching blocks: block `(i, j, k)`
pairs `i + s` with `j + s` for `s < k`. -/
def blockPairs : List (ℕ × ℕ × ℕ) → List (ℕ × ℕ)
  | [] => []
  | (i, j, k) :: rest =>
    (List.range k).map (fun s => (i + s, j + s)) ++ blockPairs rest

/-- Two windows `(alo, ahi, blo, bhi)` are separated: one ends (on both
sides) before the other starts. -/
def sepWW (w w' : ℕ × ℕ × ℕ × ℕ) : Prop :=
  (w.2.1 ≤ w'.1 ∧ w.2.2.2 ≤ w'.2.2.1) ∨ (w'.2.1 ≤ w.1 ∧ w'.2.2.2 ≤ w.2.2.1)

/-- Two blocks are separated: one ends (on both sides) no later than the
other starts. -/
def sepBB (t u : ℕ × ℕ × ℕ) : Prop :=
  (t.1 + t.2.2 ≤ u.1 ∧ t.2.1 + t.2.2 ≤ u.2.1) ∨
    (u.1 + u.2.2 ≤ t.1 ∧ u.2.1 + u.2.2 ≤ t.2.1)

/-- A recorded block is separated from a pending window. -/
def sepBW (t : ℕ × ℕ × ℕ) (w : ℕ × ℕ × ℕ × ℕ) : Prop :=
  (t.1 + t.2.2 ≤ w.1 ∧ t.2.1 + t.2.2 ≤ w.2.2.1) ∨
    (w.2.1 ≤ t.1 ∧ w.2.2.2 ≤ t.2.1)

/-- A well-formed window inside the two sequences. -/
def wfWin (la lb : ℕ) (w : ℕ × ℕ × ℕ × ℕ) : Prop :=
  w.1 ≤ w.2.1 ∧ w.2.1 ≤ la ∧ w.2.2.1 ≤ w.2.2.2 ∧ w.2.2.2 ≤ lb

/-- A block the queue decomposition may record: non-empty, matching, and
inside both sequences. -/
def goodBlk (m : Matcher α) (t : ℕ × ℕ × ℕ) : Prop :=
  t.2.2 ≠ 0 ∧ matchAt m.a m.b t.1 t.2.1 t.2.2 ∧
    t.1 + t.2.2 ≤ m.a.length ∧ t.2.1 + t.2.2 ≤ m.b.length

/-- Block `t` ends no later than block `u` starts, on both sides: the
ordered form of `sepBB` that the sorted block list satisfies. -/
def sepAsc (t u : ℕ × ℕ × ℕ) : Prop :=
  t.1 + t.2.2 ≤ u.1 ∧ t.2.1 + t.2.2 ≤ u.2.1

/-- Separated and not touching: block `t` ends no later than block `u`
starts on both sides, and not exactly at it on both sides at once. -/
def sepNT (t u : ℕ × ℕ × ℕ) : Prop :=
  (t.1 + t.2.2 ≤ u.1 ∧ t.2.1 + t.2.2 ≤ u.2.1) ∧
    ¬(t.1 + t.2.2 = u.1 ∧ t.2.1 + t.2.2 = u.2.1)

/-- The cursor position after walking a list of blocks: the end of the
last block, or the start position for an empty list. -/
def blocksEnd : List (ℕ × ℕ × ℕ) → ℕ × ℕ → ℕ × ℕ
  | [], p => p
  | (ai, bj, k) :: rest, _ => blocksEnd rest (ai + k, bj + k)

/-- Strictly ascending in both coordinates and not touching: the claimed
relation between consecutive non-sentinel matching blocks. -/
def ascNT (t u : ℕ × ℕ × ℕ) : Prop :=
  t.1 < u.1 ∧ t.2.1 < u.2.1 ∧ ¬(t.1 + t.2.2 = u.1 ∧ t.2.1 + t.2.2 = u.2.1)

/-- The opcodes tile `[p, q)` contiguously in lockstep: the first starts
at `p`, each starts where its predecessor ended, the last ends at `q`
(`p = q` for an empty list). -/
def opChain : ℕ × ℕ → List Opcode → ℕ × ℕ → Prop
  | p, [], q => p = q
  | p, (_, i1, i2, j1, j2) :: rest, q => p = (i1, j1) ∧ opChain (i2, j2) rest q

/-- The per-tag shape invariants of an opcode. -/
def opShape : Opcode → Prop
  | (Tag.delete, _, _, j1, j2) => j1 = j2
  | (Tag.insert, i1, i2, _, _) => i1 = i2
  | (Tag.equal, i1, i2, j1, j2) => i2 - i1 = j2 - j1
  | (Tag.replace, i1, i2, j1, j2) => i1 < i2 ∧ j1 < j2

/-- A junk-predicate-free view of `b2j` membership used by the proofs. -/
def b2jSound (m : Matcher α) : Prop :=
  ∀ x j, j ∈ m.b2j x → m.b[j]? = some x

/-- Every line of `a` ends with the one newline it contains (claim C4's
hypothesis on the differ's inputs). -/
def newlineTerminated (a : List Line) : Prop :=
  ∀ l ∈ a, l ≠ [] ∧ l.getLast? = some '\n' ∧ ∀ c ∈ l.dropLast, c ≠ '\n'

/-- Whether a modelled call returned normally (`Except.ok`) rather than
throwing. -/
def exceptOk {ε β : Type} : Except ε β → Bool
  | Except.ok _ => true
  | Except.error _ => false

/-- First sequence of the `contextDiff` failing input: changed lines at
both ends separated by seven equal lines, so that `getGroupedOpcodes`
with the default context width 3 splits the run (7 > 2·3) and produces
two hunk groups. -/
def ctxBugA : List Line :=
  [['a', '\n'], ['1', '\n'], ['2', '\n'], ['3', '\n'], ['4', '\n'],
   ['5', '\n'], ['6', '\n'], ['7', '\n'], ['b', '\n']]

/-- Second sequence of the `contextDiff` failing input: same middle
lines, different first and last line. -/
def ctxBugB : List Line :=
  [['x', '\n'], ['1', '\n'], ['2', '\n'], ['3', '\n'], ['4', '\n'],
   ['5', '\n'], ['6', '\n'], ['7', '\n'], ['y', '\n']]

/-! ## Theorems -/

/-- C7: for any matcher and any `a'` different from the stored `a`,
`setSeq1 a'` replaces `a` and nulls exactly the matching-block and
opcode caches: `b`, `b2j`, the junk membership test, the popular
membership test and `fullbcount` are all unchanged.  (The claim's
referential inequality is modelled as value inequality, which implies
it.) -/
theorem setSeq1_frame (m : Matcher α) (a' : List α) (h : a' ≠ m.a) :
    (m.setSeq1 a').a = a' ∧
    (m.setSeq1 a').matchingBlocks = none ∧
    (m.setSeq1 a').opcodes = none ∧
    (m.setSeq1 a').b = m.b ∧
    (m.setSeq1 a').b2j = m.b2j ∧
    (m.setSeq1 a').junkSet = m.junkSet ∧
    (m.setSeq1 a').popularSet = m.popularSet ∧
    (m.setSeq1 a').fullbcount = m.fullbcount := by
  unfold Matcher.setSeq1
  rw [if_neg h]
  exact ⟨rfl, rfl, rfl, rfl, rfl, rfl, rfl, rfl⟩

/-- Witness for C7 at a concrete matcher over `ℕ`. -/
theorem setSeq1_frame_witness :
    ((mkMatcher none [1] [2] true).setSeq1 [3]).a = [3] ∧
    ((mkMatcher none [1] [2] true).setSeq1 [3]).matchingBlocks = none ∧
    ((mkMatcher none [1] [2] true).setSeq1 [3]).opcodes = none ∧
    ((mkMatcher none [1] [2] true).setSeq1 [3]).b = (mkMatcher none [1] [2] true).b ∧
    ((mkMatcher none [1] [2] true).setSeq1 [3]).b2j = (mkMatcher none [1] [2] true).b2j ∧
    ((mkMatcher none [1] [2] true).setSeq1 [3]).junkSet =
      (mkMatcher none [1] [2] true).junkSet ∧
    ((mkMatcher none [1] [2] true).setSeq1 [3]).popularSet =
      (mkMatcher none [1] [2] true).popularSet ∧
    ((mkMatcher none [1] [2] true).setSeq1 [3]).fullbcount =
      (mkMatcher none [1] [2] true).fullbcount :=
  setSeq1_frame (mkMatcher none [1] [2] true) [3] (by decide)

/-- C8, counterexample: at `start = stop = 1` the length is `0` and the
source returns `"1,0"` (the decremented beginning and the length), not the
claimed bare `"{beginning-1}" = "1"`. -/
theorem formatRangeUnified_claim_cex :
    _formatRangeUnified 1 1 = "1,0" ∧ _formatRangeUnified 1 1 ≠ "1" := by
  constructor
  · rfl
  · decide

/-- C8, amended: for `0 ≤ start ≤ stop`, with `beginning = start + 1` and
`length = stop - start`, the result is `"{beginning}"` when `length = 1`,
`"{beginning-1},0"` when `length = 0`, and `"{beginning},{length}"`
otherwise. -/
theorem formatRangeUnified_spec (start stop : ℕ) (h : start ≤ stop) :
    _formatRangeUnified start stop =
      if stop - start = 1 then Nat.repr (start + 1)
      else if stop - start = 0 then Nat.repr (start + 1 - 1) ++ "," ++ Nat.repr 0
      else Nat.repr (start + 1) ++ "," ++ Nat.repr (stop - start) := by
  unfold _formatRangeUnified
  rcases Nat.eq_or_lt_of_le h with h0 | h1
  · simp [← h0]
  · rcases Nat.lt_or_ge start (stop - 1) with h2 | h2
    · have : stop - start ≠ 1 := by omega
      have : stop - start ≠ 0 := by omega
      simp_all
    · have : stop - start = 1 := by omega
      simp_all

/-- Witness for C8's amended theorem at `start = 2`, `stop = 5`. -/
theorem formatRangeUnified_spec_witness : _formatRangeUnified 2 5 = "3,3" :=
  (formatRangeUnified_spec 2 5 (by decide)).trans (by decide)

/-- C9: `getCloseMatches` returns normally exactly when `n > 0` and
`cutoff ∈ [0, 1]` (otherwise it throws before examining any candidate:
the error value depends only on `n` and `cutoff`), and `restore` returns
normally exactly when `which` is `1` or `2`. -/
theorem invalidArgument_spec (word : List Char) (poss : List (List Char))
    (n : ℤ) (cutoff : ℚ) (delta : List Line) (which : ℤ) :
    (exceptOk (getCloseMatches word poss n cutoff) = true ↔
      0 < n ∧ 0 ≤ cutoff ∧ cutoff ≤ 1) ∧
    (exceptOk (restore delta which) = true ↔ which = 1 ∨ which = 2) := by
  constructor
  · unfold getCloseMatches
    by_cases h1 : 0 < n
    · by_cases h2 : 0 ≤ cutoff ∧ cutoff ≤ 1
      · rw [if_neg (not_not_intro h1), if_neg (not_not_intro h2)]
        exact iff_of_true rfl ⟨h1, h2.1, h2.2⟩
      · rw [if_neg (not_not_intro h1), if_pos h2]
        exact iff_of_false (by simp [exceptOk]) (fun hc => h2 ⟨hc.2.1, hc.2.2⟩)
    · rw [if_pos h1]
      exact iff_of_false (by simp [exceptOk]) (fun hc => h1 hc.1)
  · unfold restore
    split_ifs with h1 h2 <;> simp_all [exceptOk]

/-- C6: at the failing input `getGroupedOpcodes` with the context width 3
that `contextDiff` always uses produces two hunk groups, yet `contextDiff`
emits exactly one `"***************"` separator (and one hunk body): the
whole per-group rendering of the source sits inside `if (!started)`, so
only the first group is printed, where the spec requires one body per
group. -/
theorem contextDiff_first_group_only :
    (getGroupedOpcodes (mkMatcher none ctxBugA ctxBugB true) 3).length = 2 ∧
    (contextDiff ctxBugA ctxBugB [] [] [] [] 3 ['\n']).count
      ("***************\n".data) = 1 := by
  constructor
  · decide
  · decide

/-! ### Occurrence lists -/

theorem occAux_mem (x : α) :
    ∀ (b : List α) (i j : ℕ), j ∈ occAux x b i ↔ i ≤ j ∧ b[j - i]? = some x := by
  intro b
  induction b with
  | nil => intro i j; simp [occAux]
  | cons y ys ih =>
    intro i j
    unfold occAux
    by_cases hy : y = x
    · subst hy
      rw [if_pos rfl]
      simp only [List.mem_cons, ih]
      constructor
      · rintro (rfl | ⟨h1, h2⟩)
        · simp
        · refine ⟨by omega, ?_⟩
          have : j - i = (j - (i + 1)) + 1 := by omega
          rw [this, List.getElem?_cons_succ]
          exact h2
      · rintro ⟨h1, h2⟩
        rcases Nat.eq_or_lt_of_le h1 with rfl | hlt
        · left; rfl
        · right
          refine ⟨by omega, ?_⟩
          have : j - i = (j - (i + 1)) + 1 := by omega
          rw [this, List.getElem?_cons_succ] at h2
          exact h2
    · rw [if_neg hy]
      rw [ih]
      constructor
      · rintro ⟨h1, h2⟩
        refine ⟨by omega, ?_⟩
        have : j - i = (j - (i + 1)) + 1 := by omega
        rw [this, List.getElem?_cons_succ]
        exact h2
      · rintro ⟨h1, h2⟩
        rcases Nat.eq_or_lt_of_le h1 with rfl | hlt
        · simp at h2; exact absurd h2 hy
        · refine ⟨by omega, ?_⟩
          have : j - i = (j - (i + 1)) + 1 := by omega
          rw [this, List.getElem?_cons_succ] at h2
          exact h2

theorem occ_mem (b : List α) (x : α) (j : ℕ) :
    j ∈ occ b x ↔ b[j]? = some x := by
  unfold occ
  rw [occAux_mem]
  simp

theorem occAux_sorted (x : α) :
    ∀ (b : List α) (i : ℕ), List.Pairwise (· < ·) (occAux x b i) := by
  intro b
  induction b with
  | nil => intro i; simp [occAux]
  | cons y ys ih =>
    intro i
    unfold occAux
    split_ifs with hy
    · refine List.pairwise_cons.mpr ⟨?_, ih (i + 1)⟩
      intro j hj
      have := (occAux_mem x ys (i + 1) j).mp hj
      omega
    · exact ih (i + 1)

theorem occ_sorted (b : List α) (x : α) : List.Pairwise (· < ·) (occ b x) :=
  occAux_sorted x b 0

theorem mkB2j_sorted (b : List α) (isjunk : Option (α → Bool))
    (autojunk : Bool) (x : α) :
    List.Pairwise (· < ·) (mkB2j b isjunk autojunk x) := by
  unfold mkB2j
  split_ifs
  · simp
  · exact occ_sorted b x

theorem mkB2j_mem (b : List α) (isjunk : Option (α → Bool)) (autojunk : Bool)
    (x : α) (j : ℕ) :
    j ∈ mkB2j b isjunk autojunk x ↔
      (mkIsbjunk b isjunk x = false ∧ mkIsbpopular b isjunk autojunk x = false ∧
        b[j]? = some x) := by
  unfold mkB2j
  split_ifs with h
  · simp only [Bool.or_eq_true] at h
    rcases h with h1 | h1 <;> simp [h1]
  · simp only [Bool.or_eq_true] at h
    push_neg at h
    simp only [Bool.not_eq_true] at h
    simp [h.1, h.2, occ_mem]

theorem mkMatcher_b2jSound (isjunk : Option (α → Bool)) (a b : List α)
    (autojunk : Bool) : b2jSound (mkMatcher isjunk a b autojunk) := by
  intro x j hj
  exact ((mkB2j_mem b isjunk autojunk x j).mp hj).2.2

/-! ### The dynamic program computes `rhoP` and `bestFold` -/

theorem rhoP_zero (ok : ℕ → ℕ → Bool) (alo blo bhi j : ℕ) :
    rhoP ok alo blo bhi 0 j = 0 := rfl

theorem rhoP_succ (ok : ℕ → ℕ → Bool) (alo blo bhi i j : ℕ) :
    rhoP ok alo blo bhi (i + 1) j =
      if alo ≤ i ∧ blo ≤ j ∧ j < bhi ∧ ok i j = true then
        (if j = 0 then 0 else rhoP ok alo blo bhi i (j - 1)) + 1
      else 0 := by
  rfl

theorem rhoP_sound (ok : ℕ → ℕ → Bool) (alo blo bhi : ℕ) :
    ∀ i j v, rhoP ok alo blo bhi (i + 1) j = v → 0 < v →
      v ≤ i + 1 ∧ v ≤ j + 1 ∧ alo ≤ i + 1 - v ∧ blo ≤ j + 1 - v ∧
      ∀ t, t < v → ok (i + 1 - v + t) (j + 1 - v + t) = true ∧
        j + 1 - v + t < bhi := by
  intro i
  induction i with
  | zero =>
    intro j v hv hpos
    rw [rhoP_succ] at hv
    by_cases hg : alo ≤ 0 ∧ blo ≤ j ∧ j < bhi ∧ ok 0 j = true
    · rw [if_pos hg] at hv
      obtain ⟨hga, hgb, hgc, hgd⟩ := hg
      have hv1 : v = 1 := by
        rw [rhoP_zero, ite_self] at hv
        omega
      subst hv1
      refine ⟨le_refl 1, by omega, by omega, by omega, ?_⟩
      intro t ht
      have ht0 : t = 0 := by omega
      subst ht0
      exact ⟨by simpa using hgd, by omega⟩
    · rw [if_neg hg] at hv
      omega
  | succ i ih =>
    intro j v hv hpos
    rw [rhoP_succ] at hv
    by_cases hg : alo ≤ i + 1 ∧ blo ≤ j ∧ j < bhi ∧ ok (i + 1) j = true
    · rw [if_pos hg] at hv
      obtain ⟨hga, hgb, hgc, hgd⟩ := hg
      by_cases hj0 : j = 0
      · rw [if_pos hj0] at hv
        subst hj0
        have hv1 : v = 1 := by omega
        subst hv1
        refine ⟨by omega, by omega, by omega, by omega, ?_⟩
        intro t ht
        have ht0 : t = 0 := by omega
        subst ht0
        exact ⟨by simpa using hgd, by omega⟩
      · rw [if_neg hj0] at hv
        by_cases hw0 : rhoP ok alo blo bhi (i + 1) (j - 1) = 0
        · rw [hw0] at hv
          have hv1 : v = 1 := by omega
          subst hv1
          refine ⟨by omega, by omega, by omega, by omega, ?_⟩
          intro t ht
          have ht0 : t = 0 := by omega
          subst ht0
          exact ⟨by simpa using hgd, by omega⟩
        · obtain ⟨h1, h2, h3, h4, h5⟩ :=
            ih (j - 1) (rhoP ok alo blo bhi (i + 1) (j - 1)) rfl
              (Nat.pos_of_ne_zero hw0)
          set w := rhoP ok alo blo bhi (i + 1) (j - 1) with hwdef
          have hv1 : v = w + 1 := by omega
          subst hv1
          refine ⟨by omega, by omega, by omega, by omega, ?_⟩
          intro t ht
          by_cases htw : t < w
          · obtain ⟨hok, hlt⟩ := h5 t htw
            constructor
            · have e1 : i + 1 + 1 - (w + 1) + t = i + 1 - w + t := by omega
              have e2 : j + 1 - (w + 1) + t = j - 1 + 1 - w + t := by omega
              rw [e1, e2]
              exact hok
            · omega
          · have ht' : t = w := by omega
            subst ht'
            constructor
            · have e1 : i + 1 + 1 - (w + 1) + w = i + 1 := by omega
              have e2 : j + 1 - (w + 1) + w = j := by omega
              rw [e1, e2]
              exact hgd
            · omega
    · rw [if_neg hg] at hv
      omega

theorem rhoP_complete (ok : ℕ → ℕ → Bool) (alo blo bhi : ℕ) :
    ∀ k i j, alo ≤ i → blo ≤ j → j + k ≤ bhi →
      (∀ t, t < k → ok (i + t) (j + t) = true) → 0 < k →
      k ≤ rhoP ok alo blo bhi (i + k) (j + k - 1) := by
  intro k
  induction k with
  | zero => intro i j _ _ _ _ h; omega
  | succ k ih =>
    intro i j hi hj hk hok _
    rcases Nat.eq_zero_or_pos k with rfl | hkpos
    · have e : j + 1 - 1 = j := by omega
      rw [e, rhoP_succ,
        if_pos ⟨hi, hj, by omega, by simpa using hok 0 (by omega)⟩]
      omega
    · have ihk := ih i j hi hj (by omega) (fun t ht => hok t (by omega)) hkpos
      have e : i + (k + 1) = (i + k) + 1 := by omega
      rw [e, rhoP_succ]
      have hjk : j + (k + 1) - 1 = j + k := by omega
      rw [hjk]
      rw [if_pos ⟨by omega, by omega, by omega, by
        simpa using hok k (by omega)⟩]
      rw [if_neg (by omega)]
      have e2 : j + k - 1 = j + k - 1 := rfl
      omega

/-- After the row loop, the dictionary holds `rowVal prev` at the visited
window positions and the incoming `acc` elsewhere, and the best triple is
the `bestFold` over the visited window pairs in order. -/
theorem flmRow_spec (blo bhi i : ℕ) (prev : ℕ → ℕ) :
    ∀ (js : List ℕ) (acc : ℕ → ℕ) (best : ℕ × ℕ × ℕ),
      List.Pairwise (· < ·) js →
      (∀ j', (flmRow blo bhi i prev js acc best).1 j' =
        if j' ∈ js ∧ blo ≤ j' ∧ j' < bhi then rowVal prev j' else acc j') ∧
      (flmRow blo bhi i prev js acc best).2 =
        bestFold (fun _ j => rowVal prev j)
          ((js.filter (fun j => decide (blo ≤ j) && decide (j < bhi))).map
            (fun j => (i, j)))
          best := by
  intro js
  induction js with
  | nil =>
    intro acc best _
    constructor
    · intro j'
      simp [flmRow]
    · simp [flmRow, bestFold]
  | cons j js ih =>
    intro acc best hpw
    have hpw' := (List.pairwise_cons.mp hpw).2
    have hjlt := (List.pairwise_cons.mp hpw).1
    by_cases h1 : j < blo
    · have hstep : flmRow blo bhi i prev (j :: js) acc best =
          flmRow blo bhi i prev js acc best := by
        simp only [flmRow, if_pos h1]
      rw [hstep]
      obtain ⟨ihf, ihb⟩ := ih acc best hpw'
      constructor
      · intro j'
        rw [ihf j']
        have hiff : (j' ∈ j :: js ∧ blo ≤ j' ∧ j' < bhi) ↔
            (j' ∈ js ∧ blo ≤ j' ∧ j' < bhi) := by
          simp only [List.mem_cons]
          constructor
          · rintro ⟨h | hm, hw1, hw2⟩
            · omega
            · exact ⟨hm, hw1, hw2⟩
          · rintro ⟨hm, hw⟩
            exact ⟨Or.inr hm, hw⟩
        simp only [hiff]
      · rw [ihb]
        congr 1
        rw [List.filter_cons_of_neg
          (by simp only [Bool.and_eq_true, decide_eq_true_eq]; omega)]
    · by_cases h2 : bhi ≤ j
      · have hstep : flmRow blo bhi i prev (j :: js) acc best = (acc, best) := by
          simp only [flmRow, if_neg h1, if_pos h2]
        rw [hstep]
        constructor
        · intro j'
          rw [if_neg ?_]
          rintro ⟨hmem, hge, hlt⟩
          rcases List.mem_cons.mp hmem with rfl | hmem'
          · omega
          · have := hjlt j' hmem'
            omega
        · have hfil : js.filter (fun j => decide (blo ≤ j) && decide (j < bhi))
              = [] := by
            rw [List.filter_eq_nil_iff]
            intro j' hmem'
            have := hjlt j' hmem'
            simp only [Bool.and_eq_true, decide_eq_true_eq]
            omega
          rw [List.filter_cons_of_neg
            (by simp only [Bool.and_eq_true, decide_eq_true_eq]; omega), hfil]
          simp [bestFold]
      · have h2' : j < bhi := by omega
        have h1' : blo ≤ j := by omega
        have hstep : flmRow blo bhi i prev (j :: js) acc best =
            flmRow blo bhi i prev js
              (fun j' => if j' = j then rowVal prev j else acc j')
              (if best.2.2 < rowVal prev j then
                (i + 1 - rowVal prev j, j + 1 - rowVal prev j, rowVal prev j)
              else best) := by
          simp only [flmRow, if_neg h1, if_neg (by omega : ¬bhi ≤ j)]
          rfl
        rw [hstep]
        obtain ⟨ihf, ihb⟩ := ih
          (fun j' => if j' = j then rowVal prev j else acc j')
          (if best.2.2 < rowVal prev j then
            (i + 1 - rowVal prev j, j + 1 - rowVal prev j, rowVal prev j)
          else best) hpw'
        constructor
        · intro j'
          rw [ihf j']
          by_cases hmem : j' ∈ js ∧ blo ≤ j' ∧ j' < bhi
          · rw [if_pos hmem, if_pos ⟨List.mem_cons_of_mem _ hmem.1, hmem.2⟩]
          · rw [if_neg hmem]
            by_cases hjj : j' = j
            · subst hjj
              rw [if_pos rfl, if_pos ⟨List.mem_cons_self _ _, h1', h2'⟩]
            · rw [if_neg hjj, if_neg ?_]
              rintro ⟨hm, hw⟩
              rcases List.mem_cons.mp hm with rfl | hm'
              · exact hjj rfl
              · exact hmem ⟨hm', hw⟩
        · rw [ihb]
          rw [List.filter_cons_of_pos
            (by simp only [Bool.and_eq_true, decide_eq_true_eq]; omega)]
          simp only [List.map_cons]
          rfl

/-- Two strictly-sorted lists of naturals with the same members are
equal. -/
theorem sortedEqOfMem {l1 l2 : List ℕ} (h1 : List.Pairwise (· < ·) l1)
    (h2 : List.Pairwise (· < ·) l2) (h : ∀ j, j ∈ l1 ↔ j ∈ l2) : l1 = l2 := by
  have n1 : l1.Nodup := h1.imp (fun h => Nat.ne_of_lt h)
  have n2 : l2.Nodup := h2.imp (fun h => Nat.ne_of_lt h)
  have hp : l1.Perm l2 := (List.perm_ext_iff_of_nodup n1 n2).mpr h
  exact List.eq_of_perm_of_sorted hp (h1.imp Nat.le_of_lt) (h2.imp Nat.le_of_lt)

theorem rhoP_at_start (ok : ℕ → ℕ → Bool) (alo blo bhi i j : ℕ)
    (h : i ≤ alo) : rhoP ok alo blo bhi i j = 0 := by
  cases i with
  | zero => rfl
  | succ i => rw [rhoP_succ, if_neg (by omega)]

/-- The outer loop over the rows `[i₀, i₀ + n)` computes the `bestFold`
over the visited pairs of those rows, provided the incoming dictionary is
the `rhoP` row `i₀`. -/
theorem flmRows_spec (b2j : α → List ℕ) (a : List α) (alo blo bhi : ℕ)
    (hsort : ∀ x, List.Pairwise (· < ·) (b2j x)) :
    ∀ (n i₀ : ℕ) (j2len : ℕ → ℕ) (best : ℕ × ℕ × ℕ), alo ≤ i₀ →
      (∀ j, j2len j = rhoP (okPair b2j a) alo blo bhi i₀ j) →
      flmRows b2j a blo bhi (List.range' i₀ n) j2len best =
        bestFold (fun i j => rhoP (okPair b2j a) alo blo bhi (i + 1) j)
          ((List.range' i₀ n).flatMap (dpRowPairs (okPair b2j a) blo bhi))
          best := by
  intro n
  induction n with
  | zero =>
    intro i₀ j2len best _ _
    simp [flmRows, bestFold]
  | succ n ih =>
    intro i₀ j2len best hi₀ hj2len
    rw [List.range'_succ]
    have hjs :
        (match a[i₀]? with | some x => b2j x | none => []) =
          (fun js => js) (match a[i₀]? with | some x => b2j x | none => []) := rfl
    have hjs_sorted :
        List.Pairwise (· < ·)
          (match a[i₀]? with | some x => b2j x | none => []) := by
      cases a[i₀]? with
      | none => simp
      | some x => exact hsort x
    have hjs_mem : ∀ j,
        j ∈ (match a[i₀]? with | some x => b2j x | none => []) ↔
          okPair b2j a i₀ j = true := by
      intro j
      unfold okPair
      cases a[i₀]? with
      | none => simp
      | some x => simp
    have hrow := flmRow_spec blo bhi i₀ j2len
      (match a[i₀]? with | some x => b2j x | none => [])
      (fun _ => 0) best hjs_sorted
    have hstep : flmRows b2j a blo bhi
        (i₀ :: List.range' (i₀ + 1) n) j2len best =
        flmRows b2j a blo bhi (List.range' (i₀ + 1) n)
          (flmRow blo bhi i₀ j2len
            (match a[i₀]? with | some x => b2j x | none => [])
            (fun _ => 0) best).1
          (flmRow blo bhi i₀ j2len
            (match a[i₀]? with | some x => b2j x | none => [])
            (fun _ => 0) best).2 := by
      simp only [flmRows]
    rw [hstep]
    have hnext : ∀ j,
        (flmRow blo bhi i₀ j2len
          (match a[i₀]? with | some x => b2j x | none => [])
          (fun _ => 0) best).1 j =
          rhoP (okPair b2j a) alo blo bhi (i₀ + 1) j := by
      intro j
      rw [hrow.1 j, rhoP_succ]
      by_cases hc : j ∈ (match a[i₀]? with | some x => b2j x | none => []) ∧
          blo ≤ j ∧ j < bhi
      · rw [if_pos hc,
          if_pos ⟨hi₀, hc.2.1, hc.2.2, (hjs_mem j).mp hc.1⟩]
        unfold rowVal
        by_cases hj0 : j = 0
        · rw [if_pos hj0, if_pos hj0]
        · rw [if_neg hj0, if_neg hj0, hj2len]
      · rw [if_neg hc, if_neg ?_]
        rintro ⟨_, hb, hcc, hok⟩
        exact hc ⟨(hjs_mem j).mpr hok, hb, hcc⟩
    rw [ih (i₀ + 1) _ _ (by omega) hnext]
    rw [hrow.2]
    have hpairs :
        ((match a[i₀]? with | some x => b2j x | none => []).filter
          (fun j => decide (blo ≤ j) && decide (j < bhi))).map
            (fun j => (i₀, j)) =
          dpRowPairs (okPair b2j a) blo bhi i₀ := by
      unfold dpRowPairs
      congr 1
      apply sortedEqOfMem
      · exact hjs_sorted.filter _
      · exact (List.pairwise_lt_range' blo (bhi - blo)).filter _
      · intro j
        simp only [List.mem_filter, Bool.and_eq_true, decide_eq_true_eq,
          List.mem_range'_1, hjs_mem]
        constructor
        · rintro ⟨hok, hb, hc⟩
          exact ⟨⟨hb, by omega⟩, hok⟩
        · rintro ⟨⟨hb, hc⟩, hok⟩
          exact ⟨hok, hb, by omega⟩
    rw [hpairs]
    rw [List.flatMap_cons]
    unfold bestFold
    rw [List.foldl_append]
    congr 1
    apply List.foldl_ext
    intro b p hp
    unfold dpRowPairs at hp
    obtain ⟨j, hj, rfl⟩ := List.mem_map.mp hp
    obtain ⟨hjr, hjo⟩ := List.mem_filter.mp hj
    rw [List.mem_range'_1] at hjr
    have : rowVal j2len j = rhoP (okPair b2j a) alo blo bhi (i₀ + 1) j := by
      rw [rhoP_succ, if_pos ⟨hi₀, hjr.1, by omega, hjo⟩]
      unfold rowVal
      by_cases hj0 : j = 0
      · rw [if_pos hj0, if_pos hj0]
      · rw [if_neg hj0, if_neg hj0, hj2len]
    simp only [this]

/-- The dynamic-programming core of `findLongestMatch` is the best-update
fold of `rhoP` over the visited pairs in scan order. -/
theorem flmCore_spec (m : Matcher α)
    (hsort : ∀ x, List.Pairwise (· < ·) (m.b2j x)) (alo ahi blo bhi : ℕ) :
    flmCore m alo ahi blo bhi =
      bestFold (fun i j => rhoP (okPair m.b2j m.a) alo blo bhi (i + 1) j)
        (dpPairs (okPair m.b2j m.a) alo ahi blo bhi) (alo, blo, 0) := by
  unfold flmCore dpPairs
  exact flmRows_spec m.b2j m.a alo blo bhi hsort (ahi - alo) alo
    (fun _ => 0) (alo, blo, 0) le_rfl
    (fun j => (rhoP_at_start _ alo blo bhi alo j le_rfl).symm)

/-! ### Analysis of the best-update fold -/

theorem bestFold_inv (g : ℕ → ℕ → ℕ) (P : ℕ × ℕ × ℕ → Prop) :
    ∀ (ps : List (ℕ × ℕ)) (best : ℕ × ℕ × ℕ), P best →
      (∀ p ∈ ps, 0 < g p.1 p.2 →
        P (p.1 + 1 - g p.1 p.2, p.2 + 1 - g p.1 p.2, g p.1 p.2)) →
      P (bestFold g ps best) := by
  intro ps
  induction ps with
  | nil => intro best hb _; exact hb
  | cons p ps ih =>
    intro best hb hstep
    show P (bestFold g ps _)
    apply ih
    · by_cases hlt : best.2.2 < g p.1 p.2
      · simp only [bestFold, List.foldl_cons, if_pos hlt]
        exact hstep p (List.mem_cons_self _ _) (by omega)
      · simpa only [bestFold, List.foldl_cons, if_neg hlt] using hb
    · intro q hq hpos
      exact hstep q (List.mem_cons_of_mem _ hq) hpos

theorem bestFold_stable (g : ℕ → ℕ → ℕ) :
    ∀ (ps : List (ℕ × ℕ)) (best : ℕ × ℕ × ℕ),
      (∀ p ∈ ps, g p.1 p.2 ≤ best.2.2) → bestFold g ps best = best := by
  intro ps
  induction ps with
  | nil => intro best _; rfl
  | cons p ps ih =>
    intro best hle
    have hstep : bestFold g (p :: ps) best = bestFold g ps best := by
      simp only [bestFold, List.foldl_cons]
      rw [if_neg (by have := hle p (List.mem_cons_self _ _); omega)]
    rw [hstep]
    exact ih best (fun q hq => hle q (List.mem_cons_of_mem _ hq))

theorem bestFold_first_max (g : ℕ → ℕ → ℕ) (M : ℕ) :
    ∀ (l₁ : List (ℕ × ℕ)) (p : ℕ × ℕ) (l₂ : List (ℕ × ℕ))
      (best : ℕ × ℕ × ℕ),
      g p.1 p.2 = M → best.2.2 < M →
      (∀ q ∈ l₁, g q.1 q.2 < M) → (∀ q ∈ l₂, g q.1 q.2 ≤ M) →
      bestFold g (l₁ ++ p :: l₂) best = (p.1 + 1 - M, p.2 + 1 - M, M) := by
  intro l₁
  induction l₁ with
  | nil =>
    intro p l₂ best hM hb _ hl₂
    simp only [List.nil_append]
    have hstep : bestFold g (p :: l₂) best =
        bestFold g l₂ (p.1 + 1 - M, p.2 + 1 - M, M) := by
      simp only [bestFold, List.foldl_cons]
      rw [if_pos (by omega), hM]
    rw [hstep]
    exact bestFold_stable g l₂ _ (by intro q hq; simpa using hl₂ q hq)
  | cons q l₁ ih =>
    intro p l₂ best hM hb hl₁ hl₂
    simp only [List.cons_append]
    have hq := hl₁ q (List.mem_cons_self _ _)
    by_cases hlt : best.2.2 < g q.1 q.2
    · have hstep : bestFold g (q :: (l₁ ++ p :: l₂)) best =
          bestFold g (l₁ ++ p :: l₂)
            (q.1 + 1 - g q.1 q.2, q.2 + 1 - g q.1 q.2, g q.1 q.2) := by
        simp only [bestFold, List.foldl_cons]
        rw [if_pos hlt]
      rw [hstep]
      exact ih p l₂ _ hM (by simp; omega)
        (fun r hr => hl₁ r (List.mem_cons_of_mem _ hr)) hl₂
    · have hstep : bestFold g (q :: (l₁ ++ p :: l₂)) best =
          bestFold g (l₁ ++ p :: l₂) best := by
        simp only [bestFold, List.foldl_cons]
        rw [if_neg hlt]
      rw [hstep]
      exact ih p l₂ best hM hb
        (fun r hr => hl₁ r (List.mem_cons_of_mem _ hr)) hl₂

theorem exists_first_max {β : Type} (f : β → ℕ) :
    ∀ (ps : List β), (∃ p ∈ ps, 0 < f p) →
      ∃ l₁ p l₂, ps = l₁ ++ p :: l₂ ∧ 0 < f p ∧
        (∀ q ∈ l₁, f q < f p) ∧ ∀ q ∈ ps, f q ≤ f p := by
  intro ps
  induction ps with
  | nil => rintro ⟨p, hp, _⟩; cases hp
  | cons p ps ih =>
    intro hex
    by_cases hall : ∀ q ∈ ps, f q ≤ f p
    · refine ⟨[], p, ps, rfl, ?_, by simp, ?_⟩
      · obtain ⟨q, hq, hqpos⟩ := hex
        rcases List.mem_cons.mp hq with rfl | hq'
        · exact hqpos
        · exact lt_of_lt_of_le hqpos (hall q hq')
      · intro q hq
        rcases List.mem_cons.mp hq with rfl | hq'
        · exact le_refl _
        · exact hall q hq'
    · push_neg at hall
      obtain ⟨q₀, hq₀, hq₀lt⟩ := hall
      obtain ⟨l₁, p', l₂, rfl, hpos, hfirst, hmax⟩ :=
        ih ⟨q₀, hq₀, by omega⟩
      refine ⟨p :: l₁, p', l₂, rfl, hpos, ?_, ?_⟩
      · intro q hq
        rcases List.mem_cons.mp hq with rfl | hq'
        · exact lt_of_lt_of_le hq₀lt (hmax q₀ hq₀)
        · exact hfirst q hq'
      · intro q hq
        rcases List.mem_cons.mp hq with rfl | hq'
        · exact le_of_lt (lt_of_lt_of_le hq₀lt (hmax q₀ hq₀))
        · exact hmax q hq'

theorem dpPairs_mem (ok : ℕ → ℕ → Bool) (alo ahi blo bhi : ℕ) (p : ℕ × ℕ) :
    p ∈ dpPairs ok alo ahi blo bhi ↔
      alo ≤ p.1 ∧ p.1 < alo + (ahi - alo) ∧ blo ≤ p.2 ∧
        p.2 < blo + (bhi - blo) ∧ ok p.1 p.2 = true := by
  unfold dpPairs dpRowPairs
  rw [List.mem_flatMap]
  constructor
  · rintro ⟨i, hi, hp⟩
    rw [List.mem_range'_1] at hi
    obtain ⟨j, hj, rfl⟩ := List.mem_map.mp hp
    obtain ⟨hjr, hjo⟩ := List.mem_filter.mp hj
    rw [List.mem_range'_1] at hjr
    exact ⟨hi.1, hi.2, hjr.1, hjr.2, by simpa using hjo⟩
  · rintro ⟨h1, h2, h3, h4, h5⟩
    refine ⟨p.1, List.mem_range'_1.mpr ⟨h1, h2⟩, ?_⟩
    rw [List.mem_map]
    exact ⟨p.2, List.mem_filter.mpr
      ⟨List.mem_range'_1.mpr ⟨h3, h4⟩, by simpa using h5⟩, rfl⟩

/-! ### The extension passes -/

theorem aeqb_spec (a b : List α) (i j : ℕ) (h : aeqb a b i j = true) :
    i < a.length ∧ a[i]? = b[j]? := by
  unfold aeqb at h
  rcases ha : a[i]? with _ | x <;> rw [ha] at h
  · cases h
  · rcases hb : b[j]? with _ | y <;> rw [hb] at h
    · cases h
    · simp only [decide_eq_true_eq] at h
      subst h
      refine ⟨?_, rfl⟩
      by_contra hc
      rw [List.getElem?_eq_none (by omega)] at ha
      cases ha

theorem extendLo_spec (cond : ℕ → Bool) (a b : List α) (alo blo : ℕ) :
    ∀ (besti bestj bestsize : ℕ),
      alo ≤ besti → blo ≤ bestj → matchAt a b besti bestj bestsize →
      alo ≤ (extendLo cond (aeqb a b) alo blo besti bestj bestsize).1 ∧
      blo ≤ (extendLo cond (aeqb a b) alo blo besti bestj bestsize).2.1 ∧
      (extendLo cond (aeqb a b) alo blo besti bestj bestsize).1 +
          (extendLo cond (aeqb a b) alo blo besti bestj bestsize).2.2 =
        besti + bestsize ∧
      (extendLo cond (aeqb a b) alo blo besti bestj bestsize).2.1 +
          (extendLo cond (aeqb a b) alo blo besti bestj bestsize).2.2 =
        bestj + bestsize ∧
      matchAt a b (extendLo cond (aeqb a b) alo blo besti bestj bestsize).1
        (extendLo cond (aeqb a b) alo blo besti bestj bestsize).2.1
        (extendLo cond (aeqb a b) alo blo besti bestj bestsize).2.2 := by
  intro besti
  induction besti with
  | zero =>
    intro bestj bestsize hi hj hm
    exact ⟨hi, hj, rfl, rfl, hm⟩
  | succ besti ih =>
    intro bestj bestsize hi hj hm
    by_cases hg : alo < besti + 1 ∧ blo < bestj ∧ cond (bestj - 1) = true ∧
        aeqb a b besti (bestj - 1) = true
    · have hstep : extendLo cond (aeqb a b) alo blo (besti + 1) bestj bestsize
          = extendLo cond (aeqb a b) alo blo besti (bestj - 1) (bestsize + 1) := by
        simp only [extendLo, if_pos hg]
      rw [hstep]
      obtain ⟨hg1, hg2, _, hg4⟩ := hg
      have heq := aeqb_spec a b besti (bestj - 1) hg4
      have hm' : matchAt a b besti (bestj - 1) (bestsize + 1) := by
        intro t ht
        rcases Nat.eq_zero_or_pos t with rfl | htpos
        · simpa using heq
        · obtain ⟨s, rfl⟩ := Nat.exists_eq_succ_of_ne_zero (by omega : t ≠ 0)
          have hs := hm s (by omega)
          have e1 : besti + (s + 1) = besti + 1 + s := by omega
          have e2 : bestj - 1 + (s + 1) = bestj + s := by omega
          rw [e1, e2]
          exact hs
      have := ih (bestj - 1) (bestsize + 1) (by omega) (by omega) hm'
      refine ⟨this.1, this.2.1, by omega, by omega, this.2.2.2.2⟩
    · have hstep : extendLo cond (aeqb a b) alo blo (besti + 1) bestj bestsize
          = (besti + 1, bestj, bestsize) := by
        simp only [extendLo, if_neg hg]
      rw [hstep]
      exact ⟨hi, hj, rfl, rfl, hm⟩

theorem extendHi_spec (cond : ℕ → Bool) (a b : List α)
    (ahi bhi besti bestj : ℕ) :
    ∀ (fuel bestsize : ℕ), matchAt a b besti bestj bestsize →
      bestsize ≤ extendHi cond (aeqb a b) ahi bhi besti bestj fuel bestsize ∧
      matchAt a b besti bestj
        (extendHi cond (aeqb a b) ahi bhi besti bestj fuel bestsize) ∧
      (besti + bestsize ≤ ahi →
        besti + extendHi cond (aeqb a b) ahi bhi besti bestj fuel bestsize ≤ ahi) ∧
      (bestj + bestsize ≤ bhi →
        bestj + extendHi cond (aeqb a b) ahi bhi besti bestj fuel bestsize ≤ bhi) := by
  intro fuel
  induction fuel with
  | zero =>
    intro bestsize hm
    exact ⟨le_refl _, hm, fun h => h, fun h => h⟩
  | succ fuel ih =>
    intro bestsize hm
    by_cases hg : besti + bestsize < ahi ∧ bestj + bestsize < bhi ∧
        cond (bestj + bestsize) = true ∧
        aeqb a b (besti + bestsize) (bestj + bestsize) = true
    · have hstep : extendHi cond (aeqb a b) ahi bhi besti bestj (fuel + 1)
          bestsize = extendHi cond (aeqb a b) ahi bhi besti bestj fuel
            (bestsize + 1) := by
        simp only [extendHi, if_pos hg]
      rw [hstep]
      obtain ⟨hg1, hg2, _, hg4⟩ := hg
      have heq := aeqb_spec a b (besti + bestsize) (bestj + bestsize) hg4
      have hm' : matchAt a b besti bestj (bestsize + 1) := by
        intro t ht
        rcases Nat.lt_or_ge t bestsize with htlt | htge
        · exact hm t htlt
        · have : t = bestsize := by omega
          subst this
          exact ⟨heq.1, heq.2⟩
      have := ih (bestsize + 1) hm'
      exact ⟨by omega, this.2.1,
        fun _ => this.2.2.1 (by omega), fun _ => this.2.2.2 (by omega)⟩
    · have hstep : extendHi cond (aeqb a b) ahi bhi besti bestj (fuel + 1)
          bestsize = bestsize := by
        simp only [extendHi, if_neg hg]
      rw [hstep]
      exact ⟨le_refl _, hm, fun h => h, fun h => h⟩

theorem extendLo_stop (cond : ℕ → Bool) (e2 : ℕ → ℕ → Bool) (alo blo : ℕ)
    (besti bestj k : ℕ) (h : besti ≤ alo ∨ bestj ≤ blo) :
    extendLo cond e2 alo blo besti bestj k = (besti, bestj, k) := by
  cases besti with
  | zero => rfl
  | succ b =>
    simp only [extendLo]
    rw [if_neg ?_]
    rintro ⟨h1, h2, _⟩
    omega

theorem extendHi_stop (cond : ℕ → Bool) (e2 : ℕ → ℕ → Bool)
    (ahi bhi besti bestj fuel k : ℕ)
    (h : ahi ≤ besti + k ∨ bhi ≤ bestj + k) :
    extendHi cond e2 ahi bhi besti bestj fuel k = k := by
  cases fuel with
  | zero => rfl
  | succ f =>
    simp only [extendHi]
    rw [if_neg ?_]
    rintro ⟨h1, h2, _⟩
    omega

theorem okPair_sound (m : Matcher α) (hsound : b2jSound m) (i j : ℕ)
    (h : okPair m.b2j m.a i j = true) :
    i < m.a.length ∧ m.a[i]? = m.b[j]? := by
  unfold okPair at h
  rcases ha : m.a[i]? with _ | x <;> rw [ha] at h
  · cases h
  · refine ⟨?_, ?_⟩
    · by_contra hc
      rw [List.getElem?_eq_none (by omega)] at ha
      cases ha
    · exact (hsound x j (by simpa using h)).symm

theorem dpPairs_empty (ok : ℕ → ℕ → Bool) (alo ahi blo bhi : ℕ)
    (h : ahi ≤ alo ∨ bhi ≤ blo) : dpPairs ok alo ahi blo bhi = [] := by
  rcases h with h | h
  · unfold dpPairs
    rw [show ahi - alo = 0 by omega]
    rfl
  · unfold dpPairs dpRowPairs
    rw [show bhi - blo = 0 by omega]
    simp

/-- The bundled facts about `findLongestMatch` the queue decomposition
needs: the result starts inside the window's lower corner, matches
element-wise, and (when non-empty) lies wholly inside the window. -/
theorem flm_facts (m : Matcher α) (hsound : b2jSound m)
    (hsort : ∀ x, List.Pairwise (· < ·) (m.b2j x)) (alo ahi blo bhi : ℕ) :
    alo ≤ (findLongestMatch m alo ahi blo bhi).1 ∧
    blo ≤ (findLongestMatch m alo ahi blo bhi).2.1 ∧
    matchAt m.a m.b (findLongestMatch m alo ahi blo bhi).1
      (findLongestMatch m alo ahi blo bhi).2.1
      (findLongestMatch m alo ahi blo bhi).2.2 ∧
    ((findLongestMatch m alo ahi blo bhi).2.2 ≠ 0 →
      (findLongestMatch m alo ahi blo bhi).1 +
        (findLongestMatch m alo ahi blo bhi).2.2 ≤ ahi ∧
      (findLongestMatch m alo ahi blo bhi).2.1 +
        (findLongestMatch m alo ahi blo bhi).2.2 ≤ bhi) := by
  by_cases hwin : alo ≤ ahi ∧ blo ≤ bhi
  · -- the window is well-formed: core and extensions stay inside it
    have hcoreP : alo ≤ (flmCore m alo ahi blo bhi).1 ∧
        blo ≤ (flmCore m alo ahi blo bhi).2.1 ∧
        (flmCore m alo ahi blo bhi).1 + (flmCore m alo ahi blo bhi).2.2 ≤ ahi ∧
        (flmCore m alo ahi blo bhi).2.1 + (flmCore m alo ahi blo bhi).2.2 ≤ bhi ∧
        matchAt m.a m.b (flmCore m alo ahi blo bhi).1
          (flmCore m alo ahi blo bhi).2.1 (flmCore m alo ahi blo bhi).2.2 := by
      rw [flmCore_spec m hsort]
      apply bestFold_inv _ (fun c => alo ≤ c.1 ∧ blo ≤ c.2.1 ∧
        c.1 + c.2.2 ≤ ahi ∧ c.2.1 + c.2.2 ≤ bhi ∧
        matchAt m.a m.b c.1 c.2.1 c.2.2)
      · dsimp only
        exact ⟨le_refl _, le_refl _, by omega, by omega,
          fun t ht => absurd ht (Nat.not_lt_zero t)⟩
      · intro p hp hpos
        dsimp only
        rw [dpPairs_mem] at hp
        obtain ⟨hp1, hp2, hp3, hp4, hp5⟩ := hp
        obtain ⟨hv1, hv2, hv3, hv4, hv5⟩ :=
          rhoP_sound (okPair m.b2j m.a) alo blo bhi p.1 p.2 _ rfl hpos
        refine ⟨hv3, hv4, by omega, by omega, ?_⟩
        intro t ht
        obtain ⟨hok, _⟩ := hv5 t ht
        exact (okPair_sound m hsound _ _ hok).imp id id
    -- push the invariant through the four extension passes
    unfold findLongestMatch flmExtend
    dsimp only
    obtain ⟨hc1, hc2, hc3, hc4, hc5⟩ := hcoreP
    obtain ⟨h11, h12, h13, h14, h15⟩ :=
      extendLo_spec (fun j => !bjunkAt m.junkSet m.b j) m.a m.b alo blo
        (flmCore m alo ahi blo bhi).1 (flmCore m alo ahi blo bhi).2.1
        (flmCore m alo ahi blo bhi).2.2 hc1 hc2 hc5
    set s1 := extendLo (fun j => !bjunkAt m.junkSet m.b j) (aeqb m.a m.b)
      alo blo (flmCore m alo ahi blo bhi).1 (flmCore m alo ahi blo bhi).2.1
      (flmCore m alo ahi blo bhi).2.2 with hs1
    obtain ⟨h21, h22, h23, h24⟩ :=
      extendHi_spec (fun j => !bjunkAt m.junkSet m.b j) m.a m.b ahi bhi
        s1.1 s1.2.1 ahi s1.2.2 h15
    set k2 := extendHi (fun j => !bjunkAt m.junkSet m.b j) (aeqb m.a m.b)
      ahi bhi s1.1 s1.2.1 ahi s1.2.2 with hk2
    have h23' : s1.1 + k2 ≤ ahi := h23 (by omega)
    have h24' : s1.2.1 + k2 ≤ bhi := h24 (by omega)
    obtain ⟨h31, h32, h33, h34, h35⟩ :=
      extendLo_spec (fun j => bjunkAt m.junkSet m.b j) m.a m.b alo blo
        s1.1 s1.2.1 k2 h11 h12 h22
    set s3 := extendLo (fun j => bjunkAt m.junkSet m.b j) (aeqb m.a m.b)
      alo blo s1.1 s1.2.1 k2 with hs3
    obtain ⟨h41, h42, h43, h44⟩ :=
      extendHi_spec (fun j => bjunkAt m.junkSet m.b j) m.a m.b ahi bhi
        s3.1 s3.2.1 ahi s3.2.2 h35
    refine ⟨h31, h32, h42, fun _ => ⟨h43 (by omega), h44 (by omega)⟩⟩
  · -- degenerate window: the core is the empty default and nothing extends
    have hcore : flmCore m alo ahi blo bhi = (alo, blo, 0) := by
      rw [flmCore_spec m hsort, dpPairs_empty _ _ _ _ _ (by omega)]
      rfl
    have hres : findLongestMatch m alo ahi blo bhi = (alo, blo, 0) := by
      unfold findLongestMatch flmExtend
      rw [hcore]
      dsimp only
      rw [extendLo_stop _ _ _ _ _ _ _ (Or.inl le_rfl)]
      try dsimp only
      rw [extendHi_stop _ _ _ _ _ _ _ _
        (show ahi ≤ alo + 0 ∨ bhi ≤ blo + 0 by omega)]
      try dsimp only
      rw [extendLo_stop _ _ _ _ _ _ _ (Or.inl le_rfl)]
      try dsimp only
      rw [extendHi_stop _ _ _ _ _ _ _ _
        (show ahi ≤ alo + 0 ∨ bhi ≤ blo + 0 by omega)]
      try dsimp only
      try rfl
    rw [hres]
    exact ⟨le_refl _, le_refl _, fun t ht => absurd ht (Nat.not_lt_zero t),
      fun h0 => absurd rfl h0⟩

/-! ### The work-queue decomposition -/

/-- The blocks `gmbLoop` accumulates are non-empty matching blocks inside
both sequences, pairwise separated. -/
theorem gmbLoop_invariant (m : Matcher α) (hsound : b2jSound m)
    (hsort : ∀ x, List.Pairwise (· < ·) (m.b2j x)) :
    ∀ (fuel : ℕ) (queue : List (ℕ × ℕ × ℕ × ℕ)) (acc : List (ℕ × ℕ × ℕ)),
      (∀ w ∈ queue, wfWin m.a.length m.b.length w) →
      List.Pairwise sepWW queue →
      (∀ t ∈ acc, goodBlk m t) →
      List.Pairwise sepBB acc →
      (∀ t ∈ acc, ∀ w ∈ queue, sepBW t w) →
      (∀ t ∈ gmbLoop m fuel queue acc, goodBlk m t) ∧
        List.Pairwise sepBB (gmbLoop m fuel queue acc) := by
  intro fuel
  induction fuel with
  | zero =>
    intro queue acc _ _ hgood hpw _
    exact ⟨hgood, hpw⟩
  | succ fuel ih =>
    intro queue acc hQwf hQpw hgood hpw hTQ
    cases queue with
    | nil => exact ⟨hgood, hpw⟩
    | cons w queue =>
      obtain ⟨alo, ahi, blo, bhi⟩ := w
      rcases hxeq : findLongestMatch m alo ahi blo bhi with ⟨i, j, k⟩
      have hf := flm_facts m hsound hsort alo ahi blo bhi
      rw [hxeq] at hf
      dsimp only at hf
      obtain ⟨hf1, hf2, hf3, hf4⟩ := hf
      have hloop : gmbLoop m (fuel + 1) ((alo, ahi, blo, bhi) :: queue) acc =
          if k ≠ 0 then
            gmbLoop m fuel
              (if i + k < ahi ∧ j + k < bhi then
                (i + k, ahi, j + k, bhi) ::
                  (if alo < i ∧ blo < j then (alo, i, blo, j) :: queue
                   else queue)
              else
                (if alo < i ∧ blo < j then (alo, i, blo, j) :: queue
                 else queue))
              (acc ++ [(i, j, k)])
          else gmbLoop m fuel queue acc := by
        simp only [gmbLoop, hxeq]
      rw [hloop]
      have hwf0 := hQwf _ (List.mem_cons_self _ _)
      unfold wfWin at hwf0
      dsimp only at hwf0
      obtain ⟨hw1, hw2, hw3, hw4⟩ := hwf0
      have hQrel := (List.pairwise_cons.mp hQpw).1
      have hQtailpw := (List.pairwise_cons.mp hQpw).2
      have hQtailwf : ∀ w' ∈ queue, wfWin m.a.length m.b.length w' :=
        fun w' hw' => hQwf w' (List.mem_cons_of_mem _ hw')
      have hTQtail : ∀ t ∈ acc, ∀ w' ∈ queue, sepBW t w' :=
        fun t ht w' hw' => hTQ t ht w' (List.mem_cons_of_mem _ hw')
      have hThead : ∀ t ∈ acc, sepBW t (alo, ahi, blo, bhi) :=
        fun t ht => hTQ t ht _ (List.mem_cons_self _ _)
      by_cases hk : k ≠ 0
      · rw [if_pos hk]
        obtain ⟨hik, hjk⟩ := hf4 hk
        have hgood_x : goodBlk m (i, j, k) := by
          unfold goodBlk
          dsimp only
          exact ⟨hk, hf3, by omega, by omega⟩
        have hsep_t_x : ∀ t ∈ acc, sepBB t (i, j, k) := by
          intro t ht
          have hh := hThead t ht
          unfold sepBW at hh
          unfold sepBB
          dsimp only at hh ⊢
          omega
        have hwf_L : wfWin m.a.length m.b.length (alo, i, blo, j) := by
          unfold wfWin
          dsimp only
          omega
        have hwf_R : wfWin m.a.length m.b.length (i + k, ahi, j + k, bhi) := by
          unfold wfWin
          dsimp only
          omega
        have hsep_L_R : sepWW (alo, i, blo, j) (i + k, ahi, j + k, bhi) := by
          unfold sepWW
          dsimp only
          omega
        have hsep_L_q : ∀ w' ∈ queue, sepWW (alo, i, blo, j) w' := by
          intro w' hw'
          have hh := hQrel w' hw'
          unfold sepWW at hh ⊢
          dsimp only at hh ⊢
          omega
        have hsep_R_q : ∀ w' ∈ queue, sepWW (i + k, ahi, j + k, bhi) w' := by
          intro w' hw'
          have hh := hQrel w' hw'
          unfold sepWW at hh ⊢
          dsimp only at hh ⊢
          omega
        have hsep_t_L : ∀ t ∈ acc, sepBW t (alo, i, blo, j) := by
          intro t ht
          have hh := hThead t ht
          unfold sepBW at hh ⊢
          dsimp only at hh ⊢
          omega
        have hsep_t_R : ∀ t ∈ acc, sepBW t (i + k, ahi, j + k, bhi) := by
          intro t ht
          have hh := hThead t ht
          unfold sepBW at hh ⊢
          dsimp only at hh ⊢
          omega
        have hsep_x_L : sepBW (i, j, k) (alo, i, blo, j) := by
          unfold sepBW
          dsimp only
          omega
        have hsep_x_R : sepBW (i, j, k) (i + k, ahi, j + k, bhi) := by
          unfold sepBW
          dsimp only
          omega
        have hsep_x_q : ∀ w' ∈ queue, sepBW (i, j, k) w' := by
          intro w' hw'
          have hh := hQrel w' hw'
          unfold sepWW at hh
          unfold sepBW
          dsimp only at hh ⊢
          omega
        have hgood' : ∀ t ∈ acc ++ [(i, j, k)], goodBlk m t := by
          intro t ht
          rcases List.mem_append.mp ht with ht | ht
          · exact hgood t ht
          · rw [List.mem_singleton.mp ht]
            exact hgood_x
        have hpw' : List.Pairwise sepBB (acc ++ [(i, j, k)]) := by
          rw [List.pairwise_append]
          exact ⟨hpw, List.pairwise_singleton _ _, by
            intro t ht u hu
            rw [List.mem_singleton.mp hu]
            exact hsep_t_x t ht⟩
        by_cases hcL : alo < i ∧ blo < j <;> by_cases hcR : i + k < ahi ∧ j + k < bhi
        · rw [if_pos hcL, if_pos hcR]
          apply ih
          · intro w' hw'
            rcases List.mem_cons.mp hw' with rfl | hw'
            · exact hwf_R
            rcases List.mem_cons.mp hw' with rfl | hw'
            · exact hwf_L
            · exact hQtailwf w' hw'
          · refine List.pairwise_cons.mpr ⟨?_, List.pairwise_cons.mpr ⟨hsep_L_q, hQtailpw⟩⟩
            intro w' hw'
            rcases List.mem_cons.mp hw' with rfl | hw'
            · have hh := hsep_L_R
              unfold sepWW at hh ⊢
              dsimp only at hh ⊢
              omega
            · exact hsep_R_q w' hw'
          · exact hgood'
          · exact hpw'
          · intro t ht w' hw'
            rcases List.mem_append.mp ht with ht | ht
            · rcases List.mem_cons.mp hw' with rfl | hw'
              · exact hsep_t_R t ht
              rcases List.mem_cons.mp hw' with rfl | hw'
              · exact hsep_t_L t ht
              · exact hTQtail t ht w' hw'
            · rw [List.mem_singleton.mp ht]
              rcases List.mem_cons.mp hw' with rfl | hw'
              · exact hsep_x_R
              rcases List.mem_cons.mp hw' with rfl | hw'
              · exact hsep_x_L
              · exact hsep_x_q w' hw'
        · rw [if_pos hcL, if_neg hcR]
          apply ih
          · intro w' hw'
            rcases List.mem_cons.mp hw' with rfl | hw'
            · exact hwf_L
            · exact hQtailwf w' hw'
          · exact List.pairwise_cons.mpr ⟨hsep_L_q, hQtailpw⟩
          · exact hgood'
          · exact hpw'
          · intro t ht w' hw'
            rcases List.mem_append.mp ht with ht | ht
            · rcases List.mem_cons.mp hw' with rfl | hw'
              · exact hsep_t_L t ht
              · exact hTQtail t ht w' hw'
            · rw [List.mem_singleton.mp ht]
              rcases List.mem_cons.mp hw' with rfl | hw'
              · exact hsep_x_L
              · exact hsep_x_q w' hw'
        · rw [if_neg hcL, if_pos hcR]
          apply ih
          · intro w' hw'
            rcases List.mem_cons.mp hw' with rfl | hw'
            · exact hwf_R
            · exact hQtailwf w' hw'
          · exact List.pairwise_cons.mpr ⟨hsep_R_q, hQtailpw⟩
          · exact hgood'
          · exact hpw'
          · intro t ht w' hw'
            rcases List.mem_append.mp ht with ht | ht
            · rcases List.mem_cons.mp hw' with rfl | hw'
              · exact hsep_t_R t ht
              · exact hTQtail t ht w' hw'
            · rw [List.mem_singleton.mp ht]
              rcases List.mem_cons.mp hw' with rfl | hw'
              · exact hsep_x_R
              · exact hsep_x_q w' hw'
        · rw [if_neg hcL, if_neg hcR]
          apply ih
          · exact hQtailwf
          · exact hQtailpw
          · exact hgood'
          · exact hpw'
          · intro t ht w' hw'
            rcases List.mem_append.mp ht with ht | ht
            · exact hTQtail t ht w' hw'
            · rw [List.mem_singleton.mp ht]
              exact hsep_x_q w' hw'
      · rw [if_neg hk]
        exact ih queue acc hQtailwf hQtailpw hgood hpw hTQtail

/-- `blkLe` (the order of `matchingBlocks.sort(_arrayCmp)`) is the
lexicographic order on the three components. -/
theorem blkLe_iff (t u : ℕ × ℕ × ℕ) :
    blkLe t u ↔
      (t.1 < u.1 ∨ (t.1 = u.1 ∧
        (t.2.1 < u.2.1 ∨ (t.2.1 = u.2.1 ∧ t.2.2 ≤ u.2.2)))) := by
  obtain ⟨a1, a2, a3⟩ := t
  obtain ⟨b1, b2, b3⟩ := u
  simp only [blkLe, blkKey, _arrayCmp]
  split_ifs <;> (constructor <;> intro h <;> omega)

theorem blkLe_total : ∀ t u : ℕ × ℕ × ℕ, blkLe t u ∨ blkLe u t := by
  intro t u
  rw [blkLe_iff, blkLe_iff]
  omega

theorem blkLe_trans :
    ∀ t u v : ℕ × ℕ × ℕ, blkLe t u → blkLe u v → blkLe t v := by
  intro t u v h1 h2
  rw [blkLe_iff] at h1 h2 ⊢
  omega

theorem sepBB_symmetric : Symmetric (α := ℕ × ℕ × ℕ) sepBB :=
  fun _ _ h => Or.symm h

/-- On a list of non-empty blocks, lexicographic sortedness plus pairwise
separation give separation in sorted order. -/
theorem pairwise_sepAsc_of_sorted (l : List (ℕ × ℕ × ℕ))
    (hs : List.Pairwise blkLe l) (hsep : List.Pairwise sepBB l)
    (hk : ∀ t ∈ l, t.2.2 ≠ 0) :
    List.Pairwise sepAsc l := by
  induction l with
  | nil => exact List.Pairwise.nil
  | cons t rest ih =>
    obtain ⟨hs1, hs2⟩ := List.pairwise_cons.mp hs
    obtain ⟨hp1, hp2⟩ := List.pairwise_cons.mp hsep
    refine List.pairwise_cons.mpr
      ⟨?_, ih hs2 hp2 (fun u hu => hk u (List.mem_cons_of_mem _ hu))⟩
    intro u hu
    have h1 := hs1 u hu
    have h2 := hp1 u hu
    have h3 := hk t (List.mem_cons_self _ _)
    have h4 := hk u (List.mem_cons_of_mem _ hu)
    rw [blkLe_iff] at h1
    unfold sepBB at h2
    unfold sepAsc
    omega

/-- Two adjacent matches concatenate. -/
theorem matchAt_append (a b : List α) (i j k1 k2 : ℕ)
    (h1 : matchAt a b i j k1) (h2 : matchAt a b (i + k1) (j + k1) k2) :
    matchAt a b i j (k1 + k2) := by
  intro t ht
  by_cases hc : t < k1
  · exact h1 t hc
  · have h2' := h2 (t - k1) (by omega)
    have e1 : i + k1 + (t - k1) = i + t := by omega
    have e2 : j + k1 + (t - k1) = j + t := by omega
    rw [e1, e2] at h2'
    exact h2'

/-- The collapsing pass keeps every block good, never moves before the
running block, and produces an ascending non-touching chain. -/
theorem collapseBlocks_spec (m : Matcher α) :
    ∀ (l : List (ℕ × ℕ × ℕ)) (cur : ℕ × ℕ × ℕ),
      (∀ t ∈ l, goodBlk m t) →
      List.Pairwise sepAsc l →
      (cur = (0, 0, 0) ∨ goodBlk m cur) →
      (∀ u ∈ l, cur.1 + cur.2.2 ≤ u.1 ∧ cur.2.1 + cur.2.2 ≤ u.2.1) →
      (∀ t ∈ collapseBlocks l cur, goodBlk m t) ∧
        (∀ t ∈ collapseBlocks l cur, cur.1 ≤ t.1 ∧ cur.2.1 ≤ t.2.1) ∧
        List.Chain' sepNT (collapseBlocks l cur) := by
  intro l
  induction l with
  | nil =>
    intro cur hg _ hcur _
    by_cases hc : cur.2.2 ≠ 0
    · have hstep : collapseBlocks [] cur = [cur] := by
        simp only [collapseBlocks, if_pos hc]
      rw [hstep]
      rcases hcur with rfl | hcur
      · exact absurd rfl hc
      · refine ⟨?_, ?_, List.chain'_singleton _⟩
        · intro t ht
          rw [List.mem_singleton.mp ht]
          exact hcur
        · intro t ht
          rw [List.mem_singleton.mp ht]
          exact ⟨le_refl _, le_refl _⟩
    · have hstep : collapseBlocks [] cur = [] := by
        simp only [collapseBlocks, if_neg hc]
      rw [hstep]
      exact ⟨fun t ht => absurd ht (List.not_mem_nil t),
        fun t ht => absurd ht (List.not_mem_nil t), List.chain'_nil⟩
  | cons hd rest ih =>
    obtain ⟨i2, j2, k2⟩ := hd
    intro cur hg hpw hcur hsep
    obtain ⟨i1, j1, k1⟩ := cur
    have hghd := hg _ (List.mem_cons_self _ _)
    unfold goodBlk at hghd
    dsimp only at hghd
    obtain ⟨hk2, hm2, hb21, hb22⟩ := hghd
    have hgrest : ∀ t ∈ rest, goodBlk m t :=
      fun t ht => hg t (List.mem_cons_of_mem _ ht)
    obtain ⟨hpw1, hpw2⟩ := List.pairwise_cons.mp hpw
    have hsephd := hsep _ (List.mem_cons_self _ _)
    dsimp only at hsephd
    have hcurm : matchAt m.a m.b i1 j1 k1 ∧
        i1 + k1 ≤ m.a.length ∧ j1 + k1 ≤ m.b.length := by
      rcases hcur with heq | hcur
      · cases heq
        exact ⟨fun t ht => absurd ht (Nat.not_lt_zero t),
          Nat.zero_le _, Nat.zero_le _⟩
      · unfold goodBlk at hcur
        dsimp only at hcur
        exact ⟨hcur.2.1, hcur.2.2⟩
    by_cases hmerge : i1 + k1 = i2 ∧ j1 + k1 = j2
    · have hstep : collapseBlocks ((i2, j2, k2) :: rest) (i1, j1, k1) =
          collapseBlocks rest (i1, j1, k1 + k2) := by
        simp only [collapseBlocks, if_pos hmerge]
      rw [hstep]
      have hnewgood : goodBlk m (i1, j1, k1 + k2) := by
        unfold goodBlk
        dsimp only
        refine ⟨by omega, ?_, by omega, by omega⟩
        have hm2' := hm2
        rw [← hmerge.1, ← hmerge.2] at hm2'
        exact matchAt_append m.a m.b i1 j1 k1 k2 hcurm.1 hm2'
      have hsepnew : ∀ u ∈ rest,
          (i1, j1, k1 + k2).1 + (i1, j1, k1 + k2).2.2 ≤ u.1 ∧
          (i1, j1, k1 + k2).2.1 + (i1, j1, k1 + k2).2.2 ≤ u.2.1 := by
        intro u hu
        have hh := hpw1 u hu
        unfold sepAsc at hh
        dsimp only at hh ⊢
        omega
      exact ih (i1, j1, k1 + k2) hgrest hpw2 (Or.inr hnewgood) hsepnew
    · have hstep : collapseBlocks ((i2, j2, k2) :: rest) (i1, j1, k1) =
          (if k1 ≠ 0 then [(i1, j1, k1)] else []) ++
            collapseBlocks rest (i2, j2, k2) := by
        simp only [collapseBlocks, if_neg hmerge]
      rw [hstep]
      have hsepnew : ∀ u ∈ rest,
          (i2, j2, k2).1 + (i2, j2, k2).2.2 ≤ u.1 ∧
          (i2, j2, k2).2.1 + (i2, j2, k2).2.2 ≤ u.2.1 := by
        intro u hu
        exact hpw1 u hu
      have hhdgood : goodBlk m (i2, j2, k2) := by
        unfold goodBlk
        dsimp only
        exact ⟨hk2, hm2, hb21, hb22⟩
      obtain ⟨hg', hge', hch'⟩ :=
        ih (i2, j2, k2) hgrest hpw2 (Or.inr hhdgood) hsepnew
      by_cases hk1 : k1 ≠ 0
      · rw [if_pos hk1]
        have hcurgood : goodBlk m (i1, j1, k1) := by
          rcases hcur with heq | h
          · cases heq
            exact absurd rfl hk1
          · exact h
        simp only [List.singleton_append]
        refine ⟨?_, ?_, ?_⟩
        · intro t ht
          rcases List.mem_cons.mp ht with rfl | ht
          · exact hcurgood
          · exact hg' t ht
        · intro t ht
          rcases List.mem_cons.mp ht with rfl | ht
          · exact ⟨le_refl _, le_refl _⟩
          · have hh := hge' t ht
            dsimp only at hh ⊢
            omega
        · rw [List.chain'_cons']
          refine ⟨?_, hch'⟩
          intro u hu
          have humem : u ∈ collapseBlocks rest (i2, j2, k2) :=
            List.mem_of_mem_head? hu
          have h1 := hge' u humem
          unfold sepNT
          dsimp only at h1 ⊢
          omega
      · rw [if_neg hk1]
        simp only [List.nil_append]
        refine ⟨hg', ?_, hch'⟩
        intro t ht
        have hh := hge' t ht
        dsimp only at hh ⊢
        omega

/-- A separated non-touching chain of non-empty blocks is strictly
ascending and non-touching. -/
theorem chain_ascNT_of_sepNT :
    ∀ l : List (ℕ × ℕ × ℕ), List.Chain' sepNT l → (∀ t ∈ l, t.2.2 ≠ 0) →
      List.Chain' ascNT l := by
  intro l
  induction l with
  | nil => exact fun _ _ => List.chain'_nil
  | cons t rest ih =>
    intro h hk
    rw [List.chain'_cons'] at h ⊢
    refine ⟨?_, ih h.2 (fun u hu => hk u (List.mem_cons_of_mem _ hu))⟩
    intro u hu
    have h1 := h.1 u hu
    have h2 := hk t (List.mem_cons_self _ _)
    unfold sepNT at h1
    unfold ascNT
    omega

/-- The cache-free `getMatchingBlocks` computation is canonical: every
triple matches element-wise, the list ends with the sentinel, and the
non-sentinel triples form a separated (hence ascending) non-touching
chain of non-empty blocks lying inside both sequences. -/
theorem computeMatchingBlocks_canonical (m : Matcher α) (hsound : b2jSound m)
    (hsort : ∀ x, List.Pairwise (· < ·) (m.b2j x)) :
    (∀ t ∈ computeMatchingBlocks m, matchAt m.a m.b t.1 t.2.1 t.2.2) ∧
    (computeMatchingBlocks m).getLast? = some (m.a.length, m.b.length, 0) ∧
    List.Chain' ascNT (computeMatchingBlocks m).dropLast ∧
    (∀ t ∈ (computeMatchingBlocks m).dropLast, t.2.2 ≠ 0) ∧
    List.Chain' sepNT (computeMatchingBlocks m).dropLast ∧
    (∀ t ∈ (computeMatchingBlocks m).dropLast,
      t.1 + t.2.2 ≤ m.a.length ∧ t.2.1 + t.2.2 ≤ m.b.length) := by
  have hblocks := gmbLoop_invariant m hsound hsort (2 * m.a.length + 1)
    [(0, m.a.length, 0, m.b.length)] []
    (by
      intro w hw
      rw [List.mem_singleton.mp hw]
      exact ⟨Nat.zero_le _, le_refl _, Nat.zero_le _, le_refl _⟩)
    (List.pairwise_singleton _ _)
    (fun t ht => absurd ht (List.not_mem_nil t))
    List.Pairwise.nil
    (fun t ht => absurd ht (List.not_mem_nil t))
  obtain ⟨hgood, hsepBB⟩ := hblocks
  have hperm := List.perm_insertionSort blkLe
    (gmbLoop m (2 * m.a.length + 1) [(0, m.a.length, 0, m.b.length)] [])
  have hgood' : ∀ t ∈ List.insertionSort blkLe
      (gmbLoop m (2 * m.a.length + 1) [(0, m.a.length, 0, m.b.length)] []),
      goodBlk m t := fun t ht => hgood t (hperm.mem_iff.mp ht)
  have hsepBB' := (hperm.pairwise_iff (fun h => sepBB_symmetric h)).mpr hsepBB
  haveI : IsTotal (ℕ × ℕ × ℕ) blkLe := ⟨blkLe_total⟩
  haveI : IsTrans (ℕ × ℕ × ℕ) blkLe := ⟨blkLe_trans⟩
  have hsorted : List.Pairwise blkLe (List.insertionSort blkLe
      (gmbLoop m (2 * m.a.length + 1) [(0, m.a.length, 0, m.b.length)] [])) :=
    List.sorted_insertionSort blkLe _
  have hk : ∀ t ∈ List.insertionSort blkLe
      (gmbLoop m (2 * m.a.length + 1) [(0, m.a.length, 0, m.b.length)] []),
      t.2.2 ≠ 0 := fun t ht => (hgood' t ht).1
  have hasc := pairwise_sepAsc_of_sorted _ hsorted hsepBB' hk
  obtain ⟨hcg, hcge, hcch⟩ := collapseBlocks_spec m
    (List.insertionSort blkLe
      (gmbLoop m (2 * m.a.length + 1) [(0, m.a.length, 0, m.b.length)] []))
    (0, 0, 0) hgood' hasc (Or.inl rfl)
    (fun u _ => ⟨Nat.zero_le _, Nat.zero_le _⟩)
  have hfin : computeMatchingBlocks m =
      collapseBlocks (List.insertionSort blkLe
        (gmbLoop m (2 * m.a.length + 1) [(0, m.a.length, 0, m.b.length)] []))
        (0, 0, 0) ++ [(m.a.length, m.b.length, 0)] := rfl
  rw [hfin]
  refine ⟨?_, ?_, ?_, ?_, ?_, ?_⟩
  · intro t ht
    rcases List.mem_append.mp ht with ht | ht
    · exact (hcg t ht).2.1
    · rw [List.mem_singleton.mp ht]
      exact fun s hs => absurd hs (Nat.not_lt_zero s)
  · exact List.getLast?_concat _
  · rw [List.dropLast_concat]
    exact chain_ascNT_of_sepNT _ hcch (fun t ht => (hcg t ht).1)
  · rw [List.dropLast_concat]
    intro t ht
    exact (hcg t ht).1
  · rw [List.dropLast_concat]
    exact hcch
  · rw [List.dropLast_concat]
    intro t ht
    exact ⟨(hcg t ht).2.2.1, (hcg t ht).2.2.2⟩

/-- C1: for every pair of sequences, any junk predicate and any autojunk
setting, `getMatchingBlocks()` is canonical: every triple `(i, j, n)`
matches `a` against `b` element-wise on `n` positions; the non-sentinel
triples are strictly ascending in both `i` and `j`, no two adjacent ones
touch, and all have `n ≠ 0`; the last element is the sentinel
`(a.length, b.length, 0)`. -/
theorem getMatchingBlocks_canonical (isjunk : Option (α → Bool))
    (a b : List α) (autojunk : Bool) :
    (∀ t ∈ getMatchingBlocks (mkMatcher isjunk a b autojunk),
      matchAt a b t.1 t.2.1 t.2.2) ∧
    (getMatchingBlocks (mkMatcher isjunk a b autojunk)).getLast? =
      some (a.length, b.length, 0) ∧
    List.Chain' ascNT
      (getMatchingBlocks (mkMatcher isjunk a b autojunk)).dropLast ∧
    List.Pairwise (fun t u => t.1 < u.1 ∧ t.2.1 < u.2.1)
      (getMatchingBlocks (mkMatcher isjunk a b autojunk)).dropLast ∧
    (∀ t ∈ (getMatchingBlocks (mkMatcher isjunk a b autojunk)).dropLast,
      t.2.2 ≠ 0) := by
  have h0 : getMatchingBlocks (mkMatcher isjunk a b autojunk) =
      computeMatchingBlocks (mkMatcher isjunk a b autojunk) := rfl
  have hmain := computeMatchingBlocks_canonical (mkMatcher isjunk a b autojunk)
    (mkMatcher_b2jSound isjunk a b autojunk)
    (fun x => mkB2j_sorted b isjunk autojunk x)
  rw [h0]
  obtain ⟨hm1, hm2, hm3, hm4, hm5, hm6⟩ := hmain
  refine ⟨hm1, hm2, hm3, ?_, hm4⟩
  haveI : IsTrans (ℕ × ℕ × ℕ) (fun t u => t.1 < u.1 ∧ t.2.1 < u.2.1) :=
    ⟨fun x y z h1 h2 => ⟨lt_trans h1.1 h2.1, lt_trans h1.2 h2.2⟩⟩
  rw [← List.chain'_iff_pairwise]
  exact hm3.imp (fun a b h => ⟨h.1, h.2.1⟩)

/-! ### The opcode tiling -/

theorem opChain_append (p q r : ℕ × ℕ) (xs ys : List Opcode)
    (h1 : opChain p xs q) (h2 : opChain q ys r) : opChain p (xs ++ ys) r := by
  induction xs generalizing p with
  | nil =>
    have h1' : p = q := h1
    rw [List.nil_append, h1']
    exact h2
  | cons op xs ih =>
    obtain ⟨tg, i1, i2, j1, j2⟩ := op
    obtain ⟨hp, hrest⟩ := h1
    exact ⟨hp, ih _ hrest⟩

theorem blocksEnd_concat :
    ∀ (l : List (ℕ × ℕ × ℕ)) (p : ℕ × ℕ) (t : ℕ × ℕ × ℕ),
      blocksEnd (l ++ [t]) p = (t.1 + t.2.2, t.2.1 + t.2.2) := by
  intro l
  induction l with
  | nil =>
    intro p t
    obtain ⟨a, b, k⟩ := t
    rfl
  | cons hd rest ih =>
    intro p t
    obtain ⟨a, b, k⟩ := hd
    exact ih _ t

theorem opcodesFromBlocks_append :
    ∀ (l1 l2 : List (ℕ × ℕ × ℕ)) (i j : ℕ),
      opcodesFromBlocks (l1 ++ l2) i j =
        opcodesFromBlocks l1 i j ++
          opcodesFromBlocks l2 (blocksEnd l1 (i, j)).1 (blocksEnd l1 (i, j)).2 := by
  intro l1
  induction l1 with
  | nil => intro l2 i j; rfl
  | cons hd rest ih =>
    intro l2 i j
    obtain ⟨ai, bj, k⟩ := hd
    simp only [List.cons_append, opcodesFromBlocks, blocksEnd, List.append_eq]
    rw [ih]
    simp only [List.append_assoc]

/-- The per-block opcode emission is a contiguous tiling with well-shaped
opcodes and no two adjacent `equal` opcodes, for any separated
non-touching block chain starting at or after the cursor. -/
theorem opcodesFromBlocks_spec :
    ∀ (l : List (ℕ × ℕ × ℕ)) (i j : ℕ),
      List.Chain' sepNT l →
      (∀ u ∈ l.head?, i ≤ u.1 ∧ j ≤ u.2.1) →
      opChain (i, j) (opcodesFromBlocks l i j) (blocksEnd l (i, j)) ∧
      (∀ op ∈ opcodesFromBlocks l i j, opShape op) ∧
      List.Chain' (fun op op' => ¬(op.1 = Tag.equal ∧ op'.1 = Tag.equal))
        (opcodesFromBlocks l i j) := by
  intro l
  induction l with
  | nil =>
    intro i j _ _
    exact ⟨rfl, fun op hop => absurd hop (List.not_mem_nil op), List.chain'_nil⟩
  | cons hd rest ih =>
    obtain ⟨ai, bj, size⟩ := hd
    intro i j hch hcur
    obtain ⟨hi, hj⟩ := hcur _ rfl
    dsimp only at hi hj
    have hch1 := (List.chain'_cons'.mp hch).1
    have hch2 := (List.chain'_cons'.mp hch).2
    have hcur' : ∀ u ∈ rest.head?, ai + size ≤ u.1 ∧ bj + size ≤ u.2.1 := by
      intro u hu
      have hh := hch1 u hu
      unfold sepNT at hh
      dsimp only at hh
      exact ⟨hh.1.1, hh.1.2⟩
    obtain ⟨ihc, ihs, ihn⟩ := ih (ai + size) (bj + size) hch2 hcur'
    have hjunc : ∀ y ∈ (opcodesFromBlocks rest (ai + size) (bj + size)).head?,
        size ≠ 0 → ¬(y.1 = Tag.equal) := by
      cases rest with
      | nil =>
        intro y hy
        exact absurd hy (Option.not_mem_none y)
      | cons u rest' =>
        obtain ⟨a2, b2, k2⟩ := u
        intro y hy hsz
        have hb := hcur' (a2, b2, k2) rfl
        dsimp only at hb
        have hnt := hch1 (a2, b2, k2) rfl
        unfold sepNT at hnt
        dsimp only at hnt
        by_cases q1 : ai + size < a2 ∧ bj + size < b2
        · have hhead : (opcodesFromBlocks ((a2, b2, k2) :: rest')
              (ai + size) (bj + size)).head? =
              some (Tag.replace, ai + size, a2, bj + size, b2) := by
            simp only [opcodesFromBlocks, if_pos q1, List.singleton_append,
              List.cons_append, List.head?_cons]
          rw [hhead] at hy
          obtain rfl := Option.mem_some_iff.mp hy
          exact fun hc => Tag.noConfusion hc
        · by_cases q2 : ai + size < a2
          · have hhead : (opcodesFromBlocks ((a2, b2, k2) :: rest')
                (ai + size) (bj + size)).head? =
                some (Tag.delete, ai + size, a2, bj + size, b2) := by
              simp only [opcodesFromBlocks, if_neg q1, if_pos q2,
                List.singleton_append, List.cons_append, List.head?_cons]
            rw [hhead] at hy
            obtain rfl := Option.mem_some_iff.mp hy
            exact fun hc => Tag.noConfusion hc
          · by_cases q3 : bj + size < b2
            · have hhead : (opcodesFromBlocks ((a2, b2, k2) :: rest')
                  (ai + size) (bj + size)).head? =
                  some (Tag.insert, ai + size, a2, bj + size, b2) := by
                simp only [opcodesFromBlocks, if_neg q1, if_neg q2, if_pos q3,
                  List.singleton_append, List.cons_append, List.head?_cons]
              rw [hhead] at hy
              obtain rfl := Option.mem_some_iff.mp hy
              exact fun hc => Tag.noConfusion hc
            · exact absurd ⟨by omega, by omega⟩ hnt.2
    have hstep : opcodesFromBlocks ((ai, bj, size) :: rest) i j =
        (if i < ai ∧ j < bj then [(Tag.replace, i, ai, j, bj)]
         else if i < ai then [(Tag.delete, i, ai, j, bj)]
         else if j < bj then [(Tag.insert, i, ai, j, bj)]
         else [])
        ++ (if size ≠ 0 then [(Tag.equal, ai, ai + size, bj, bj + size)]
            else [])
        ++ opcodesFromBlocks rest (ai + size) (bj + size) := by
      simp only [opcodesFromBlocks]
    have hend : blocksEnd ((ai, bj, size) :: rest) (i, j) =
        blocksEnd rest (ai + size, bj + size) := rfl
    rw [hstep, hend]
    split_ifs with h1 h4 h2 h4 h3 h4 h4
    · -- replace gap, equal block
      simp only [List.singleton_append, List.cons_append, List.nil_append]
      refine ⟨⟨rfl, rfl, ihc⟩, ?_, ?_⟩
      · intro op hop
        rcases List.mem_cons.mp hop with rfl | hop
        · exact ⟨h1.1, h1.2⟩
        rcases List.mem_cons.mp hop with rfl | hop
        · show ai + size - ai = bj + size - bj
          omega
        · exact ihs op hop
      · rw [List.chain'_cons]
        refine ⟨by simp, ?_⟩
        rw [List.chain'_cons']
        refine ⟨?_, ihn⟩
        intro y hy hc
        exact hjunc y hy h4 hc.2
    · -- replace gap, no equal block
      simp only [List.singleton_append, List.cons_append, List.nil_append]
      have hsz : size = 0 := by omega
      refine ⟨⟨rfl, ?_⟩, ?_, ?_⟩
      · have hsz0 : size = 0 := by omega
        rw [hsz0] at ihc ⊢
        simp only [Nat.add_zero] at ihc ⊢
        exact ihc
      · intro op hop
        rcases List.mem_cons.mp hop with rfl | hop
        · exact ⟨h1.1, h1.2⟩
        · exact ihs op hop
      · rw [List.chain'_cons']
        refine ⟨?_, ihn⟩
        intro y hy hc
        exact absurd hc.1 (fun hcc => Tag.noConfusion hcc)
    · -- delete gap, equal block
      simp only [List.singleton_append, List.cons_append, List.nil_append]
      have hjj : j = bj := by omega
      refine ⟨⟨by rw [hjj], rfl, ihc⟩, ?_, ?_⟩
      · intro op hop
        rcases List.mem_cons.mp hop with rfl | hop
        · exact hjj
        rcases List.mem_cons.mp hop with rfl | hop
        · show ai + size - ai = bj + size - bj
          omega
        · exact ihs op hop
      · rw [List.chain'_cons]
        refine ⟨by simp, ?_⟩
        rw [List.chain'_cons']
        refine ⟨?_, ihn⟩
        intro y hy hc
        exact hjunc y hy h4 hc.2
    · -- delete gap, no equal block
      simp only [List.singleton_append, List.cons_append, List.nil_append]
      have hjj : j = bj := by omega
      have hsz : size = 0 := by omega
      refine ⟨⟨by rw [hjj], ?_⟩, ?_, ?_⟩
      · have hsz0 : size = 0 := by omega
        rw [hsz0] at ihc ⊢
        simp only [Nat.add_zero] at ihc ⊢
        exact ihc
      · intro op hop
        rcases List.mem_cons.mp hop with rfl | hop
        · exact hjj
        · exact ihs op hop
      · rw [List.chain'_cons']
        refine ⟨?_, ihn⟩
        intro y hy hc
        exact absurd hc.1 (fun hcc => Tag.noConfusion hcc)
    · -- insert gap, equal block
      simp only [List.singleton_append, List.cons_append, List.nil_append]
      have hii : i = ai := by omega
      refine ⟨⟨by rw [hii], rfl, ihc⟩, ?_, ?_⟩
      · intro op hop
        rcases List.mem_cons.mp hop with rfl | hop
        · exact hii
        rcases List.mem_cons.mp hop with rfl | hop
        · show ai + size - ai = bj + size - bj
          omega
        · exact ihs op hop
      · rw [List.chain'_cons]
        refine ⟨by simp, ?_⟩
        rw [List.chain'_cons']
        refine ⟨?_, ihn⟩
        intro y hy hc
        exact hjunc y hy h4 hc.2
    · -- insert gap, no equal block
      simp only [List.singleton_append, List.cons_append, List.nil_append]
      have hii : i = ai := by omega
      have hsz : size = 0 := by omega
      refine ⟨⟨by rw [hii], ?_⟩, ?_, ?_⟩
      · have hsz0 : size = 0 := by omega
        rw [hsz0] at ihc ⊢
        simp only [Nat.add_zero] at ihc ⊢
        exact ihc
      · intro op hop
        rcases List.mem_cons.mp hop with rfl | hop
        · exact hii
        · exact ihs op hop
      · rw [List.chain'_cons']
        refine ⟨?_, ihn⟩
        intro y hy hc
        exact absurd hc.1 (fun hcc => Tag.noConfusion hcc)
    · -- no gap, equal block
      simp only [List.singleton_append, List.cons_append, List.nil_append]
      have hii : i = ai := by omega
      have hjj : j = bj := by omega
      refine ⟨⟨by rw [hii, hjj], ihc⟩, ?_, ?_⟩
      · intro op hop
        rcases List.mem_cons.mp hop with rfl | hop
        · show ai + size - ai = bj + size - bj
          omega
        · exact ihs op hop
      · rw [List.chain'_cons']
        refine ⟨?_, ihn⟩
        intro y hy hc
        exact hjunc y hy h4 hc.2
    · -- no gap, no equal block
      simp only [List.nil_append]
      have hii : i = ai := by omega
      have hjj : j = bj := by omega
      have hsz : size = 0 := by omega
      refine ⟨?_, ihs, ihn⟩
      have e1 : i = ai + size := by omega
      have e2 : j = bj + size := by omega
      rw [e1, e2]
      exact ihc

/-- The tiling invariants for the cache-free opcode computation. -/
theorem computeOpcodes_tiling (m : Matcher α) (hsound : b2jSound m)
    (hsort : ∀ x, List.Pairwise (· < ·) (m.b2j x)) :
    opChain (0, 0) (opcodesFromBlocks (computeMatchingBlocks m) 0 0)
      (m.a.length, m.b.length) ∧
    (∀ op ∈ opcodesFromBlocks (computeMatchingBlocks m) 0 0, opShape op) ∧
    List.Chain' (fun op op' => ¬(op.1 = Tag.equal ∧ op'.1 = Tag.equal))
      (opcodesFromBlocks (computeMatchingBlocks m) 0 0) := by
  obtain ⟨hm1, hm2, hm3, hm4, hm5, hm6⟩ :=
    computeMatchingBlocks_canonical m hsound hsort
  have hne : computeMatchingBlocks m ≠ [] := by
    intro hnil
    rw [hnil] at hm2
    exact Option.noConfusion hm2
  have hlast := List.getLast?_eq_getLast (computeMatchingBlocks m) hne
  have hsent : (computeMatchingBlocks m).getLast hne =
      (m.a.length, m.b.length, 0) := by
    rw [hlast] at hm2
    exact Option.some.inj hm2
  have hdecomp : (computeMatchingBlocks m).dropLast ++
      [(m.a.length, m.b.length, 0)] = computeMatchingBlocks m := by
    rw [← hsent]
    exact List.dropLast_append_getLast hne
  obtain ⟨mc, ms, mn⟩ := opcodesFromBlocks_spec
    (computeMatchingBlocks m).dropLast 0 0 hm5
    (fun u _ => ⟨Nat.zero_le _, Nat.zero_le _⟩)
  have hebound : (blocksEnd (computeMatchingBlocks m).dropLast (0, 0)).1 ≤
      m.a.length ∧
      (blocksEnd (computeMatchingBlocks m).dropLast (0, 0)).2 ≤ m.b.length := by
    rcases List.eq_nil_or_concat (computeMatchingBlocks m).dropLast with
      hnil | ⟨l', t, heq⟩
    · rw [hnil]
      exact ⟨Nat.zero_le _, Nat.zero_le _⟩
    · rw [List.concat_eq_append] at heq
      rw [heq, blocksEnd_concat]
      have ht := hm6 t (by
        rw [heq]
        exact List.mem_append.mpr (Or.inr (List.mem_singleton.mpr rfl)))
      exact ⟨ht.1, ht.2⟩
  obtain ⟨sc, ss, sn⟩ := opcodesFromBlocks_spec
    [(m.a.length, m.b.length, 0)]
    (blocksEnd (computeMatchingBlocks m).dropLast (0, 0)).1
    (blocksEnd (computeMatchingBlocks m).dropLast (0, 0)).2
    (List.chain'_singleton _)
    (by
      intro u hu
      have hu' := show (m.a.length, m.b.length, 0) = u by simpa using hu
      rw [← hu']
      exact ⟨hebound.1, hebound.2⟩)
  have hsend : blocksEnd [((m.a.length : ℕ), (m.b.length : ℕ), (0 : ℕ))]
      ((blocksEnd (computeMatchingBlocks m).dropLast (0, 0)).1,
       (blocksEnd (computeMatchingBlocks m).dropLast (0, 0)).2) =
      (m.a.length, m.b.length) := by
    show (m.a.length + 0, m.b.length + 0) = (m.a.length, m.b.length)
    rw [Nat.add_zero, Nat.add_zero]
  rw [hsend] at sc
  have hSne : ∀ op ∈ opcodesFromBlocks [((m.a.length : ℕ), (m.b.length : ℕ), (0 : ℕ))]
      (blocksEnd (computeMatchingBlocks m).dropLast (0, 0)).1
      (blocksEnd (computeMatchingBlocks m).dropLast (0, 0)).2,
      op.1 ≠ Tag.equal := by
    intro op hop
    have h00 : ¬((0 : ℕ) ≠ 0) := fun h => h rfl
    simp only [opcodesFromBlocks, if_neg h00, List.append_nil] at hop
    split_ifs at hop
    · rw [List.mem_singleton.mp hop]
      exact fun hc => Tag.noConfusion hc
    · rw [List.mem_singleton.mp hop]
      exact fun hc => Tag.noConfusion hc
    · rw [List.mem_singleton.mp hop]
      exact fun hc => Tag.noConfusion hc
    · exact absurd hop (List.not_mem_nil op)
  refine ⟨?_, ?_, ?_⟩
  · rw [← hdecomp, opcodesFromBlocks_append]
    exact opChain_append _ _ _ _ _ mc sc
  · intro op hop
    rw [← hdecomp, opcodesFromBlocks_append] at hop
    rcases List.mem_append.mp hop with h | h
    · exact ms op h
    · exact ss op h
  · rw [← hdecomp, opcodesFromBlocks_append]
    rw [List.chain'_append]
    refine ⟨mn, sn, ?_⟩
    intro x hx y hy hcon
    exact hSne y (List.mem_of_mem_head? hy) hcon.2

/-- C3: for every pair of sequences, `getOpcodes()` returns a contiguous
lockstep tiling: the first opcode begins at `(0, 0)`, each subsequent
opcode starts where its predecessor ends, and the last opcode ends at
`(a.length, b.length)`; every `delete` has `j1 = j2`, every `insert` has
`i1 = i2`, every `equal` has `i2 - i1 = j2 - j1`, every `replace` has two
non-empty spans; and no two adjacent opcodes are both `equal`. -/
theorem getOpcodes_tiling (isjunk : Option (α → Bool)) (a b : List α)
    (autojunk : Bool) :
    opChain (0, 0) (getOpcodes (mkMatcher isjunk a b autojunk))
      (a.length, b.length) ∧
    (∀ op ∈ getOpcodes (mkMatcher isjunk a b autojunk), opShape op) ∧
    List.Chain' (fun op op' => ¬(op.1 = Tag.equal ∧ op'.1 = Tag.equal))
      (getOpcodes (mkMatcher isjunk a b autojunk)) :=
  computeOpcodes_tiling (mkMatcher isjunk a b autojunk)
    (mkMatcher_b2jSound isjunk a b autojunk)
    (fun x => mkB2j_sorted b isjunk autojunk x)

/-! ### The selection rule of findLongestMatch -/

/-- The pairs the dynamic program may chain are exactly the equal,
in-range pairs whose B position survived the junk and popular purges. -/
theorem okPair_iff (isjunk : Option (α → Bool)) (a b : List α)
    (autojunk : Bool) (i j : ℕ) :
    okPair (mkB2j b isjunk autojunk) a i j = true ↔
      i < a.length ∧ j < b.length ∧ a[i]? = b[j]? ∧
        badJunkOrPopular (mkMatcher isjunk a b autojunk) j = false := by
  unfold okPair
  rcases ha : a[i]? with _ | x
  · constructor
    · intro h
      cases h
    · rintro ⟨hi, _, _, _⟩
      rw [List.getElem?_eq_none_iff] at ha
      omega
  · rw [decide_eq_true_eq, mkB2j_mem]
    constructor
    · rintro ⟨hj1, hj2, hj3⟩
      have hjlen : j < b.length := by
        by_contra hc
        rw [List.getElem?_eq_none (by omega)] at hj3
        cases hj3
      have hilen : i < a.length := by
        by_contra hc
        rw [List.getElem?_eq_none (by omega)] at ha
        cases ha
      refine ⟨hilen, hjlen, hj3.symm, ?_⟩
      unfold badJunkOrPopular bjunkAt
      dsimp only [mkMatcher]
      rw [hj3]
      dsimp only
      rw [hj1, hj2]
      rfl
    · rintro ⟨hi, hj, hab, hbad⟩
      have hj3 : b[j]? = some x := hab.symm
      unfold badJunkOrPopular bjunkAt at hbad
      dsimp only [mkMatcher] at hbad
      rw [hj3] at hbad
      dsimp only at hbad
      rw [Bool.or_eq_false_iff] at hbad
      exact ⟨hbad.1, hbad.2, hj3⟩

/-- The visited pairs come in row-major order. -/
theorem dpRows_pairwise (ok : ℕ → ℕ → Bool) (blo bhi : ℕ) :
    ∀ rows : List ℕ, List.Pairwise (· < ·) rows →
      List.Pairwise (fun p q : ℕ × ℕ => p.1 < q.1 ∨ (p.1 = q.1 ∧ p.2 < q.2))
        (rows.flatMap (dpRowPairs ok blo bhi)) := by
  intro rows
  induction rows with
  | nil =>
    intro _
    simp
  | cons r rows ih =>
    intro hp
    rw [List.flatMap_cons, List.pairwise_append]
    obtain ⟨h1, h2⟩ := List.pairwise_cons.mp hp
    refine ⟨?_, ih h2, ?_⟩
    · unfold dpRowPairs
      exact ((List.pairwise_lt_range' blo (bhi - blo)).filter _).map _
        (fun x y hxy => Or.inr ⟨rfl, hxy⟩)
    · intro p hp' q hq
      obtain ⟨r', hr', hq'⟩ := List.mem_flatMap.mp hq
      have hpr : p.1 = r := by
        unfold dpRowPairs at hp'
        obtain ⟨j, _, rfl⟩ := List.mem_map.mp hp'
        rfl
      have hqr : q.1 = r' := by
        unfold dpRowPairs at hq'
        obtain ⟨j, _, rfl⟩ := List.mem_map.mp hq'
        rfl
      exact Or.inl (by rw [hpr, hqr]; exact h1 r' hr')

theorem dpPairs_pairwise (ok : ℕ → ℕ → Bool) (alo ahi blo bhi : ℕ) :
    List.Pairwise (fun p q : ℕ × ℕ => p.1 < q.1 ∨ (p.1 = q.1 ∧ p.2 < q.2))
      (dpPairs ok alo ahi blo bhi) :=
  dpRows_pairwise ok blo bhi _ (List.pairwise_lt_range' alo (ahi - alo))

/-- A positive dictionary value yields a candidate of the selection rule
with the purge set as its exclusion set. -/
theorem pair_to_cand (isjunk : Option (α → Bool)) (a b : List α)
    (autojunk : Bool) (alo ahi blo bhi : ℕ) (h1 : alo ≤ ahi)
    (p : ℕ × ℕ) (v : ℕ)
    (hp : p ∈ dpPairs (okPair (mkB2j b isjunk autojunk) a) alo ahi blo bhi)
    (hv : rhoP (okPair (mkB2j b isjunk autojunk) a) alo blo bhi (p.1 + 1) p.2
      = v)
    (hpos : 0 < v) :
    flmCand (mkMatcher isjunk a b autojunk) alo ahi blo bhi
      (badJunkOrPopular (mkMatcher isjunk a b autojunk))
      (p.1 + 1 - v) (p.2 + 1 - v) v := by
  rw [dpPairs_mem] at hp
  obtain ⟨hp1, hp2, hp3, hp4, hp5⟩ := hp
  obtain ⟨hv1, hv2, hv3, hv4, hv5⟩ :=
    rhoP_sound (okPair (mkB2j b isjunk autojunk) a) alo blo bhi p.1 p.2 v
      hv hpos
  refine ⟨hv3, by omega, hv4, by omega, ?_, ?_⟩
  · intro t ht
    obtain ⟨hok, hlt⟩ := hv5 t ht
    have hiff := (okPair_iff isjunk a b autojunk _ _).mp hok
    exact ⟨hiff.1, hiff.2.2.1⟩
  · intro t ht
    obtain ⟨hok, _⟩ := hv5 t ht
    exact ((okPair_iff isjunk a b autojunk _ _).mp hok).2.2.2

/-- A candidate of the selection rule puts its endpoint pair in the scan
with at least its length as dictionary value. -/
theorem cand_to_pair (isjunk : Option (α → Bool)) (a b : List α)
    (autojunk : Bool) (alo ahi blo bhi : ℕ) (h1 : alo ≤ ahi)
    (h4 : bhi ≤ b.length) (i j k : ℕ)
    (hc : flmCand (mkMatcher isjunk a b autojunk) alo ahi blo bhi
      (badJunkOrPopular (mkMatcher isjunk a b autojunk)) i j k)
    (hk : 0 < k) :
    (i + k - 1, j + k - 1) ∈
        dpPairs (okPair (mkB2j b isjunk autojunk) a) alo ahi blo bhi ∧
      k ≤ rhoP (okPair (mkB2j b isjunk autojunk) a) alo blo bhi (i + k)
        (j + k - 1) := by
  obtain ⟨hc1, hc2, hc3, hc4, hc5, hc6⟩ := hc
  have hok : ∀ t, t < k →
      okPair (mkB2j b isjunk autojunk) a (i + t) (j + t) = true := by
    intro t ht
    rw [okPair_iff isjunk a b autojunk]
    have hm := hc5 t ht
    exact ⟨hm.1, by omega, hm.2, hc6 t ht⟩
  constructor
  · rw [dpPairs_mem]
    refine ⟨by omega, by omega, by omega, by omega, ?_⟩
    have hlast := hok (k - 1) (by omega)
    have e1 : i + (k - 1) = i + k - 1 := by omega
    have e2 : j + (k - 1) = j + k - 1 := by omega
    rw [e1, e2] at hlast
    exact hlast
  · exact rhoP_complete (okPair (mkB2j b isjunk autojunk) a) alo blo bhi
      k i j hc1 hc3 hc4 hok hk

/-- The dynamic-programming core of `findLongestMatch` is the optimum of
the selection rule whose exclusion set is the purged positions (junk OR
popular), maximizing the length, then minimizing `i`, then `j`. -/
theorem flmCore_opt (isjunk : Option (α → Bool)) (a b : List α)
    (autojunk : Bool) (alo ahi blo bhi : ℕ) (h1 : alo ≤ ahi)
    (h2 : ahi ≤ a.length) (h3 : blo ≤ bhi) (h4 : bhi ≤ b.length) :
    ∃ core, flmOpt (mkMatcher isjunk a b autojunk) alo ahi blo bhi
        (badJunkOrPopular (mkMatcher isjunk a b autojunk)) core ∧
      flmCore (mkMatcher isjunk a b autojunk) alo ahi blo bhi = core := by
  have hsort : ∀ x,
      List.Pairwise (· < ·) ((mkMatcher isjunk a b autojunk).b2j x) :=
    fun x => mkB2j_sorted b isjunk autojunk x
  have hcore := flmCore_spec (mkMatcher isjunk a b autojunk) hsort alo ahi
    blo bhi
  rw [show (mkMatcher isjunk a b autojunk).b2j = mkB2j b isjunk autojunk
      from rfl,
    show (mkMatcher isjunk a b autojunk).a = a from rfl] at hcore
  by_cases hex : ∃ p ∈ dpPairs (okPair (mkB2j b isjunk autojunk) a)
      alo ahi blo bhi,
      0 < rhoP (okPair (mkB2j b isjunk autojunk) a) alo blo bhi (p.1 + 1) p.2
  · obtain ⟨l₁, p, l₂, hsplit, hpos, hfirst, hmax⟩ :=
      exists_first_max
        (fun q : ℕ × ℕ =>
          rhoP (okPair (mkB2j b isjunk autojunk) a) alo blo bhi (q.1 + 1) q.2)
        _ hex
    obtain ⟨V, hV⟩ : ∃ V,
        rhoP (okPair (mkB2j b isjunk autojunk) a) alo blo bhi (p.1 + 1) p.2
          = V := ⟨_, rfl⟩
    rw [hV] at hpos
    simp only [hV] at hfirst hmax
    obtain ⟨hb1, hb2, _, _, _⟩ :=
      rhoP_sound (okPair (mkB2j b isjunk autojunk) a) alo blo bhi p.1 p.2 V
        hV hpos
    have hcv : flmCore (mkMatcher isjunk a b autojunk) alo ahi blo bhi =
        (p.1 + 1 - V, p.2 + 1 - V, V) := by
      rw [hcore, hsplit]
      refine bestFold_first_max _ V l₁ p l₂ (alo, blo, 0) hV
        (by dsimp only; omega) hfirst ?_
      intro q hq
      exact hmax q (by
        rw [hsplit]
        exact List.mem_append.mpr (Or.inr (List.mem_cons_of_mem _ hq)))
    have hpmem : p ∈ dpPairs (okPair (mkB2j b isjunk autojunk) a)
        alo ahi blo bhi := by
      rw [hsplit]
      exact List.mem_append.mpr (Or.inr (List.mem_cons_self _ _))
    have hcand := pair_to_cand isjunk a b autojunk alo ahi blo bhi h1 p V
      hpmem hV hpos
    refine ⟨(p.1 + 1 - V, p.2 + 1 - V, V), ⟨hcand, ?_⟩, hcv⟩
    intro i j k hcand'
    dsimp only
    by_cases hk : 0 < k
    · obtain ⟨hqmem, hqval⟩ := cand_to_pair isjunk a b autojunk alo ahi blo
        bhi h1 h4 i j k hcand' hk
      have hq := hmax (i + k - 1, j + k - 1) hqmem
      dsimp only at hq
      have e : i + k - 1 + 1 = i + k := by omega
      rw [e] at hq
      refine ⟨le_trans hqval hq, ?_⟩
      intro hkeq
      subst hkeq
      have hqmem' : ((i + k - 1 : ℕ), (j + k - 1 : ℕ)) ∈ l₁ ++ p :: l₂ := by
        rw [← hsplit]
        exact hqmem
      have hpw := dpPairs_pairwise (okPair (mkB2j b isjunk autojunk) a)
        alo ahi blo bhi
      rw [hsplit] at hpw
      rcases List.mem_append.mp hqmem' with hql | hqr
      · exfalso
        have hlt := hfirst _ hql
        dsimp only at hlt
        rw [e] at hlt
        omega
      · rcases List.mem_cons.mp hqr with heq | hql2
        · rw [← heq]
          dsimp only
          exact ⟨by omega, fun _ => by omega⟩
        · have hlex := (List.pairwise_cons.mp
            (List.pairwise_append.mp hpw).2.1).1 _ hql2
          dsimp only at hlex
          exact ⟨by omega, fun hieq => by omega⟩
    · have hk0 : k = 0 := by omega
      refine ⟨by omega, ?_⟩
      intro hkeq
      exact absurd hkeq (by omega)
  · push_neg at hex
    have hstable : flmCore (mkMatcher isjunk a b autojunk) alo ahi blo bhi =
        (alo, blo, 0) := by
      rw [hcore]
      refine bestFold_stable _ _ _ ?_
      intro p hp
      have := hex p hp
      dsimp only
      omega
    refine ⟨(alo, blo, 0), ⟨?_, ?_⟩, hstable⟩
    · refine ⟨le_refl _, ?_, le_refl _, ?_,
        fun t ht => absurd ht (Nat.not_lt_zero t),
        fun t ht => absurd ht (Nat.not_lt_zero t)⟩
      · dsimp only
        omega
      · dsimp only
        omega
    · intro i j k hcand'
      dsimp only
      by_cases hk : 0 < k
      · exfalso
        obtain ⟨hqmem, hqval⟩ := cand_to_pair isjunk a b autojunk alo ahi
          blo bhi h1 h4 i j k hcand' hk
        have hz := hex _ hqmem
        dsimp only at hz
        have e : i + k - 1 + 1 = i + k := by omega
        rw [e] at hz
        omega
      · obtain ⟨hc1, _, hc3, _⟩ := hcand'
        exact ⟨by omega, fun _ => ⟨hc1, fun _ => hc3⟩⟩

/-- C2 (amended): for every matcher built from sequences `a`, `b` and a
well-formed window, `findLongestMatch` returns the extension (first
through non-junk equal elements, then through junk equal elements) of the
candidate triple that, among the matches whose B positions all survived
the junk AND popular purges, maximizes the length, then minimizes `i`,
then minimizes `j`. -/
theorem findLongestMatch_spec (isjunk : Option (α → Bool)) (a b : List α)
    (autojunk : Bool) (alo ahi blo bhi : ℕ) (h1 : alo ≤ ahi)
    (h2 : ahi ≤ a.length) (h3 : blo ≤ bhi) (h4 : bhi ≤ b.length) :
    ∃ core, flmOpt (mkMatcher isjunk a b autojunk) alo ahi blo bhi
        (badJunkOrPopular (mkMatcher isjunk a b autojunk)) core ∧
      findLongestMatch (mkMatcher isjunk a b autojunk) alo ahi blo bhi =
        flmExtend (mkMatcher isjunk a b autojunk) alo ahi blo bhi core := by
  obtain ⟨core, hopt, hcore⟩ :=
    flmCore_opt isjunk a b autojunk alo ahi blo bhi h1 h2 h3 h4
  refine ⟨core, hopt, ?_⟩
  unfold findLongestMatch
  rw [hcore]

theorem findLongestMatch_spec_witness :
    ∃ core, flmOpt (mkMatcher (none : Option (ℕ → Bool)) [1, 2] [1, 2] true)
        0 2 0 2
        (badJunkOrPopular (mkMatcher (none : Option (ℕ → Bool)) [1, 2] [1, 2]
          true)) core ∧
      findLongestMatch (mkMatcher (none : Option (ℕ → Bool)) [1, 2] [1, 2]
          true) 0 2 0 2 =
        flmExtend (mkMatcher (none : Option (ℕ → Bool)) [1, 2] [1, 2] true)
          0 2 0 2 core :=
  findLongestMatch_spec none [1, 2] [1, 2] true 0 2 0 2 (by decide)
    (by decide) (by decide) (by decide)

set_option maxRecDepth 8000 in
/-- C2 (counterexample to the claimed rule): with `a = [2]` and `b` of
length 200 holding one `1` and 199 copies of `2`, autojunk marks `2`
popular (but nothing is junk), so the claimed junk-only selection rule
picks the core `(0, 1, 1)` (whose extension leaves it unchanged), while
the code finds no match at all: the popular positions are also excluded
from the dynamic program. -/
theorem findLongestMatch_claim_cex :
    flmOpt (mkMatcher (none : Option (ℕ → Bool)) [2]
        (1 :: List.replicate 199 2) true) 0 1 0 200
      (badJunk (mkMatcher (none : Option (ℕ → Bool)) [2]
        (1 :: List.replicate 199 2) true)) (0, 1, 1) ∧
    findLongestMatch (mkMatcher (none : Option (ℕ → Bool)) [2]
        (1 :: List.replicate 199 2) true) 0 1 0 200 ≠
      flmExtend (mkMatcher (none : Option (ℕ → Bool)) [2]
        (1 :: List.replicate 199 2) true) 0 1 0 200 (0, 1, 1) := by
  constructor
  · constructor
    · decide
    · intro i j k hc
      obtain ⟨hc1, hc2, hc3, hc4, hc5, hc6⟩ := hc
      dsimp only
      refine ⟨by omega, fun hk => ⟨by omega, fun hi => ?_⟩⟩
      by_contra hj
      push_neg at hj
      have hj0 : j = 0 := by omega
      have h00 := (hc5 0 (by omega)).2
      rw [hi, hj0] at h00
      exact absurd h00 (by decide)
  · decide

/-! ### Counting matches: the three ratios -/

theorem occAux_length (x : α) :
    ∀ (l : List α) (i : ℕ), (occAux x l i).length = l.count x := by
  intro l
  induction l with
  | nil =>
    intro i
    rfl
  | cons y ys ih =>
    intro i
    simp only [occAux, List.count_cons, beq_iff_eq]
    by_cases h : y = x
    · rw [if_pos h, if_pos h, List.length_cons, ih]
    · rw [if_neg h, if_neg h, ih]
      omega

theorem occ_length (b : List α) (x : α) : (occ b x).length = b.count x :=
  occAux_length x b 0

theorem count_filterMap {γ : Type} (f : γ → Option α) (x : α) :
    ∀ l : List γ, (l.filterMap f).count x =
      (l.filter (fun y => f y = some x)).length := by
  intro l
  induction l with
  | nil => rfl
  | cons y ys ih =>
    rw [List.filterMap_cons]
    rcases hf : f y with _ | z
    · rw [List.filter_cons_of_neg (by simp [hf])]
      exact ih
    · by_cases hz : z = x
      · rw [List.count_cons, ih,
          List.filter_cons_of_pos (by simp [hf, hz]), List.length_cons]
        simp [hz]
      · rw [List.count_cons, ih,
          List.filter_cons_of_neg (by simp [hf, hz])]
        simp [hz]

theorem filterMap_total_length {γ : Type} (f : γ → Option α) :
    ∀ l : List γ, (∀ y ∈ l, ∃ z, f y = some z) →
      (l.filterMap f).length = l.length := by
  intro l
  induction l with
  | nil =>
    intro _
    rfl
  | cons y ys ih =>
    intro h
    obtain ⟨z, hz⟩ := h y (List.mem_cons_self _ _)
    rw [List.filterMap_cons, hz, List.length_cons, List.length_cons,
      ih (fun u hu => h u (List.mem_cons_of_mem _ hu))]

theorem nodup_subset_length {γ : Type} [DecidableEq γ] (l l' : List γ)
    (hn : l.Nodup) (hs : ∀ y ∈ l, y ∈ l') : l.length ≤ l'.length := by
  calc l.length = l.toFinset.card := (List.toFinset_card_of_nodup hn).symm
    _ ≤ l'.toFinset.card := Finset.card_le_card
        (fun y hy => List.mem_toFinset.mpr (hs y (List.mem_toFinset.mp hy)))
    _ ≤ l'.length := l'.toFinset_card_le

theorem list_toFinset_sum_count (l : List α) :
    ∑ x ∈ l.toFinset, l.count x = l.length := by
  have h := Multiset.toFinset_sum_count_eq (l : Multiset α)
  simpa using h

theorem blockPairs_length : ∀ l : List (ℕ × ℕ × ℕ),
    (blockPairs l).length = (l.map (fun t => t.2.2)).sum := by
  intro l
  induction l with
  | nil => rfl
  | cons t rest ih =>
    obtain ⟨i, j, k⟩ := t
    simp [blockPairs, ih]

theorem blockPairs_mem : ∀ (l : List (ℕ × ℕ × ℕ)) (pq : ℕ × ℕ),
    pq ∈ blockPairs l →
      ∃ t ∈ l, ∃ s, s < t.2.2 ∧ pq = (t.1 + s, t.2.1 + s) := by
  intro l
  induction l with
  | nil =>
    intro pq h
    cases h
  | cons t rest ih =>
    obtain ⟨i, j, k⟩ := t
    intro pq h
    rcases List.mem_append.mp h with h | h
    · obtain ⟨s, hs, rfl⟩ := List.mem_map.mp h
      exact ⟨(i, j, k), List.mem_cons_self _ _, s, by simpa using hs, rfl⟩
    · obtain ⟨u, hu, s, hs, heq⟩ := ih pq h
      exact ⟨u, List.mem_cons_of_mem _ hu, s, hs, heq⟩

theorem blockPairs_fst_nodup : ∀ l : List (ℕ × ℕ × ℕ),
    List.Pairwise sepAsc l → ((blockPairs l).map Prod.fst).Nodup := by
  intro l
  induction l with
  | nil => exact fun _ => List.nodup_nil
  | cons t rest ih =>
    obtain ⟨i, j, k⟩ := t
    intro hp
    obtain ⟨h1, h2⟩ := List.pairwise_cons.mp hp
    rw [show blockPairs ((i, j, k) :: rest) =
        (List.range k).map (fun s => (i + s, j + s)) ++ blockPairs rest
      from rfl]
    rw [List.map_append, List.nodup_append]
    refine ⟨?_, ih h2, ?_⟩
    · rw [List.map_map]
      exact (List.nodup_range k).map (fun s1 s2 h => by
        dsimp at h
        omega)
    · intro p hpL hpR
      obtain ⟨s, hs, rfl⟩ :
          ∃ s, s ∈ List.range k ∧ i + s = p := by
        rw [List.map_map] at hpL
        obtain ⟨s, hs, he⟩ := List.mem_map.mp hpL
        exact ⟨s, hs, he⟩
      obtain ⟨pq, hpq, hfst⟩ := List.mem_map.mp hpR
      obtain ⟨u, hu, s', hs', heq⟩ := blockPairs_mem rest pq hpq
      have hsep := h1 u hu
      unfold sepAsc at hsep
      rw [List.mem_range] at hs
      rw [heq] at hfst
      dsimp only at hfst hsep
      omega

theorem blockPairs_snd_nodup : ∀ l : List (ℕ × ℕ × ℕ),
    List.Pairwise sepAsc l → ((blockPairs l).map Prod.snd).Nodup := by
  intro l
  induction l with
  | nil => exact fun _ => List.nodup_nil
  | cons t rest ih =>
    obtain ⟨i, j, k⟩ := t
    intro hp
    obtain ⟨h1, h2⟩ := List.pairwise_cons.mp hp
    rw [show blockPairs ((i, j, k) :: rest) =
        (List.range k).map (fun s => (i + s, j + s)) ++ blockPairs rest
      from rfl]
    rw [List.map_append, List.nodup_append]
    refine ⟨?_, ih h2, ?_⟩
    · rw [List.map_map]
      exact (List.nodup_range k).map (fun s1 s2 h => by
        dsimp at h
        omega)
    · intro p hpL hpR
      obtain ⟨s, hs, rfl⟩ :
          ∃ s, s ∈ List.range k ∧ j + s = p := by
        rw [List.map_map] at hpL
        obtain ⟨s, hs, he⟩ := List.mem_map.mp hpL
        exact ⟨s, hs, he⟩
      obtain ⟨pq, hpq, hsnd⟩ := List.mem_map.mp hpR
      obtain ⟨u, hu, s', hs', heq⟩ := blockPairs_mem rest pq hpq
      have hsep := h1 u hu
      unfold sepAsc at hsep
      rw [List.mem_range] at hs
      rw [heq] at hsnd
      dsimp only at hsnd hsep
      omega

/-- The separated matching blocks inject their matched positions into both
sequences, so the total match size is at most `specCount`. -/
theorem blockSum_le_specCount (a b : List α) (l : List (ℕ × ℕ × ℕ))
    (hpw : List.Pairwise sepAsc l)
    (hmatch : ∀ t ∈ l, matchAt a b t.1 t.2.1 t.2.2) :
    (l.map (fun t => t.2.2)).sum ≤ specCount a b := by
  have hval : ∀ pq ∈ blockPairs l, pq.1 < a.length ∧ a[pq.1]? = b[pq.2]? := by
    intro pq hpq
    obtain ⟨t, ht, s, hs, heq⟩ := blockPairs_mem l pq hpq
    rw [heq]
    exact hmatch t ht s hs
  have hlen : ((blockPairs l).filterMap (fun pq => a[pq.1]?)).length =
      (blockPairs l).length := by
    apply filterMap_total_length
    intro pq hpq
    exact ⟨_, List.getElem?_eq_getElem (hval pq hpq).1⟩
  have hbound : ∀ x ∈ ((blockPairs l).filterMap
      (fun pq => a[pq.1]?)).toFinset,
      ((blockPairs l).filterMap (fun pq => a[pq.1]?)).count x ≤
        min (a.count x) (b.count x) := by
    intro x _
    rw [count_filterMap]
    refine le_min ?_ ?_
    · have hsub : ∀ p ∈ ((blockPairs l).filter
          (fun pq => a[pq.1]? = some x)).map Prod.fst, p ∈ occ a x := by
        intro p hp
        obtain ⟨pq, hpq, rfl⟩ := List.mem_map.mp hp
        obtain ⟨hmem, hcond⟩ := List.mem_filter.mp hpq
        rw [occ_mem]
        exact of_decide_eq_true hcond
      have hnd : (((blockPairs l).filter
          (fun pq => a[pq.1]? = some x)).map Prod.fst).Nodup :=
        (blockPairs_fst_nodup l hpw).sublist
          ((List.filter_sublist _).map Prod.fst)
      have hle := nodup_subset_length _ _ hnd hsub
      rw [List.length_map, occ_length] at hle
      exact hle
    · have hfc : (blockPairs l).filter (fun pq => a[pq.1]? = some x) =
          (blockPairs l).filter (fun pq => b[pq.2]? = some x) := by
        apply List.filter_congr
        intro pq hpq
        have hv := (hval pq hpq).2
        simp [hv]
      rw [hfc]
      have hsub : ∀ p ∈ ((blockPairs l).filter
          (fun pq => b[pq.2]? = some x)).map Prod.snd, p ∈ occ b x := by
        intro p hp
        obtain ⟨pq, hpq, rfl⟩ := List.mem_map.mp hp
        obtain ⟨hmem, hcond⟩ := List.mem_filter.mp hpq
        rw [occ_mem]
        exact of_decide_eq_true hcond
      have hnd : (((blockPairs l).filter
          (fun pq => b[pq.2]? = some x)).map Prod.snd).Nodup :=
        (blockPairs_snd_nodup l hpw).sublist
          ((List.filter_sublist _).map Prod.snd)
      have hle := nodup_subset_length _ _ hnd hsub
      rw [List.length_map, occ_length] at hle
      exact hle
  have hsubV : ((blockPairs l).filterMap
      (fun pq => a[pq.1]?)).toFinset ⊆ a.toFinset := by
    intro x hx
    rw [List.mem_toFinset] at hx
    obtain ⟨pq, _, hpq⟩ := List.mem_filterMap.mp hx
    rw [List.mem_toFinset]
    exact List.mem_iff_getElem?.mpr ⟨pq.1, hpq⟩
  calc (l.map (fun t => t.2.2)).sum
      = (blockPairs l).length := (blockPairs_length l).symm
    _ = ((blockPairs l).filterMap (fun pq => a[pq.1]?)).length := hlen.symm
    _ = ∑ x ∈ ((blockPairs l).filterMap (fun pq => a[pq.1]?)).toFinset,
          ((blockPairs l).filterMap (fun pq => a[pq.1]?)).count x :=
        (list_toFinset_sum_count _).symm
    _ ≤ ∑ x ∈ ((blockPairs l).filterMap (fun pq => a[pq.1]?)).toFinset,
          min (a.count x) (b.count x) := Finset.sum_le_sum hbound
    _ ≤ ∑ x ∈ a.toFinset, min (a.count x) (b.count x) :=
        Finset.sum_le_sum_of_subset hsubV
    _ = specCount a b := rfl

theorem specCount_le_left (a b : List α) : specCount a b ≤ a.length := by
  unfold specCount
  calc ∑ x ∈ a.toFinset, min (a.count x) (b.count x)
      ≤ ∑ x ∈ a.toFinset, a.count x :=
        Finset.sum_le_sum (fun x _ => min_le_left _ _)
    _ = a.length := list_toFinset_sum_count a

theorem specCount_le_right (a b : List α) : specCount a b ≤ b.length := by
  unfold specCount
  calc ∑ x ∈ a.toFinset, min (a.count x) (b.count x)
      ≤ ∑ x ∈ a.toFinset, b.count x :=
        Finset.sum_le_sum (fun x _ => min_le_right _ _)
    _ ≤ ∑ x ∈ a.toFinset ∪ b.toFinset, b.count x :=
        Finset.sum_le_sum_of_subset Finset.subset_union_left
    _ = ∑ x ∈ b.toFinset, b.count x :=
        (Finset.sum_subset Finset.subset_union_right
          (fun x _ hx => List.count_eq_zero_of_not_mem
            (fun hmem => hx (List.mem_toFinset.mpr hmem)))).symm
    _ = b.length := list_toFinset_sum_count b

theorem sum_insert_step (S : Finset α) (x : α) (f g : α → ℕ) (cB : ℕ)
    (hfg : ∀ y ∈ S, y ≠ x → f y = g y)
    (hx : x ∈ S → f x = cB + g x)
    (hx' : x ∉ S → f x = cB ∧ g x = 0) :
    (∑ y ∈ insert x S, f y) = cB + ∑ y ∈ S, g y := by
  by_cases hxS : x ∈ S
  · rw [Finset.insert_eq_self.mpr hxS]
    rw [← Finset.add_sum_erase _ f hxS, ← Finset.add_sum_erase _ g hxS]
    rw [hx hxS]
    have hc : ∑ y ∈ S.erase x, f y = ∑ y ∈ S.erase x, g y :=
      Finset.sum_congr rfl (fun y hy =>
        hfg y (Finset.mem_of_mem_erase hy) (Finset.ne_of_mem_erase hy))
    omega
  · rw [Finset.sum_insert hxS, (hx' hxS).1]
    have hc : ∑ y ∈ S, f y = ∑ y ∈ S, g y :=
      Finset.sum_congr rfl (fun y hy => hfg y hy (fun h => hxS (h ▸ hy)))
    omega

/-- The scanning loop of `quickRatio` counts, for each distinct remaining
element, the smaller of its multiplicity in the rest of `a` and its
remaining budget. -/
theorem qrLoop_spec (fullbcount : α → ℕ) :
    ∀ (xs : List α) (avail : α → ℤ) (seen : α → Bool) (nmatch : ℕ),
      qrLoop fullbcount xs avail seen nmatch =
        nmatch + ∑ x ∈ xs.toFinset,
          min (xs.count x)
            ((if seen x = true then avail x
              else (fullbcount x : ℤ)).toNat) := by
  intro xs
  induction xs with
  | nil =>
    intro avail seen nmatch
    simp [qrLoop]
  | cons x rest ih =>
    intro avail seen nmatch
    have hstep : qrLoop fullbcount (x :: rest) avail seen nmatch =
        qrLoop fullbcount rest
          (fun y => if y = x then
            (if seen x = true then avail x else (fullbcount x : ℤ)) - 1
            else avail y)
          (fun y => decide (y = x) || seen y)
          (if 0 < (if seen x = true then avail x else (fullbcount x : ℤ))
            then nmatch + 1 else nmatch) := by
      simp only [qrLoop]
    rw [hstep, ih]
    have hφ : ∀ y,
        (if (decide (y = x) || seen y) = true then
          (if y = x then
            (if seen x = true then avail x else (fullbcount x : ℤ)) - 1
            else avail y)
          else (fullbcount y : ℤ)) =
        if y = x then
          (if seen x = true then avail x else (fullbcount x : ℤ)) - 1
          else (if seen y = true then avail y else (fullbcount y : ℤ)) := by
      intro y
      by_cases hy : y = x
      · simp [hy]
      · by_cases hs : seen y = true <;> simp [hy, hs]
    simp only [hφ]
    rw [List.toFinset_cons]
    rw [sum_insert_step rest.toFinset x
      (fun y => min ((x :: rest).count y)
        ((if seen y = true then avail y else (fullbcount y : ℤ)).toNat))
      (fun y => min (rest.count y)
        ((if y = x then
            (if seen x = true then avail x else (fullbcount x : ℤ)) - 1
          else (if seen y = true then avail y
            else (fullbcount y : ℤ))).toNat))
      (if 0 < (if seen x = true then avail x else (fullbcount x : ℤ))
        then 1 else 0) ?_ ?_ ?_]
    · by_cases hB : 0 < (if seen x = true then avail x
          else (fullbcount x : ℤ))
      · rw [if_pos hB, if_pos hB]
        omega
      · rw [if_neg hB, if_neg hB]
        omega
    · intro y _ hy
      dsimp only
      rw [List.count_cons_of_ne (fun h => hy h), if_neg (fun h => hy h)]
    · intro _
      dsimp only
      rw [if_pos rfl, List.count_cons_self]
      by_cases hB : 0 < (if seen x = true then avail x
          else (fullbcount x : ℤ))
      · rw [if_pos hB]
        omega
      · rw [if_neg hB]
        omega
    · intro hxS
      have h0 : rest.count x = 0 :=
        List.count_eq_zero_of_not_mem (fun h => hxS (List.mem_toFinset.mpr h))
      dsimp only
      rw [if_pos rfl, List.count_cons_self, h0]
      by_cases hB : 0 < (if seen x = true then avail x
          else (fullbcount x : ℤ))
      · rw [if_pos hB]
        constructor
        · omega
        · omega
      · rw [if_neg hB]
        constructor
        · omega
        · omega

theorem quickRatio_eq (isjunk : Option (α → Bool)) (a b : List α)
    (autojunk : Bool) :
    quickRatio (mkMatcher isjunk a b autojunk) =
      _calculateRatio (specCount a b) (a.length + b.length) := by
  have h1 : quickRatio (mkMatcher isjunk a b autojunk) =
      _calculateRatio
        (qrLoop (mkFullbcount b) a (fun _ => 0) (fun _ => false) 0)
        (a.length + b.length) := rfl
  rw [h1, qrLoop_spec]
  unfold specCount mkFullbcount
  simp

/-- The non-sentinel matching blocks, with the sentinel appended, are
pairwise separated in ascending order. -/
theorem computeMatchingBlocks_sepAsc (m : Matcher α) (hsound : b2jSound m)
    (hsort : ∀ x, List.Pairwise (· < ·) (m.b2j x)) :
    List.Pairwise sepAsc (computeMatchingBlocks m) := by
  obtain ⟨hm1, hm2, hm3, hm4, hm5, hm6⟩ :=
    computeMatchingBlocks_canonical m hsound hsort
  have hne : computeMatchingBlocks m ≠ [] := by
    intro hnil
    rw [hnil] at hm2
    exact Option.noConfusion hm2
  have hlast := List.getLast?_eq_getLast (computeMatchingBlocks m) hne
  have hsent : (computeMatchingBlocks m).getLast hne =
      (m.a.length, m.b.length, 0) := by
    rw [hlast] at hm2
    exact Option.some.inj hm2
  have hdecomp : (computeMatchingBlocks m).dropLast ++
      [(m.a.length, m.b.length, 0)] = computeMatchingBlocks m := by
    rw [← hsent]
    exact List.dropLast_append_getLast hne
  rw [← hdecomp]
  rw [List.pairwise_append]
  haveI : IsTrans (ℕ × ℕ × ℕ) sepAsc :=
    ⟨fun x y z h1 h2 => by
      unfold sepAsc at h1 h2 ⊢
      omega⟩
  refine ⟨?_, List.pairwise_singleton _ _, ?_⟩
  · rw [← List.chain'_iff_pairwise]
    exact hm5.imp (fun x y h => h.1)
  · intro t ht u hu
    rw [List.mem_singleton.mp hu]
    have hb := hm6 t ht
    unfold sepAsc
    dsimp only
    omega

theorem calcRatio_mono (n1 n2 len : ℕ) (h : n1 ≤ n2) :
    _calculateRatio n1 len ≤ _calculateRatio n2 len := by
  unfold _calculateRatio
  by_cases hl : len ≠ 0
  · rw [if_pos hl, if_pos hl]
    gcongr
  · rw [if_neg hl, if_neg hl]

theorem calcRatio_nonneg (n len : ℕ) : 0 ≤ _calculateRatio n len := by
  unfold _calculateRatio
  split_ifs
  · positivity
  · norm_num

theorem calcRatio_le_one (n len : ℕ) (h : 2 * n ≤ len) :
    _calculateRatio n len ≤ 1 := by
  unfold _calculateRatio
  split_ifs with hl
  · rw [div_le_one (by exact_mod_cast Nat.pos_of_ne_zero hl)]
    exact_mod_cast h
  · exact le_refl 1

/-- C5: for every matcher built by the constructor,
`realQuickRatio() >= quickRatio() >= ratio()`. -/
theorem ratio_ordering (isjunk : Option (α → Bool)) (a b : List α)
    (autojunk : Bool) :
    ratio (mkMatcher isjunk a b autojunk) ≤
      quickRatio (mkMatcher isjunk a b autojunk) ∧
    quickRatio (mkMatcher isjunk a b autojunk) ≤
      realQuickRatio (mkMatcher isjunk a b autojunk) := by
  have hq := quickRatio_eq isjunk a b autojunk
  have hr : ratio (mkMatcher isjunk a b autojunk) =
      _calculateRatio
        (((computeMatchingBlocks (mkMatcher isjunk a b autojunk)).map
          (fun t => t.2.2)).sum)
        (a.length + b.length) := rfl
  have hrq : realQuickRatio (mkMatcher isjunk a b autojunk) =
      _calculateRatio (min a.length b.length) (a.length + b.length) := rfl
  obtain ⟨hm1, _, _, _, _, _⟩ := computeMatchingBlocks_canonical
    (mkMatcher isjunk a b autojunk)
    (mkMatcher_b2jSound isjunk a b autojunk)
    (fun x => mkB2j_sorted b isjunk autojunk x)
  have hsum := blockSum_le_specCount a b
    (computeMatchingBlocks (mkMatcher isjunk a b autojunk))
    (computeMatchingBlocks_sepAsc (mkMatcher isjunk a b autojunk)
      (mkMatcher_b2jSound isjunk a b autojunk)
      (fun x => mkB2j_sorted b isjunk autojunk x))
    hm1
  rw [hr, hq, hrq]
  constructor
  · exact calcRatio_mono _ _ _ hsum
  · exact calcRatio_mono _ _ _
      (le_min (specCount_le_left a b) (specCount_le_right a b))

/-- C10: every ratio lies in `[0, 1]`, and all three are exactly `1` on a
pair of empty sequences. -/
theorem ratio_bounds (isjunk : Option (α → Bool)) (a b : List α)
    (autojunk : Bool) :
    (0 ≤ ratio (mkMatcher isjunk a b autojunk) ∧
      ratio (mkMatcher isjunk a b autojunk) ≤ 1) ∧
    (0 ≤ quickRatio (mkMatcher isjunk a b autojunk) ∧
      quickRatio (mkMatcher isjunk a b autojunk) ≤ 1) ∧
    (0 ≤ realQuickRatio (mkMatcher isjunk a b autojunk) ∧
      realQuickRatio (mkMatcher isjunk a b autojunk) ≤ 1) ∧
    (a = [] → b = [] →
      ratio (mkMatcher isjunk a b autojunk) = 1 ∧
      quickRatio (mkMatcher isjunk a b autojunk) = 1 ∧
      realQuickRatio (mkMatcher isjunk a b autojunk) = 1) := by
  have hq := quickRatio_eq isjunk a b autojunk
  have hr : ratio (mkMatcher isjunk a b autojunk) =
      _calculateRatio
        (((computeMatchingBlocks (mkMatcher isjunk a b autojunk)).map
          (fun t => t.2.2)).sum)
        (a.length + b.length) := rfl
  have hrq : realQuickRatio (mkMatcher isjunk a b autojunk) =
      _calculateRatio (min a.length b.length) (a.length + b.length) := rfl
  obtain ⟨hm1, _, _, _, _, _⟩ := computeMatchingBlocks_canonical
    (mkMatcher isjunk a b autojunk)
    (mkMatcher_b2jSound isjunk a b autojunk)
    (fun x => mkB2j_sorted b isjunk autojunk x)
  have hsum := blockSum_le_specCount a b
    (computeMatchingBlocks (mkMatcher isjunk a b autojunk))
    (computeMatchingBlocks_sepAsc (mkMatcher isjunk a b autojunk)
      (mkMatcher_b2jSound isjunk a b autojunk)
      (fun x => mkB2j_sorted b isjunk autojunk x))
    hm1
  have hspecA := specCount_le_left a b
  have hspecB := specCount_le_right a b
  refine ⟨⟨?_, ?_⟩, ⟨?_, ?_⟩, ⟨?_, ?_⟩, ?_⟩
  · rw [hr]
    exact calcRatio_nonneg _ _
  · rw [hr]
    exact calcRatio_le_one _ _ (by omega)
  · rw [hq]
    exact calcRatio_nonneg _ _
  · rw [hq]
    exact calcRatio_le_one _ _ (by omega)
  · rw [hrq]
    exact calcRatio_nonneg _ _
  · rw [hrq]
    exact calcRatio_le_one _ _ (by omega)
  · intro ha hb
    subst ha
    subst hb
    refine ⟨?_, ?_, rfl⟩
    · rw [hr]
      rfl
    · rw [hq]
      rfl

/-! ### The ndiff / restore round trip -/

theorem filterMap_all_some {γ δ : Type} (f : γ → Option δ) (g : γ → δ) :
    ∀ l : List γ, (∀ y ∈ l, f y = some (g y)) → l.filterMap f = l.map g := by
  intro l
  induction l with
  | nil =>
    intro _
    rfl
  | cons y ys ih =>
    intro h
    rw [List.filterMap_cons, h y (List.mem_cons_self _ _), List.map_cons,
      ih (fun u hu => h u (List.mem_cons_of_mem _ hu))]

theorem filterMap_all_none {γ δ : Type} (f : γ → Option δ) :
    ∀ l : List γ, (∀ y ∈ l, f y = none) → l.filterMap f = [] := by
  intro l
  induction l with
  | nil =>
    intro _
    rfl
  | cons y ys ih =>
    intro h
    rw [List.filterMap_cons, h y (List.mem_cons_self _ _),
      ih (fun u hu => h u (List.mem_cons_of_mem _ hu))]

theorem restoreKeep_append (tag : Line) (l1 l2 : List Line) :
    restoreKeep tag (l1 ++ l2) = restoreKeep tag l1 ++ restoreKeep tag l2 := by
  unfold restoreKeep
  exact List.filterMap_append _ _ _

theorem restoreKeep_nil (tag : Line) : restoreKeep tag [] = [] := rfl

theorem restoreKeep_dump (tag : Line) (c : Char) (x : List Line)
    (lo hi : ℕ) :
    restoreKeep tag (dumpLines c x lo hi) =
      if [c, ' '] = [' ', ' '] ∨ [c, ' '] = tag then winSlice x lo hi
      else [] := by
  unfold restoreKeep dumpLines winSlice
  rw [List.filterMap_map]
  split_ifs with h
  · refine filterMap_all_some _ _ _ (fun y _ => ?_)
    simp only [Function.comp]
    have e : List.take 2 (c :: ' ' :: x.getD y []) = [c, ' '] := rfl
    rw [e, if_pos h]
    rfl
  · refine filterMap_all_none _ _ (fun y _ => ?_)
    simp only [Function.comp]
    have e : List.take 2 (c :: ' ' :: x.getD y []) = [c, ' '] := rfl
    rw [e, if_neg h]

theorem restoreKeep_single_keep (tag : Line) (c : Char)
    (h : [c, ' '] = [' ', ' '] ∨ [c, ' '] = tag) (l : Line) :
    restoreKeep tag [c :: ' ' :: l] = [l] := by
  unfold restoreKeep
  rw [List.filterMap_cons]
  have e : List.take 2 (c :: ' ' :: l) = [c, ' '] := rfl
  rw [e, if_pos h]
  rfl

theorem restoreKeep_single_drop (tag : Line) (c : Char)
    (h : ¬([c, ' '] = [' ', ' '] ∨ [c, ' '] = tag)) (l : Line) :
    restoreKeep tag [c :: ' ' :: l] = [] := by
  unfold restoreKeep
  rw [List.filterMap_cons]
  have e : List.take 2 (c :: ' ' :: l) = [c, ' '] := rfl
  rw [e, if_neg h]
  rfl

theorem restoreKeep_qformat (tag : Line) (c : Char)
    (aline bline atags btags : Line)
    (hc : tag = [c, ' ']) (hcs : c = '-' ∨ c = '+') :
    restoreKeep tag (_qformat aline bline atags btags) =
      if c = '-' then [aline] else [bline] := by
  unfold _qformat
  simp only [restoreKeep_append]
  rcases hcs with rfl | rfl
  · rw [show (if ('-' : Char) = '-' then [aline] else [bline]) = [aline]
      from if_pos rfl]
    have k1 : ∀ l, restoreKeep tag ['-' :: ' ' :: l] = [l] :=
      restoreKeep_single_keep tag '-' (Or.inr hc.symm)
    have k2 : ∀ l, restoreKeep tag ['+' :: ' ' :: l] = [] :=
      restoreKeep_single_drop tag '+' (by rw [hc]; decide)
    have k3 : ∀ l, restoreKeep tag ['?' :: ' ' :: l] = [] :=
      restoreKeep_single_drop tag '?' (by rw [hc]; decide)
    split_ifs <;> simp [k1, k2, k3, restoreKeep_nil]
  · rw [show (if ('+' : Char) = '-' then [aline] else [bline]) = [bline]
      from if_neg (by decide)]
    have k1 : ∀ l, restoreKeep tag ['+' :: ' ' :: l] = [l] :=
      restoreKeep_single_keep tag '+' (Or.inr hc.symm)
    have k2 : ∀ l, restoreKeep tag ['-' :: ' ' :: l] = [] :=
      restoreKeep_single_drop tag '-' (by rw [hc]; decide)
    have k3 : ∀ l, restoreKeep tag ['?' :: ' ' :: l] = [] :=
      restoreKeep_single_drop tag '?' (by rw [hc]; decide)
    split_ifs <;> simp [k1, k2, k3, restoreKeep_nil]

theorem winSlice_empty (x : List Line) (lo hi : ℕ) (h : hi ≤ lo) :
    winSlice x lo hi = [] := by
  unfold winSlice
  rw [show hi - lo = 0 by omega]
  rfl

theorem winSlice_single (x : List Line) (i : ℕ) :
    winSlice x i (i + 1) = [x.getD i []] := by
  unfold winSlice
  rw [show i + 1 - i = 1 by omega]
  rfl

theorem winSlice_append (x : List Line) (lo mid hi : ℕ)
    (h1 : lo ≤ mid) (h2 : mid ≤ hi) :
    winSlice x lo mid ++ winSlice x mid hi = winSlice x lo hi := by
  unfold winSlice
  rw [← List.map_append]
  congr 1
  have h := List.range'_append_1 lo (mid - lo) (hi - mid)
  rw [show lo + (mid - lo) = mid by omega] at h
  rw [show (hi - mid) + (mid - lo) = hi - lo by omega] at h
  exact h

theorem winSlice_all (x : List Line) : winSlice x 0 x.length = x := by
  apply List.ext_getElem
  · simp [winSlice]
  · intro i h1 h2
    simp only [winSlice, Nat.sub_zero] at h1 ⊢
    rw [List.getElem_map, List.getElem_range']
    rw [List.getD_eq_getElem x [] (by simpa using h2)]
    congr 1
    omega

theorem foldl_inv {σ β : Type} (f : σ → β → σ) (P : σ → Prop) :
    ∀ (l : List β) (s : σ), P s → (∀ s' x, x ∈ l → P s' → P (f s' x)) →
      P (l.foldl f s) := by
  intro l
  induction l with
  | nil =>
    intro s hs _
    exact hs
  | cons x xs ih =>
    intro s hs hstep
    exact ih (f s x) (hstep s x (List.mem_cons_self _ _) hs)
      (fun s' y hy hP => hstep s' y (List.mem_cons_of_mem _ hy) hP)

/-- The `_fancyReplace` scan keeps its recorded pairs inside the window,
records only identical pairs as the synch pair, and raises the ratio
exactly when it records a best pair. -/
theorem scanPairs_facts (charjunk : Option (Char → Bool)) (a : List Line)
    (alo ahi : ℕ) (b : List Line) (blo bhi : ℕ) :
    (∀ i j, (scanPairs charjunk a alo ahi b blo bhi).2.1 = some (i, j) →
      alo ≤ i ∧ i < ahi ∧ blo ≤ j ∧ j < bhi) ∧
    (∀ i j, (scanPairs charjunk a alo ahi b blo bhi).2.2 = some (i, j) →
      (alo ≤ i ∧ i < ahi ∧ blo ≤ j ∧ j < bhi) ∧
        a.getD i [] = b.getD j []) ∧
    ((scanPairs charjunk a alo ahi b blo bhi).2.1 = none →
      (scanPairs charjunk a alo ahi b blo bhi).1 = 37 / 50) := by
  unfold scanPairs
  apply foldl_inv _ (fun st : ℚ × Option (ℕ × ℕ) × Option (ℕ × ℕ) =>
    (∀ i j, st.2.1 = some (i, j) →
      alo ≤ i ∧ i < ahi ∧ blo ≤ j ∧ j < bhi) ∧
    (∀ i j, st.2.2 = some (i, j) →
      (alo ≤ i ∧ i < ahi ∧ blo ≤ j ∧ j < bhi) ∧
        a.getD i [] = b.getD j []) ∧
    (st.2.1 = none → st.1 = 37 / 50))
  · exact ⟨fun i j h => Option.noConfusion h,
      fun i j h => Option.noConfusion h, fun _ => rfl⟩
  · intro st j hj hst
    rw [List.mem_range'_1] at hj
    refine foldl_inv (scanStep charjunk a b j)
      (fun st : ℚ × Option (ℕ × ℕ) × Option (ℕ × ℕ) =>
        (∀ i j', st.2.1 = some (i, j') →
          alo ≤ i ∧ i < ahi ∧ blo ≤ j' ∧ j' < bhi) ∧
        (∀ i j', st.2.2 = some (i, j') →
          (alo ≤ i ∧ i < ahi ∧ blo ≤ j' ∧ j' < bhi) ∧
            a.getD i [] = b.getD j' []) ∧
        (st.2.1 = none → st.1 = 37 / 50))
      _ _ hst ?_
    intro st' i hi hst'
    rw [List.mem_range'_1] at hi
    unfold scanStep
    dsimp only
    by_cases heq : a.getD i [] = b.getD j []
    · rw [if_pos heq]
      rcases hcur : st'.2.2 with _ | p
      · dsimp only
        refine ⟨hst'.1, ?_, hst'.2.2⟩
        intro i' j' h
        have hpq := Option.some.inj h
        cases hpq
        exact ⟨⟨by omega, by omega, by omega, by omega⟩, heq⟩
      · dsimp only
        exact hst'
    · rw [if_neg heq]
      split_ifs with himp
      · refine ⟨?_, hst'.2.1, ?_⟩
        · intro i' j' h
          dsimp only at h
          have hpq := Option.some.inj h
          cases hpq
          exact ⟨by omega, by omega, by omega, by omega⟩
        · intro h
          dsimp only at h
      · exact hst'

/-- With enough fuel, `_fancyReplace` renders exactly the window of `a` on
the `-`/` ` lines and exactly the window of `b` on the `+`/` ` lines. -/
theorem fancyReplace_restore (d : DifferT) :
    ∀ (fuel : ℕ) (a : List Line) (alo ahi : ℕ) (b : List Line) (blo bhi : ℕ),
      alo ≤ ahi → blo ≤ bhi → (ahi - alo) + (bhi - blo) < fuel →
      restoreKeep ['-', ' '] (fancyReplace d fuel a alo ahi b blo bhi) =
        winSlice a alo ahi ∧
      restoreKeep ['+', ' '] (fancyReplace d fuel a alo ahi b blo bhi) =
        winSlice b blo bhi := by
  intro fuel
  induction fuel with
  | zero =>
    intro a alo ahi b blo bhi _ _ hf
    exact absurd hf (Nat.not_lt_zero _)
  | succ fuel ih =>
    intro a alo ahi b blo bhi h1 h2 hf
    have hH : ∀ lo hi lo' hi', lo ≤ hi → lo' ≤ hi' →
        (hi - lo) + (hi' - lo') < fuel →
        restoreKeep ['-', ' ']
          (fancyHelper (fancyReplace d fuel) a lo hi b lo' hi') =
          winSlice a lo hi ∧
        restoreKeep ['+', ' ']
          (fancyHelper (fancyReplace d fuel) a lo hi b lo' hi') =
          winSlice b lo' hi' := by
      intro lo hi lo' hi' hl hl' hff
      unfold fancyHelper
      split_ifs with hA hB hB
      · exact ih a lo hi b lo' hi' hl hl' hff
      · constructor
        · rw [restoreKeep_dump, if_pos (Or.inr rfl)]
        · rw [restoreKeep_dump, if_neg (by decide),
            winSlice_empty b lo' hi' (by omega)]
      · constructor
        · rw [restoreKeep_dump, if_neg (by decide),
            winSlice_empty a lo hi (by omega)]
        · rw [restoreKeep_dump, if_pos (Or.inr rfl)]
      · constructor
        · rw [restoreKeep_nil, winSlice_empty a lo hi (by omega)]
        · rw [restoreKeep_nil, winSlice_empty b lo' hi' (by omega)]
    obtain ⟨hs1, hs2, hs3⟩ := scanPairs_facts d.charjunk a alo ahi b blo bhi
    rcases hscan : scanPairs d.charjunk a alo ahi b blo bhi with ⟨r, bp, ep⟩
    rw [hscan] at hs1 hs2 hs3
    dsimp only at hs1 hs2 hs3
    by_cases hr : r < 3 / 4
    · rcases hep : ep with _ | p
      · subst hep
        have hstep : fancyReplace d (fuel + 1) a alo ahi b blo bhi =
            plainReplace a alo ahi b blo bhi := by
          simp only [fancyReplace, hscan]
          try dsimp only
          rw [if_pos hr]
        rw [hstep]
        unfold plainReplace
        split_ifs
        · constructor
          · rw [restoreKeep_append, restoreKeep_dump, restoreKeep_dump,
              if_neg (by decide), if_pos (Or.inr rfl), List.nil_append]
          · rw [restoreKeep_append, restoreKeep_dump, restoreKeep_dump,
              if_pos (Or.inr rfl), if_neg (by decide), List.append_nil]
        · constructor
          · rw [restoreKeep_append, restoreKeep_dump, restoreKeep_dump,
              if_pos (Or.inr rfl), if_neg (by decide), List.append_nil]
          · rw [restoreKeep_append, restoreKeep_dump, restoreKeep_dump,
              if_neg (by decide), if_pos (Or.inr rfl), List.nil_append]
      · subst hep
        obtain ⟨eqi, eqj⟩ := p
        obtain ⟨hrange, hident⟩ := hs2 eqi eqj rfl
        have hstep : fancyReplace d (fuel + 1) a alo ahi b blo bhi =
            fancyHelper (fancyReplace d fuel) a alo eqi b blo eqj ++
              [' ' :: ' ' :: a.getD eqi []] ++
              fancyHelper (fancyReplace d fuel) a (eqi + 1) ahi b (eqj + 1)
                bhi := by
          simp only [fancyReplace, hscan]
          try dsimp only
          rw [if_pos hr]
          simp
        rw [hstep]
        have sub1 := hH alo eqi blo eqj (by omega) (by omega) (by omega)
        have sub2 := hH (eqi + 1) ahi (eqj + 1) bhi (by omega) (by omega)
          (by omega)
        constructor
        · rw [restoreKeep_append, restoreKeep_append, sub1.1, sub2.1,
            restoreKeep_single_keep ['-', ' '] ' ' (Or.inl rfl) _]
          rw [← winSlice_single a eqi]
          rw [winSlice_append a alo eqi (eqi + 1) (by omega) (by omega)]
          rw [winSlice_append a alo (eqi + 1) ahi (by omega) (by omega)]
        · rw [restoreKeep_append, restoreKeep_append, sub1.2, sub2.2,
            restoreKeep_single_keep ['+', ' '] ' ' (Or.inl rfl) _]
          rw [hident]
          rw [← winSlice_single b eqj]
          rw [winSlice_append b blo eqj (eqj + 1) (by omega) (by omega)]
          rw [winSlice_append b blo (eqj + 1) bhi (by omega) (by omega)]
    · rcases hbp : bp with _ | p
      · subst hbp
        exfalso
        have h37 := hs3 rfl
        rw [h37] at hr
        exact hr (by norm_num)
      · subst hbp
        obtain ⟨besti, bestj⟩ := p
        have hrange := hs1 besti bestj rfl
        have hstep : fancyReplace d (fuel + 1) a alo ahi b blo bhi =
            fancyHelper (fancyReplace d fuel) a alo besti b blo bestj ++
              _qformat (a.getD besti []) (b.getD bestj [])
                (intralineTags (getOpcodes (mkMatcher d.charjunk
                  (a.getD besti []) (b.getD bestj []) true)) ([], [])).1
                (intralineTags (getOpcodes (mkMatcher d.charjunk
                  (a.getD besti []) (b.getD bestj []) true)) ([], [])).2 ++
              fancyHelper (fancyReplace d fuel) a (besti + 1) ahi b
                (bestj + 1) bhi := by
          simp only [fancyReplace, hscan]
          try dsimp only
          rw [if_neg hr]
          simp
        rw [hstep]
        have sub1 := hH alo besti blo bestj (by omega) (by omega) (by omega)
        have sub2 := hH (besti + 1) ahi (bestj + 1) bhi (by omega) (by omega)
          (by omega)
        constructor
        · rw [restoreKeep_append, restoreKeep_append, sub1.1, sub2.1,
            (restoreKeep_qformat ['-', ' '] '-' _ _ _ _ rfl
              (Or.inl rfl)).trans (if_pos rfl)]
          rw [← winSlice_single a besti]
          rw [winSlice_append a alo besti (besti + 1) (by omega) (by omega)]
          rw [winSlice_append a alo (besti + 1) ahi (by omega) (by omega)]
        · rw [restoreKeep_append, restoreKeep_append, sub1.2, sub2.2,
            (restoreKeep_qformat ['+', ' '] '+' _ _ _ _ rfl
              (Or.inr rfl)).trans (if_neg (by decide))]
          rw [← winSlice_single b bestj]
          rw [winSlice_append b blo bestj (bestj + 1) (by omega) (by omega)]
          rw [winSlice_append b blo (bestj + 1) bhi (by omega) (by omega)]

/-- Ordering and content of the emitted opcodes: every opcode has
ascending ranges, and every `equal` opcode is the untouched span of a
matching block. -/
theorem opcodesFromBlocks_extra :
    ∀ (l : List (ℕ × ℕ × ℕ)) (i j : ℕ),
      List.Chain' sepAsc l →
      (∀ u ∈ l.head?, i ≤ u.1 ∧ j ≤ u.2.1) →
      ∀ op ∈ opcodesFromBlocks l i j,
        (op.2.1 ≤ op.2.2.1 ∧ op.2.2.2.1 ≤ op.2.2.2.2) ∧
        (op.1 = Tag.equal →
          ∃ t ∈ l, op = (Tag.equal, t.1, t.1 + t.2.2, t.2.1,
            t.2.1 + t.2.2)) := by
  intro l
  induction l with
  | nil =>
    intro i j _ _ op hop
    exact absurd hop (List.not_mem_nil op)
  | cons hd rest ih =>
    obtain ⟨ai, bj, size⟩ := hd
    intro i j hch hcur op hop
    obtain ⟨hi, hj⟩ := hcur _ rfl
    dsimp only at hi hj
    have hch1 := (List.chain'_cons'.mp hch).1
    have hch2 := (List.chain'_cons'.mp hch).2
    have hcur' : ∀ u ∈ rest.head?, ai + size ≤ u.1 ∧ bj + size ≤ u.2.1 := by
      intro u hu
      have hh := hch1 u hu
      unfold sepAsc at hh
      dsimp only at hh
      exact hh
    have hstep : opcodesFromBlocks ((ai, bj, size) :: rest) i j =
        (if i < ai ∧ j < bj then [(Tag.replace, i, ai, j, bj)]
         else if i < ai then [(Tag.delete, i, ai, j, bj)]
         else if j < bj then [(Tag.insert, i, ai, j, bj)]
         else [])
        ++ (if size ≠ 0 then [(Tag.equal, ai, ai + size, bj, bj + size)]
            else [])
        ++ opcodesFromBlocks rest (ai + size) (bj + size) := by
      simp only [opcodesFromBlocks]
    rw [hstep] at hop
    rcases List.mem_append.mp hop with hop | hop
    · rcases List.mem_append.mp hop with hop | hop
      · split_ifs at hop with g1 g2 g3
        · rw [List.mem_singleton.mp hop]
          exact ⟨⟨hi, hj⟩, fun h => Tag.noConfusion h⟩
        · rw [List.mem_singleton.mp hop]
          exact ⟨⟨hi, hj⟩, fun h => Tag.noConfusion h⟩
        · rw [List.mem_singleton.mp hop]
          exact ⟨⟨hi, hj⟩, fun h => Tag.noConfusion h⟩
        · exact absurd hop (List.not_mem_nil op)
      · split_ifs at hop with g4
        · rw [List.mem_singleton.mp hop]
          refine ⟨⟨Nat.le_add_right _ _, Nat.le_add_right _ _⟩,
            fun _ => ?_⟩
          exact ⟨(ai, bj, size), List.mem_cons_self _ _, rfl⟩
        · exact absurd hop (List.not_mem_nil op)
    · have hrec := ih (ai + size) (bj + size) hch2 hcur' op hop
      refine ⟨hrec.1, fun h => ?_⟩
      obtain ⟨t, ht, heq⟩ := hrec.2 h
      exact ⟨t, List.mem_cons_of_mem _ ht, heq⟩

theorem opChain_le : ∀ (ops : List Opcode) (i j e1 e2 : ℕ),
    opChain (i, j) ops (e1, e2) →
    (∀ op ∈ ops, op.2.1 ≤ op.2.2.1 ∧ op.2.2.2.1 ≤ op.2.2.2.2) →
    i ≤ e1 ∧ j ≤ e2 := by
  intro ops
  induction ops with
  | nil =>
    intro i j e1 e2 hc _
    have hc' : (i, j) = (e1, e2) := hc
    exact ⟨le_of_eq (congrArg Prod.fst hc'),
      le_of_eq (congrArg Prod.snd hc')⟩
  | cons op ops ih =>
    obtain ⟨tg, i1, i2, j1, j2⟩ := op
    intro i j e1 e2 hc hord
    have hc' : (i, j) = (i1, j1) ∧ opChain (i2, j2) ops (e1, e2) := hc
    have h1 := congrArg Prod.fst hc'.1
    have h2 := congrArg Prod.snd hc'.1
    dsimp only at h1 h2
    have hhd := hord _ (List.mem_cons_self _ _)
    dsimp only at hhd
    have hr := ih i2 j2 e1 e2 hc'.2
      (fun u hu => hord u (List.mem_cons_of_mem _ hu))
    omega

/-- Slices of matching ranges agree. -/
theorem winSlice_of_matchAt (a b : List Line) (i1 i2 j1 j2 : ℕ)
    (hsz : i2 - i1 = j2 - j1) (hm : matchAt a b i1 j1 (i2 - i1)) :
    winSlice a i1 i2 = winSlice b j1 j2 := by
  unfold winSlice
  rw [show j2 - j1 = i2 - i1 from hsz.symm]
  apply List.ext_getElem
  · simp
  · intro t ht1 ht2
    simp only [List.length_map, List.length_range'] at ht1
    simp only [List.getElem_map, List.getElem_range', one_mul,
      List.getD_eq_getElem?_getD]
    have hmt := (hm t ht1).2
    rw [hmt]

/-- The per-opcode rendering of `compare`, over any opcode tiling with
well-shaped ascending opcodes whose `equal` spans match, restores the `a`
window on the `-`/` ` lines and the `b` window on the `+`/` ` lines. -/
theorem render_restore (d : DifferT) (a b : List Line) :
    ∀ (ops : List Opcode) (i j : ℕ),
      opChain (i, j) ops (a.length, b.length) →
      (∀ op ∈ ops, opShape op) →
      (∀ op ∈ ops, op.2.1 ≤ op.2.2.1 ∧ op.2.2.2.1 ≤ op.2.2.2.2) →
      (∀ op ∈ ops, op.1 = Tag.equal →
        op.2.2.1 - op.2.1 = op.2.2.2.2 - op.2.2.2.1 ∧
          matchAt a b op.2.1 op.2.2.2.1 (op.2.2.1 - op.2.1)) →
      restoreKeep ['-', ' '] (ops.flatMap (fun op =>
        match op with
        | (Tag.replace, alo, ahi, blo, bhi) =>
          fancyReplace d ((ahi - alo) + (bhi - blo) + 1) a alo ahi b blo bhi
        | (Tag.delete, alo, ahi, _, _) => dumpLines '-' a alo ahi
        | (Tag.insert, _, _, blo, bhi) => dumpLines '+' b blo bhi
        | (Tag.equal, alo, ahi, _, _) => dumpLines ' ' a alo ahi)) =
        winSlice a i a.length ∧
      restoreKeep ['+', ' '] (ops.flatMap (fun op =>
        match op with
        | (Tag.replace, alo, ahi, blo, bhi) =>
          fancyReplace d ((ahi - alo) + (bhi - blo) + 1) a alo ahi b blo bhi
        | (Tag.delete, alo, ahi, _, _) => dumpLines '-' a alo ahi
        | (Tag.insert, _, _, blo, bhi) => dumpLines '+' b blo bhi
        | (Tag.equal, alo, ahi, _, _) => dumpLines ' ' a alo ahi)) =
        winSlice b j b.length := by
  intro ops
  induction ops with
  | nil =>
    intro i j hchain _ _ _
    have hc' : (i, j) = (a.length, b.length) := hchain
    have h1 := congrArg Prod.fst hc'
    have h2 := congrArg Prod.snd hc'
    dsimp only at h1 h2
    constructor
    · rw [List.flatMap_nil, restoreKeep_nil, winSlice_empty a i a.length
        (by omega)]
    · rw [List.flatMap_nil, restoreKeep_nil, winSlice_empty b j b.length
        (by omega)]
  | cons op ops ih =>
    obtain ⟨tg, i1, i2, j1, j2⟩ := op
    intro i j hchain hshape hord heqm
    have hc' : (i, j) = (i1, j1) ∧
        opChain (i2, j2) ops (a.length, b.length) := hchain
    have h1 := congrArg Prod.fst hc'.1
    have h2 := congrArg Prod.snd hc'.1
    dsimp only at h1 h2
    rw [h1, h2]
    have hhd := hord _ (List.mem_cons_self _ _)
    dsimp only at hhd
    have hshd := hshape _ (List.mem_cons_self _ _)
    have hrest : opChain (i2, j2) ops (a.length, b.length) := hc'.2
    have hend := opChain_le ops i2 j2 a.length b.length hrest
      (fun u hu => hord u (List.mem_cons_of_mem _ hu))
    obtain ⟨ihA, ihB⟩ := ih i2 j2 hrest
      (fun u hu => hshape u (List.mem_cons_of_mem _ hu))
      (fun u hu => hord u (List.mem_cons_of_mem _ hu))
      (fun u hu => heqm u (List.mem_cons_of_mem _ hu))
    rw [List.flatMap_cons, restoreKeep_append, restoreKeep_append]
    cases tg
    · -- equal
      have hq := heqm _ (List.mem_cons_self _ _) rfl
      dsimp only at hq
      dsimp only
      constructor
      · rw [restoreKeep_dump, if_pos (Or.inl rfl), ihA,
          winSlice_append a i1 i2 a.length hhd.1 hend.1]
      · rw [restoreKeep_dump, if_pos (Or.inl rfl), ihB]
        rw [winSlice_of_matchAt a b i1 i2 j1 j2 hq.1 hq.2]
        rw [winSlice_append b j1 j2 b.length hhd.2 hend.2]
    · -- insert
      have hii : i1 = i2 := hshd
      dsimp only
      constructor
      · rw [restoreKeep_dump, if_neg (by decide), List.nil_append, ihA,
          hii]
      · rw [restoreKeep_dump, if_pos (Or.inr rfl), ihB,
          winSlice_append b j1 j2 b.length hhd.2 hend.2]
    · -- delete
      have hjj : j1 = j2 := hshd
      dsimp only
      constructor
      · rw [restoreKeep_dump, if_pos (Or.inr rfl), ihA,
          winSlice_append a i1 i2 a.length hhd.1 hend.1]
      · rw [restoreKeep_dump, if_neg (by decide), List.nil_append, ihB,
          hjj]
    · -- replace
      dsimp only
      obtain ⟨hfA, hfB⟩ := fancyReplace_restore d
        ((i2 - i1) + (j2 - j1) + 1) a i1 i2 b j1 j2 hhd.1 hhd.2 (by omega)
      constructor
      · rw [hfA, ihA, winSlice_append a i1 i2 a.length hhd.1 hend.1]
      · rw [hfB, ihB, winSlice_append b j1 j2 b.length hhd.2 hend.2]

/-- C4: for every pair of line lists, `restore(ndiff(a, b), 1)` returns
`a` and `restore(ndiff(a, b), 2)` returns `b` (with ndiff's default
`linejunk` and `charjunk`); in particular this covers every pair of lists
of newline-terminated single-line strings. -/
theorem restore_ndiff (a b : List Line) :
    restore (ndiff none none a b) 1 = Except.ok a ∧
    restore (ndiff none none a b) 2 = Except.ok b := by
  have hsound := mkMatcher_b2jSound (none : Option (Line → Bool)) a b true
  have hsort : ∀ x, List.Pairwise (· < ·)
      ((mkMatcher (none : Option (Line → Bool)) a b true).b2j x) :=
    fun x => mkB2j_sorted b none true x
  obtain ⟨hchain, hshape, _⟩ := computeOpcodes_tiling
    (mkMatcher (none : Option (Line → Bool)) a b true) hsound hsort
  have hpw := computeMatchingBlocks_sepAsc
    (mkMatcher (none : Option (Line → Bool)) a b true) hsound hsort
  obtain ⟨hm1, _, _, _, _, _⟩ := computeMatchingBlocks_canonical
    (mkMatcher (none : Option (Line → Bool)) a b true) hsound hsort
  have hextra := opcodesFromBlocks_extra
    (computeMatchingBlocks (mkMatcher (none : Option (Line → Bool)) a b
      true)) 0 0 hpw.chain'
    (fun u _ => ⟨Nat.zero_le _, Nat.zero_le _⟩)
  have heqm : ∀ op ∈ opcodesFromBlocks
      (computeMatchingBlocks (mkMatcher (none : Option (Line → Bool)) a b
        true)) 0 0,
      op.1 = Tag.equal →
        op.2.2.1 - op.2.1 = op.2.2.2.2 - op.2.2.2.1 ∧
          matchAt a b op.2.1 op.2.2.2.1 (op.2.2.1 - op.2.1) := by
    intro op hop h
    obtain ⟨t, ht, heq⟩ := (hextra op hop).2 h
    have hmt := hm1 t ht
    rw [heq]
    dsimp only
    constructor
    · omega
    · rw [show t.1 + t.2.2 - t.1 = t.2.2 by omega]
      exact hmt
  obtain ⟨hA, hB⟩ := render_restore ⟨none, some IS_CHARACTER_JUNK⟩ a b
    (opcodesFromBlocks (computeMatchingBlocks
      (mkMatcher (none : Option (Line → Bool)) a b true)) 0 0) 0 0
    hchain hshape (fun op hop => (hextra op hop).1) heqm
  have hd1 : restore (ndiff none none a b) 1 =
      Except.ok (restoreKeep ['-', ' '] (ndiff none none a b)) := rfl
  have hd2 : restore (ndiff none none a b) 2 =
      Except.ok (restoreKeep ['+', ' '] (ndiff none none a b)) := by
    unfold restore
    rw [if_neg (by decide), if_pos rfl]
  have hnd : ndiff none none a b =
      (opcodesFromBlocks (computeMatchingBlocks
        (mkMatcher (none : Option (Line → Bool)) a b true)) 0 0).flatMap
        (fun op =>
          match op with
          | (Tag.replace, alo, ahi, blo, bhi) =>
            fancyReplace ⟨none, some IS_CHARACTER_JUNK⟩
              ((ahi - alo) + (bhi - blo) + 1) a alo ahi b blo bhi
          | (Tag.delete, alo, ahi, _, _) => dumpLines '-' a alo ahi
          | (Tag.insert, _, _, blo, bhi) => dumpLines '+' b blo bhi
          | (Tag.equal, alo, ahi, _, _) => dumpLines ' ' a alo ahi) := rfl
  constructor
  · rw [hd1, hnd, hA, winSlice_all]
  · rw [hd2, hnd, hB, winSlice_all]

end Difflib
